import Mathlib

/-!
Verification of the Christofides-style TSP pipeline in `Christofides_TSP.cpp`.

The C++ code is shallowly embedded as follows.

* `double` values (distances) become elements of a linear ordered field `α`
  (instantiated at `ℝ` for the Euclidean pipeline, at `ℚ` for concrete
  executable instances).  The sentinel `numeric_limits<double>::infinity()`
  used by Prim's algorithm and the greedy matcher becomes `⊤ : WithTop α`;
  every genuine matrix entry is a finite element of `α`, matching the fact
  that Euclidean distances are finite doubles.
* `vector<vector<double>> d` (read-only after construction) becomes a
  function `d : ℕ → ℕ → α` together with an explicit dimension `n`.
* The mutated vectors `key`, `parent`, `inMST` become functions updated
  pointwise; the mutated `vector<vector<int>> adj` becomes a
  `List (List ℕ)` updated with `List.set`, so that `push_back`, `pop_back`
  and `find`+`erase` have exact counterparts (`++ [·]`, `dropLast`,
  `List.erase`).
* The `int` sentinel `-1` (unselected scan index) is kept as a genuine
  `ℤ` value so that claims about the sentinel can be stated faithfully.
  Where the C++ code would index a vector with `-1` (undefined behaviour),
  the embedding takes a harmless branch; the theorems below show those
  branches are unreachable under the documented preconditions.
* The traversal stack of Hierholzer's algorithm (`stack.back()` is the
  top) is embedded as a Lean list whose *head* is the top of the stack.
-/

namespace TSP

variable {α : Type} [LinearOrderedField α]

/-- A city in 2D space (`struct Point { double x, y; }`). -/
structure Point where
  x : ℝ
  y : ℝ

/-- `distEuclid`: Euclidean distance between two points
(`sqrt(dx*dx + dy*dy)`). -/
noncomputable def distEuclid (a b : Point) : ℝ :=
  Real.sqrt ((a.x - b.x) * (a.x - b.x) + (a.y - b.y) * (a.y - b.y))

/-- `buildDistanceMatrix`: `d[i][j] = distEuclid(pts[i], pts[j])`,
embedded as a function on indices. -/
noncomputable def buildDistanceMatrix (pts : List Point) : ℕ → ℕ → ℝ :=
  fun i j => distEuclid (pts.getD i ⟨0, 0⟩) (pts.getD j ⟨0, 0⟩)

/-- `tourLength`: sum of `d[tour[i]][tour[i+1]]` over consecutive pairs. -/
def tourLength (d : ℕ → ℕ → α) : List ℕ → α
  | [] => 0
  | [_] => 0
  | a :: b :: t => d a b + tourLength d (b :: t)

/-! ### Prim's algorithm (`primMST`) -/

/-- The mutable state of `primMST`: vectors `key`, `parent`, `inMST`. -/
structure PrimState (α : Type) where
  key : ℕ → WithTop α
  parent : ℕ → ℤ
  inMST : ℕ → Bool

/-- One step of the minimum-key scan
(`if (!inMST[v] && key[v] < best) { best = key[v]; u = v; }`),
folding over the pair `(best, u)`. -/
def scanStep [LinearOrderedField α] (key : ℕ → WithTop α) (inMST : ℕ → Bool)
    (acc : WithTop α × ℤ) (v : ℕ) : WithTop α × ℤ :=
  if inMST v = false ∧ key v < acc.1 then (key v, (v : ℤ)) else acc

/-- The scan of `primMST` that selects the not-yet-included vertex with
minimum key; `best` starts at infinity and `u` at the sentinel `-1`. -/
def minKeyScan [LinearOrderedField α] (n : ℕ) (key : ℕ → WithTop α)
    (inMST : ℕ → Bool) : ℤ :=
  ((List.range n).foldl (scanStep key inMST) (⊤, -1)).2

/-- The key/parent update loop of `primMST` after vertex `u` enters the
tree (`if (!inMST[v] && d[u][v] < key[v]) { key[v] = d[u][v]; parent[v] = u; }`). -/
def primUpdate (d : ℕ → ℕ → α) (n u : ℕ) (s : PrimState α) : PrimState α where
  key := fun v =>
    if v < n ∧ s.inMST v = false ∧ ((d u v : WithTop α)) < s.key v
    then (d u v : WithTop α) else s.key v
  parent := fun v =>
    if v < n ∧ s.inMST v = false ∧ ((d u v : WithTop α)) < s.key v
    then (u : ℤ) else s.parent v
  inMST := s.inMST

/-- One iteration of the outer loop of `primMST`: select `u` by the scan,
mark it included, update keys.  When the scan yields the sentinel `-1`
the C++ code would index `inMST[-1]` (undefined behaviour); the embedding
leaves the state unchanged, and `minKeyScan_ne_neg_one` below shows this
branch is never taken. -/
def primStep (d : ℕ → ℕ → α) (n : ℕ) (s : PrimState α) : PrimState α :=
  let u := minKeyScan n s.key s.inMST
  if 0 ≤ u then
    let uN := u.toNat
    primUpdate d n uN
      { s with inMST := fun v => if v = uN then true else s.inMST v }
  else s

/-- The initial Prim state: all keys infinite except `key[0] = 0`,
all parents `-1`, nothing included. -/
def primInit (α : Type) [LinearOrderedField α] : PrimState α where
  key := fun v => if v = 0 then (0 : WithTop α) else ⊤
  parent := fun _ => -1
  inMST := fun _ => false

/-- The state of `primMST` after `k` iterations of the outer loop. -/
def primAux (d : ℕ → ℕ → α) (n : ℕ) : ℕ → PrimState α
  | 0 => primInit α
  | k + 1 => primStep d n (primAux d n k)

/-- `primMST`: runs `n` iterations and returns the parent vector. -/
def primMST (d : ℕ → ℕ → α) (n : ℕ) : ℕ → ℤ :=
  (primAux d n n).parent

/-! ### Adjacency lists -/

/-- `adj[u].push_back(v)`. -/
def pushNbr (adj : List (List ℕ)) (u v : ℕ) : List (List ℕ) :=
  adj.set u ((adj.getD u []) ++ [v])

/-- Add the undirected edge `u–v` to the multigraph:
`adj[u].push_back(v); adj[v].push_back(u);`. -/
def addEdge (adj : List (List ℕ)) (u v : ℕ) : List (List ℕ) :=
  pushNbr (pushNbr adj u v) v u

/-- `buildAdjFromParent`: for each `v ∈ [1, n)` add the edge
`v – parent[v]`.  A parent value `-1` would be undefined behaviour in the
C++ code (`adj[-1]`); the embedding reads it as index `0` via `Int.toNat`,
and the theorems only use it where parents are proven nonnegative. -/
def buildAdjFromParent (parent : ℕ → ℤ) (n : ℕ) : List (List ℕ) :=
  (List.range (n - 1)).foldl
    (fun adj i => addEdge adj (i + 1) (parent (i + 1)).toNat)
    (List.replicate n [])

/-- The degree of `v`: `adj[v].size()`. -/
def degree (adj : List (List ℕ)) (v : ℕ) : ℕ :=
  (adj.getD v []).length

/-- `findOddDegreeVertices`: all vertices of odd degree, in increasing
order. -/
def findOddDegreeVertices (adj : List (List ℕ)) : List ℕ :=
  (List.range adj.length).filter (fun i => degree adj i % 2 = 1)

/-! ### Greedy perfect matching (`addGreedyPerfectMatching`) -/

/-- One step of the partner scan of the matcher
(`if (!used[j]) { dist = d[odd[i]][odd[j]]; if (dist < best) ... }`). -/
def matchScanStep [LinearOrderedField α] (d : ℕ → ℕ → α) (odd : List ℕ)
    (used : List Bool) (i : ℕ) (acc : WithTop α × ℤ) (j : ℕ) :
    WithTop α × ℤ :=
  if used.getD j true = false then
    if ((d (odd.getD i 0) (odd.getD j 0) : WithTop α)) < acc.1
    then ((d (odd.getD i 0) (odd.getD j 0) : WithTop α), (j : ℤ)) else acc
  else acc

/-- The scan for the closest unmatched partner of `odd[i]` among
`j ∈ (i, k)`; returns the sentinel `-1` if none qualifies. -/
def findBestJ [LinearOrderedField α] (d : ℕ → ℕ → α) (odd : List ℕ)
    (used : List Bool) (i k : ℕ) : ℤ :=
  ((List.range' (i + 1) (k - (i + 1))).foldl
    (matchScanStep d odd used i) (⊤, -1)).2

/-- The loop of `addGreedyPerfectMatching` over `i`.  When the partner
scan returns the sentinel `-1` the C++ code would write `used[-1]`
(undefined behaviour); the embedding skips the pair, and the matching
theorems show this branch is unreachable when `odd` has even length. -/
def matchLoop (d : ℕ → ℕ → α) (odd : List ℕ) (i : ℕ) (used : List Bool)
    (adj : List (List ℕ)) : List (List ℕ) :=
  if h : i < odd.length then
    if used.getD i true then matchLoop d odd (i + 1) used adj
    else
      let j := findBestJ d odd used i odd.length
      if 0 ≤ j then
        matchLoop d odd (i + 1) ((used.set i true).set j.toNat true)
          (addEdge adj (odd.getD i 0) (odd.getD j.toNat 0))
      else matchLoop d odd (i + 1) (used.set i true) adj
  else adj
termination_by odd.length - i

/-- `addGreedyPerfectMatching`: pair up the odd-degree vertices greedily
and add the pairing edges to `adj`. -/
def addGreedyPerfectMatching (odd : List ℕ) (d : ℕ → ℕ → α)
    (adj : List (List ℕ)) : List (List ℕ) :=
  if odd.length = 0 then adj
  else matchLoop d odd 0 (List.replicate odd.length false) adj

/-! ### Hierholzer's algorithm (`eulerianTourHierholzer`) -/

/-- Total number of stored neighbour entries of the adjacency structure. -/
def totalLen (adj : List (List ℕ)) : ℕ :=
  (adj.map List.length).sum

theorem totalLen_set (adj : List (List ℕ)) (u : ℕ) (l : List ℕ)
    (hu : u < adj.length) :
    totalLen (adj.set u l) + (adj.getD u []).length
      = totalLen adj + l.length := by
  induction adj generalizing u with
  | nil => simp at hu
  | cons a t ih =>
    cases u with
    | zero =>
      simp only [List.set_cons_zero, List.getD_cons_zero, totalLen,
        List.map_cons, List.sum_cons]
      omega
    | succ u =>
      have := ih u (by simpa using hu)
      simp only [List.set_cons_succ, List.getD_cons_succ, totalLen,
        List.map_cons, List.sum_cons] at *
      omega

theorem totalLen_set_le (adj : List (List ℕ)) (u : ℕ) (l : List ℕ)
    (hl : l.length ≤ (adj.getD u []).length) :
    totalLen (adj.set u l) ≤ totalLen adj := by
  rcases lt_or_ge u adj.length with hu | hu
  · have := totalLen_set adj u l hu
    omega
  · rw [List.set_eq_of_length_le hu]

/-- The neighbour chosen when exploring from `u`: the last entry of
`adj[u]` (`adj[u].back()`).  The default `0` is never consulted because
the loop only explores when `adj[u]` is nonempty. -/
def eulerNext (adj : List (List ℕ)) (u : ℕ) : ℕ :=
  (adj.getD u []).getLastD 0

/-- The edge removal performed when exploring the edge `u → v` with
`v = eulerNext adj u`: remove the last entry of `adj[u]` (`pop_back`)
and erase one occurrence of `u` from `adj[v]` (`find` + `erase`;
the erase is skipped when no occurrence is found, as in the C++ code). -/
def eulerRemove (adj : List (List ℕ)) (u : ℕ) : List (List ℕ) :=
  let v := eulerNext adj u
  let adj1 := adj.set u (adj.getD u []).dropLast
  adj1.set v ((adj1.getD v []).erase u)

theorem totalLen_eulerRemove_lt (adj : List (List ℕ)) (u : ℕ)
    (h : adj.getD u [] ≠ []) :
    totalLen (eulerRemove adj u) < totalLen adj := by
  have hu : u < adj.length := by
    by_contra hcon
    rw [List.getD_eq_default _ _ (by omega)] at h
    exact h rfl
  have h1 : totalLen (adj.set u (adj.getD u []).dropLast)
        + (adj.getD u []).length
      = totalLen adj + (adj.getD u []).dropLast.length :=
    totalLen_set adj u _ hu
  have hpos : 0 < (adj.getD u []).length := List.length_pos.2 h
  have hdrop : (adj.getD u []).dropLast.length + 1
      = (adj.getD u []).length := by
    rw [List.length_dropLast]; omega
  have h2 : totalLen (eulerRemove adj u)
      ≤ totalLen (adj.set u (adj.getD u []).dropLast) :=
    totalLen_set_le _ _ _ (List.length_erase_le _ _)
  omega

/-- The body of the `while (!stack.empty())` loop of
`eulerianTourHierholzer`, with the list head as the stack top and the
`circuit` accumulated by appending (as in the C++ code). -/
def eulerLoop (adj : List (List ℕ)) (st : List ℕ) (circuit : List ℕ) :
    List ℕ :=
  match st with
  | [] => circuit
  | u :: rest =>
    if h : adj.getD u [] = [] then eulerLoop adj rest (circuit ++ [u])
    else eulerLoop (eulerRemove adj u) (eulerNext adj u :: u :: rest) circuit
termination_by 2 * totalLen adj + st.length
decreasing_by
  · simp only [List.length_cons]; omega
  · have := totalLen_eulerRemove_lt adj u h
    simp only [List.length_cons]
    omega

/-- `eulerianTourHierholzer`: run the loop from the singleton stack
`[start]` and reverse the accumulated circuit. -/
def eulerianTourHierholzer (start : ℕ) (adj : List (List ℕ)) : List ℕ :=
  (eulerLoop adj [start] []).reverse

/-! ### Shortcutting and the full pipeline (`christofidesTour`) -/

/-- The shortcutting loop: keep the first occurrence of each vertex
(`if (!visited[v]) { tour.push_back(v); visited[v] = true; }`).
An out-of-range vertex would be undefined behaviour in C++; the
embedding treats it as visited. -/
def shortcutAux : List ℕ → List Bool → List ℕ
  | [], _ => []
  | v :: rest, vis =>
    if vis.getD v true = false then v :: shortcutAux rest (vis.set v true)
    else shortcutAux rest vis

/-- The canonicalizing rotation: `rotate(tour.begin(), find(…, 0), tour.end())`
guarded by `it0 != tour.begin() && it0 != tour.end()` (`t.indexOf 0` is the
position of `std::find`'s iterator; `std::rotate` produces
`drop i ++ take i`). -/
def rotateToZero (t : List ℕ) : List ℕ :=
  if t.indexOf 0 ≠ 0 ∧ t.indexOf 0 < t.length then
    t.drop (t.indexOf 0) ++ t.take (t.indexOf 0)
  else t

/-- `christofidesTour`: the full pipeline
MST → adjacency → odd vertices → greedy matching → Eulerian circuit →
shortcut → rotate → close the tour with vertex `0`. -/
def christofidesTour (d : ℕ → ℕ → α) (n : ℕ) : List ℕ :=
  let parent := primMST d n
  let adj := buildAdjFromParent parent n
  let odd := findOddDegreeVertices adj
  let adj2 := addGreedyPerfectMatching odd d adj
  let euler := eulerianTourHierholzer 0 adj2
  let tour := shortcutAux euler (List.replicate n false)
  let tour2 := rotateToZero tour
  tour2 ++ [0]

/-! ### The `main` routine -/

/-- The observable outcome of `main`: exit code, the reported tour
length (if any), and whether the core pipeline ran. -/
structure MainResult where
  exitCode : ℕ
  reportedLength : Option ℝ
  ranPipeline : Bool

/-- `main` after parsing, as a function of the parsed point list:
`loadPoints` fails (exit 1) when no point was read; one point yields the
trivial report `Tour length = 0` without running the pipeline; otherwise
the pipeline runs on the distance matrix. -/
noncomputable def mainModel (pts : List Point) : MainResult :=
  if pts.isEmpty then ⟨1, none, false⟩
  else if pts.length = 1 then ⟨0, some 0, false⟩
  else
    let d := buildDistanceMatrix pts
    let tour := christofidesTour d pts.length
    ⟨0, some (tourLength d tour), true⟩

/-! ### Parity of the odd-degree vertex count (claim C6) -/

/-- `adj` represents an undirected multigraph: all stored neighbour
indices are in range, counts are mirrored (each undirected edge `u–v`
appears as `v` in `adj[u]` and as `u` in `adj[v]` equally often), and a
self-loop contributes two entries to its vertex's list, exactly as the
edge-insertion discipline of the program (`push_back` into both
endpoints' lists) produces. -/
def UndirectedAdj (adj : List (List ℕ)) : Prop :=
  (∀ l ∈ adj, ∀ w ∈ l, w < adj.length) ∧
  (∀ u < adj.length, ∀ v < adj.length,
    (adj.getD u []).count v = (adj.getD v []).count u) ∧
  (∀ u < adj.length, Even ((adj.getD u []).count u))

instance (adj : List (List ℕ)) : Decidable (UndirectedAdj adj) := by
  unfold UndirectedAdj; infer_instance

theorem filter_odd_parity (l : List ℕ) (f : ℕ → ℕ) :
    (l.filter (fun i => f i % 2 = 1)).length % 2 = (l.map f).sum % 2 := by
  induction l with
  | nil => rfl
  | cons a t ih =>
    rw [List.filter_cons, List.map_cons, List.sum_cons]
    by_cases h : f a % 2 = 1
    · rw [if_pos (by simpa using h), List.length_cons]
      omega
    · rw [if_neg (by simpa using h)]
      omega

theorem map_getD_range (l : List β) (d₀ : β) :
    (List.range l.length).map (fun i => l.getD i d₀) = l := by
  induction l with
  | nil => rfl
  | cons a t ih =>
    rw [List.length_cons, List.range_succ_eq_map, List.map_cons,
      List.map_map]
    simp only [List.getD_cons_zero, Function.comp_def, List.getD_cons_succ]
    rw [ih]

theorem totalLen_eq_sum_degrees (adj : List (List ℕ)) :
    totalLen adj = ((List.range adj.length).map (degree adj)).sum := by
  unfold totalLen degree
  rw [show (List.range adj.length).map (fun i => (adj.getD i []).length)
      = ((List.range adj.length).map (fun i => adj.getD i [])).map
          List.length by rw [List.map_map]; rfl,
    map_getD_range]

theorem length_eq_sum_count (l : List ℕ) (n : ℕ) (h : ∀ x ∈ l, x < n) :
    l.length = ∑ w ∈ Finset.range n, l.count w := by
  induction l with
  | nil => simp
  | cons a t ih =>
    have ha : a ∈ Finset.range n :=
      Finset.mem_range.2 (h a (List.mem_cons_self a t))
    have : ∀ w ∈ Finset.range n, (a :: t).count w
        = t.count w + if w = a then 1 else 0 := by
      intro w _
      rw [List.count_cons]
      congr 1
      by_cases hw : a = w
      · subst hw; simp
      · rw [if_neg (by simpa using hw), if_neg (fun hc => hw hc.symm)]
    rw [Finset.sum_congr rfl this, Finset.sum_add_distrib,
      Finset.sum_ite_eq' (Finset.range n) a (fun _ => 1), if_pos ha,
      List.length_cons, ih (fun x hx => h x (List.mem_cons_of_mem a hx))]

theorem sum_sym_parity (c : ℕ → ℕ → ℕ) :
    ∀ n : ℕ, (∀ u < n, ∀ w < n, c u w = c w u) →
      (∑ u ∈ Finset.range n, ∑ w ∈ Finset.range n, c u w) % 2
        = (∑ u ∈ Finset.range n, c u u) % 2
  | 0, _ => rfl
  | n + 1, hsym => by
    have ih := sum_sym_parity c n
      (fun u hu w hw => hsym u (by omega) w (by omega))
    rw [Finset.sum_range_succ, Finset.sum_range_succ (fun u => c u u)]
    have hinner : ∑ u ∈ Finset.range n, ∑ w ∈ Finset.range (n + 1), c u w
        = (∑ u ∈ Finset.range n, ∑ w ∈ Finset.range n, c u w)
          + ∑ u ∈ Finset.range n, c u n := by
      rw [← Finset.sum_add_distrib]
      exact Finset.sum_congr rfl (fun u _ => Finset.sum_range_succ _ _)
    rw [hinner, Finset.sum_range_succ]
    have hswap : ∑ w ∈ Finset.range n, c n w
        = ∑ u ∈ Finset.range n, c u n :=
      Finset.sum_congr rfl
        (fun w hw => hsym n (by omega) w
          (by have := Finset.mem_range.1 hw; omega))
    omega

theorem list_sum_range_eq_finset (f : ℕ → ℕ) (n : ℕ) :
    ((List.range n).map f).sum = ∑ i ∈ Finset.range n, f i := by
  induction n with
  | zero => rfl
  | succ n ih => rw [Finset.sum_range_succ, List.range_succ, List.map_append,
      List.sum_append, ih]; rfl

theorem undirectedAdj_totalLen_even (adj : List (List ℕ))
    (h : UndirectedAdj adj) : Even (totalLen adj) := by
  obtain ⟨hrange, hsym, hloop⟩ := h
  have hmem : ∀ u, u < adj.length → adj.getD u [] ∈ adj := by
    intro u hu
    rw [List.getD_eq_getElem adj [] hu]
    exact List.getElem_mem hu
  have h1 : totalLen adj
      = ∑ u ∈ Finset.range adj.length, ∑ w ∈ Finset.range adj.length,
          (adj.getD u []).count w := by
    rw [totalLen_eq_sum_degrees, list_sum_range_eq_finset]
    refine Finset.sum_congr rfl (fun u hu => ?_)
    exact length_eq_sum_count _ _
      (fun x hx => hrange _ (hmem u (Finset.mem_range.1 hu)) x hx)
  have h2 := sum_sym_parity (fun u w => (adj.getD u []).count w)
    adj.length (fun u hu w hw => hsym u hu w hw)
  simp only [] at h2
  have hdiag : (∑ u ∈ Finset.range adj.length,
      (adj.getD u []).count u) % 2 = 0 := by
    rw [Finset.sum_nat_mod]
    rw [Finset.sum_congr rfl
      (fun u hu => Nat.even_iff.1 (hloop u (Finset.mem_range.1 hu)))]
    simp
  rw [Nat.even_iff, h1]
  omega

theorem findOdd_parity (adj : List (List ℕ)) :
    (findOddDegreeVertices adj).length % 2 = totalLen adj % 2 := by
  unfold findOddDegreeVertices
  rw [filter_odd_parity (List.range adj.length) (degree adj),
    ← totalLen_eq_sum_degrees]

theorem foldl_invariant {β γ : Type} (f : β → γ → β) (P : β → Prop) :
    ∀ (l : List γ) (init : β), P init →
      (∀ b x, x ∈ l → P b → P (f b x)) → P (l.foldl f init)
  | [], _, h, _ => h
  | x :: t, init, h, hstep =>
    foldl_invariant f P t (f init x) (hstep init x (List.mem_cons_self x t) h)
      (fun b y hy => hstep b y (List.mem_cons_of_mem x hy))

theorem length_pushNbr (adj : List (List ℕ)) (u v : ℕ) :
    (pushNbr adj u v).length = adj.length := by
  unfold pushNbr; exact List.length_set ..

theorem length_addEdge (adj : List (List ℕ)) (u v : ℕ) :
    (addEdge adj u v).length = adj.length := by
  unfold addEdge; rw [length_pushNbr, length_pushNbr]

theorem totalLen_pushNbr (adj : List (List ℕ)) (u v : ℕ)
    (hu : u < adj.length) :
    totalLen (pushNbr adj u v) = totalLen adj + 1 := by
  unfold pushNbr
  have := totalLen_set adj u ((adj.getD u []) ++ [v]) hu
  simp only [List.length_append, List.length_cons, List.length_nil] at this
  omega

theorem totalLen_addEdge (adj : List (List ℕ)) (u v : ℕ)
    (hu : u < adj.length) (hv : v < adj.length) :
    totalLen (addEdge adj u v) = totalLen adj + 2 := by
  unfold addEdge
  rw [totalLen_pushNbr _ _ _ (by rw [length_pushNbr]; exact hv),
    totalLen_pushNbr _ _ _ hu]

theorem buildAdjFromParent_length (parent : ℕ → ℤ) (n : ℕ) :
    (buildAdjFromParent parent n).length = n := by
  unfold buildAdjFromParent
  have := foldl_invariant
    (fun adj i => addEdge adj (i + 1) (parent (i + 1)).toNat)
    (fun adj => adj.length = n) (List.range (n - 1)) (List.replicate n [])
    (by simp)
    (fun b x _ hb => by
      show (addEdge b (x + 1) (parent (x + 1)).toNat).length = n
      rw [length_addEdge]; exact hb)
  exact this

theorem buildAdjFromParent_totalLen_even (parent : ℕ → ℤ) (n : ℕ)
    (h : ∀ v, 1 ≤ v → v < n → 0 ≤ parent v ∧ (parent v).toNat < n) :
    Even (totalLen (buildAdjFromParent parent n)) := by
  unfold buildAdjFromParent
  have := foldl_invariant
    (fun adj i => addEdge adj (i + 1) (parent (i + 1)).toNat)
    (fun adj => adj.length = n ∧ Even (totalLen adj))
    (List.range (n - 1)) (List.replicate n [])
    (by
      refine ⟨by simp, ?_⟩
      show Even (totalLen (List.replicate n []))
      have h0 : totalLen (List.replicate n ([] : List ℕ)) = 0 := by
        unfold totalLen
        rw [List.map_replicate]
        simp
      rw [h0]; exact even_zero)
    (fun b x hx hb => by
      have hxn : x + 1 < n := by
        have := List.mem_range.1 hx; omega
      show (addEdge b (x + 1) (parent (x + 1)).toNat).length = n ∧
        Even (totalLen (addEdge b (x + 1) (parent (x + 1)).toNat))
      refine ⟨by rw [length_addEdge]; exact hb.1, ?_⟩
      rw [totalLen_addEdge _ _ _ (by rw [hb.1]; omega)
        (by rw [hb.1]; exact (h (x + 1) (by omega) hxn).2)]
      exact hb.2.add (by norm_num))
  exact this.2

/-- **Claim C6.**  The list of odd-degree vertices returned by
`findOddDegreeVertices` has even cardinality: for every adjacency list
that represents an undirected multigraph (`UndirectedAdj`), and in
particular for the adjacency list built by `buildAdjFromParent` from any
parent mapping whose parents are in range (as an MST parent mapping is). -/
theorem findOddDegreeVertices_even_card :
    (∀ adj : List (List ℕ), UndirectedAdj adj →
      Even (findOddDegreeVertices adj).length) ∧
    (∀ (parent : ℕ → ℤ) (n : ℕ),
      (∀ v, 1 ≤ v → v < n → 0 ≤ parent v ∧ (parent v).toNat < n) →
      Even (findOddDegreeVertices (buildAdjFromParent parent n)).length) := by
  constructor
  · intro adj h
    rw [Nat.even_iff, findOdd_parity]
    exact Nat.even_iff.1 (undirectedAdj_totalLen_even adj h)
  · intro parent n h
    rw [Nat.even_iff, findOdd_parity]
    exact Nat.even_iff.1 (buildAdjFromParent_totalLen_even parent n h)

/-- Witness for C6: concrete instances discharging both hypotheses. -/
theorem findOddDegreeVertices_even_card_witness :
    Even (findOddDegreeVertices [[1], [0]]).length ∧
    Even (findOddDegreeVertices
      (buildAdjFromParent (fun _ => (0 : ℤ)) 2)).length :=
  ⟨findOddDegreeVertices_even_card.1 [[1], [0]] (by decide),
   findOddDegreeVertices_even_card.2 (fun _ => (0 : ℤ)) 2
     (by intro v h1 h2; exact ⟨le_refl 0, by simp⟩)⟩

/-! ### The Hierholzer loop measure (claim C9) -/

/-- **Claim C9.**  `eulerianTourHierholzer` terminates on every finite
adjacency structure with in-range entries and start vertex, not only on
connected even-degree multigraphs: each iteration of the loop either
pops one stack element (when `adj[u]` is empty) or removes at least one
neighbour-list entry while pushing one stack element, so the measure
`2 * totalLen adj + stack size` strictly decreases.  (The totality of
`eulerLoop` itself is established by well-founded recursion on exactly
this measure.) -/
theorem eulerLoop_measure_decreases (adj : List (List ℕ)) (u : ℕ)
    (st : List ℕ) (hstack : ∀ w ∈ u :: st, w < adj.length)
    (hentries : ∀ l ∈ adj, ∀ w ∈ l, w < adj.length) :
    (adj.getD u [] = [] →
      2 * totalLen adj + st.length < 2 * totalLen adj + (u :: st).length) ∧
    (adj.getD u [] ≠ [] →
      2 * totalLen (eulerRemove adj u) + (eulerNext adj u :: u :: st).length
        < 2 * totalLen adj + (u :: st).length) := by
  refine ⟨fun _ => by simp, fun h => ?_⟩
  have := totalLen_eulerRemove_lt adj u h
  simp only [List.length_cons]
  omega

/-- Witness for C9 at the two-vertex multigraph with one edge. -/
theorem eulerLoop_measure_decreases_witness :
    2 * totalLen (eulerRemove [[1], [0]] 0)
        + (eulerNext [[1], [0]] 0 :: 0 :: ([] : List ℕ)).length
      < 2 * totalLen [[1], [0]] + (0 :: ([] : List ℕ)).length :=
  (eulerLoop_measure_decreases [[1], [0]] 0 [] (by decide) (by decide)).2
    (by decide)

/-! ### Degenerate instances in `main` (claim C8) -/

/-- **Claim C8, counterexample.**  On an input yielding zero points the
program does *not* short-circuit with exit code 0 and length 0: it
treats the input as an error (`loadPoints` returns `false` for an empty
point list) and exits with code 1 reporting nothing. -/
theorem mainModel_empty_counterexample :
    (mainModel []).exitCode = 1 ∧ (mainModel []).reportedLength = none ∧
    ¬((mainModel []).exitCode = 0 ∧
      (mainModel []).reportedLength = some 0) := by
  refine ⟨rfl, rfl, ?_⟩
  rintro ⟨h, -⟩
  exact absurd h (by intro hcon; cases hcon)

/-- **Claim C8, amended.**  For fewer than 2 points the pipeline never
runs; an input with exactly one point is a trivial-result short circuit
(exit code 0, reported length 0), while an input with zero points is an
input error (exit code 1, nothing reported). -/
theorem mainModel_degenerate (pts : List Point) (h : pts.length < 2) :
    (mainModel pts).ranPipeline = false ∧
    (pts.length = 1 → mainModel pts = ⟨0, some 0, false⟩) ∧
    (pts = [] → mainModel pts = ⟨1, none, false⟩) := by
  rcases pts with _ | ⟨p, rest⟩
  · exact ⟨rfl, fun h1 => absurd h1 (by simp), fun _ => rfl⟩
  · rcases rest with _ | ⟨q, t⟩
    · exact ⟨rfl, fun _ => rfl, fun h0 => absurd h0 (by simp)⟩
    · exfalso
      simp only [List.length_cons] at h
      omega

/-- Witness for C8 (amended) at a single point. -/
theorem mainModel_degenerate_witness :
    (mainModel [(⟨0, 0⟩ : Point)]).ranPipeline = false ∧
    ([(⟨0, 0⟩ : Point)].length = 1 →
      mainModel [(⟨0, 0⟩ : Point)] = ⟨0, some 0, false⟩) ∧
    ([(⟨0, 0⟩ : Point)] = ([] : List Point) →
      mainModel [(⟨0, 0⟩ : Point)] = ⟨1, none, false⟩) :=
  mainModel_degenerate [⟨0, 0⟩] (by norm_num)

/-! ### The minimum-key scan of Prim's algorithm (claim C10) -/

theorem scan_keep (key : ℕ → WithTop α) (inMST : ℕ → Bool) (l : List ℕ) :
    ∀ acc : WithTop α × ℤ, acc.1 < ⊤ → 0 ≤ acc.2 →
      (l.foldl (scanStep key inMST) acc).1 < ⊤ ∧
      0 ≤ (l.foldl (scanStep key inMST) acc).2 := by
  induction l with
  | nil => exact fun acc h1 h2 => ⟨h1, h2⟩
  | cons a t ih =>
    intro acc h1 h2
    rw [List.foldl_cons]
    by_cases hc : inMST a = false ∧ key a < acc.1
    · simp only [scanStep, if_pos hc]
      exact ih _ (lt_trans hc.2 h1) (Int.natCast_nonneg a)
    · simp only [scanStep, if_neg hc]
      exact ih acc h1 h2

theorem scan_finds (key : ℕ → WithTop α) (inMST : ℕ → Bool) (l : List ℕ) :
    ∀ acc : WithTop α × ℤ,
      (∃ v ∈ l, inMST v = false ∧ key v < acc.1) →
      (l.foldl (scanStep key inMST) acc).1 < ⊤ ∧
      0 ≤ (l.foldl (scanStep key inMST) acc).2 := by
  induction l with
  | nil => rintro acc ⟨v, hv, -⟩; cases hv
  | cons a t ih =>
    rintro acc ⟨v, hv, hin, hkey⟩
    rw [List.foldl_cons]
    by_cases hc : inMST a = false ∧ key a < acc.1
    · simp only [scanStep, if_pos hc]
      exact scan_keep key inMST t _ (lt_of_lt_of_le hc.2 le_top)
        (Int.natCast_nonneg a)
    · simp only [scanStep, if_neg hc]
      rcases List.mem_cons.1 hv with rfl | hvt
      · exact absurd ⟨hin, hkey⟩ hc
      · exact ih acc ⟨v, hvt, hin, hkey⟩

theorem minKeyScan_nonneg (n : ℕ) (key : ℕ → WithTop α) (inMST : ℕ → Bool)
    (h : ∃ v < n, inMST v = false ∧ key v < ⊤) :
    0 ≤ minKeyScan n key inMST := by
  obtain ⟨v, hv, hin, hkey⟩ := h
  exact (scan_finds key inMST (List.range n) (⊤, -1)
    ⟨v, List.mem_range.2 hv, hin, hkey⟩).2

theorem scan_cases (key : ℕ → WithTop α) (inMST : ℕ → Bool) (l : List ℕ) :
    ∀ acc : WithTop α × ℤ,
      (l.foldl (scanStep key inMST) acc).2 = acc.2 ∨
      ∃ v ∈ l, (l.foldl (scanStep key inMST) acc).2 = (v : ℤ) ∧
        inMST v = false := by
  induction l with
  | nil => exact fun acc => Or.inl rfl
  | cons a t ih =>
    intro acc
    rw [List.foldl_cons]
    by_cases hc : inMST a = false ∧ key a < acc.1
    · simp only [scanStep, if_pos hc]
      rcases ih (key a, (a : ℤ)) with h | ⟨v, hv, h1, h2⟩
      · exact Or.inr ⟨a, List.mem_cons_self a t, h, hc.1⟩
      · exact Or.inr ⟨v, List.mem_cons_of_mem a hv, h1, h2⟩
    · simp only [scanStep, if_neg hc]
      rcases ih acc with h | ⟨v, hv, h1, h2⟩
      · exact Or.inl h
      · exact Or.inr ⟨v, List.mem_cons_of_mem a hv, h1, h2⟩

theorem minKeyScan_mem (n : ℕ) (key : ℕ → WithTop α) (inMST : ℕ → Bool)
    (h : 0 ≤ minKeyScan n key inMST) :
    ∃ v < n, minKeyScan n key inMST = (v : ℤ) ∧ inMST v = false := by
  rcases scan_cases key inMST (List.range n) (⊤, -1) with h0 | ⟨v, hv, h1, h2⟩
  · exfalso
    rw [minKeyScan] at h
    rw [h0] at h
    norm_num at h
  · exact ⟨v, List.mem_range.1 hv, h1, h2⟩

theorem countP_update_le (g : ℕ → Bool) (uN : ℕ) (l : List ℕ) :
    l.countP (fun v => if v = uN then true else g v)
      ≤ l.countP g + l.count uN := by
  induction l with
  | nil => simp
  | cons a t ih =>
    rw [List.countP_cons, List.countP_cons, List.count_cons]
    have hx : (if (if a = uN then true else g a) = true then 1 else 0)
        ≤ (if g a = true then 1 else 0)
          + (if (a == uN) = true then 1 else 0) := by
      by_cases ha : a = uN
      · subst ha
        simp
      · simp only [if_neg ha, beq_eq_false_iff_ne.2 ha]
        omega
    omega

/-- Number of vertices already included in the MST. -/
def countInMST (s : PrimState α) (n : ℕ) : ℕ :=
  (List.range n).countP (fun v => s.inMST v)

theorem primStep_of_nonneg (d : ℕ → ℕ → α) (n : ℕ) (s : PrimState α)
    (h : 0 ≤ minKeyScan n s.key s.inMST) :
    primStep d n s
      = primUpdate d n (minKeyScan n s.key s.inMST).toNat
          { s with inMST := fun v =>
              if v = (minKeyScan n s.key s.inMST).toNat then true
              else s.inMST v } := by
  rw [primStep]
  simp only [if_pos h]

theorem primAux_inv (d : ℕ → ℕ → α) (n : ℕ) (hn : 1 ≤ n) :
    ∀ k : ℕ, countInMST (primAux d n k) n ≤ k ∧
      (1 ≤ k → ∀ v < n, (primAux d n k).inMST v = false →
        (primAux d n k).key v < ⊤)
  | 0 => by
    refine ⟨?_, fun hk => absurd hk (by omega)⟩
    have h0 : countInMST (primAux d n 0) n = 0 := by
      unfold countInMST primAux primInit
      simp
    omega
  | k + 1 => by
    obtain ⟨hcount, hkeys⟩ := primAux_inv d n hn k
    set s := primAux d n k with hs
    have hscan : 0 ≤ minKeyScan n s.key s.inMST ∨
        ¬ 0 ≤ minKeyScan n s.key s.inMST := em _
    rcases hscan with hpos | hneg
    · -- the step acts
      have hstep : primAux d n (k + 1)
          = primUpdate d n (minKeyScan n s.key s.inMST).toNat
              { s with inMST := fun v =>
                  if v = (minKeyScan n s.key s.inMST).toNat then true
                  else s.inMST v } := by
        show primStep d n s = _
        exact primStep_of_nonneg d n s hpos
      constructor
      · rw [hstep]
        unfold countInMST primUpdate
        calc (List.range n).countP (fun v =>
              if v = (minKeyScan n s.key s.inMST).toNat then true
              else s.inMST v)
            ≤ (List.range n).countP (fun v => s.inMST v)
              + (List.range n).count (minKeyScan n s.key s.inMST).toNat :=
              countP_update_le _ _ _
          _ ≤ k + 1 := by
              have h1 : (List.range n).count
                  (minKeyScan n s.key s.inMST).toNat ≤ 1 :=
                List.nodup_iff_count_le_one.1 (List.nodup_range n) _
              have h2 := hcount
              unfold countInMST at h2
              omega
      · intro _ v hv hinm
        rw [hstep]
        rw [hstep] at hinm
        unfold primUpdate at hinm ⊢
        simp only at hinm ⊢
        by_cases hcond : v < n ∧
            (if v = (minKeyScan n s.key s.inMST).toNat then true
              else s.inMST v) = false ∧
            ((d (minKeyScan n s.key s.inMST).toNat v : WithTop α))
              < s.key v
        · rw [if_pos hcond]
          exact WithTop.coe_lt_top _
        · rw [if_neg hcond]
          have hnotlt : ¬ ((d (minKeyScan n s.key s.inMST).toNat v :
              WithTop α)) < s.key v := by
            intro hlt
            exact hcond ⟨hv, hinm, hlt⟩
          calc s.key v ≤ _ := not_lt.1 hnotlt
            _ < ⊤ := WithTop.coe_lt_top _
    · -- the step does not act: the state is unchanged
      have hstep : primAux d n (k + 1) = s := by
        show primStep d n s = s
        rw [primStep]
        simp only [if_neg hneg]
      -- this branch requires k ≥ 1 or is impossible; in either case the
      -- invariant transfers
      rcases Nat.eq_zero_or_pos k with rfl | hk1
      · -- at k = 0 the scan always succeeds, contradiction
        exfalso
        apply hneg
        apply minKeyScan_nonneg
        refine ⟨0, by omega, ?_, ?_⟩
        · show (primInit α).inMST 0 = false
          rfl
        · show (primInit α).key 0 < ⊤
          unfold primInit
          simp only [if_pos rfl]
          exact lt_top_iff_ne_top.2 (by
            intro hcon
            exact (WithTop.zero_ne_top) hcon)
      · rw [hstep]
        exact ⟨le_trans hcount (by omega), fun _ => hkeys hk1⟩

theorem primAux_scan_nonneg (d : ℕ → ℕ → α) (n : ℕ) (hn : 1 ≤ n)
    (k : ℕ) (hk : k < n) :
    0 ≤ minKeyScan n (primAux d n k).key (primAux d n k).inMST := by
  obtain ⟨hcount, hkeys⟩ := primAux_inv d n hn k
  rcases Nat.eq_zero_or_pos k with rfl | hk1
  · apply minKeyScan_nonneg
    refine ⟨0, by omega, rfl, ?_⟩
    show (primInit α).key 0 < ⊤
    unfold primInit
    simp only [if_pos rfl]
    exact lt_top_iff_ne_top.2 (by
      intro hcon
      exact (WithTop.zero_ne_top) hcon)
  · -- some vertex is still outside the tree, and its key is finite
    have hex : ∃ v < n, (primAux d n k).inMST v = false := by
      by_contra hcon
      push_neg at hcon
      have hall : ∀ v ∈ List.range n, (primAux d n k).inMST v = true := by
        intro v hv
        have := hcon v (List.mem_range.1 hv)
        cases hb : (primAux d n k).inMST v
        · exact absurd hb this
        · rfl
      have : countInMST (primAux d n k) n = n := by
        unfold countInMST
        rw [List.countP_eq_length.2 (fun a ha => hall a ha)]
        exact List.length_range n
      omega
    obtain ⟨v, hv, hinm⟩ := hex
    exact minKeyScan_nonneg n _ _ ⟨v, hv, hinm, hkeys hk1 v hv hinm⟩

/-- **Claim C10.**  In `primMST`, for every `n ≥ 1` and every distance
matrix with finite entries (all matrix entries are elements of `α`,
hence finite), the minimum-key scan of each of the `n` iterations
selects a vertex: the selected index is never left at the sentinel `-1`,
so the subsequent accesses `inMST[u]` and `d[u][v]` never index with
`-1`. -/
theorem primMST_scan_ne_sentinel (d : ℕ → ℕ → α) (n : ℕ) (hn : 1 ≤ n)
    (k : ℕ) (hk : k < n) :
    0 ≤ minKeyScan n (primAux d n k).key (primAux d n k).inMST ∧
    minKeyScan n (primAux d n k).key (primAux d n k).inMST ≠ -1 := by
  have h := primAux_scan_nonneg d n hn k hk
  exact ⟨h, by omega⟩

/-- Witness for C10 at a concrete 2×2 rational matrix. -/
theorem primMST_scan_ne_sentinel_witness :
    0 ≤ minKeyScan 2 (primAux (fun _ _ => (1 : ℚ)) 2 1).key
        (primAux (fun _ _ => (1 : ℚ)) 2 1).inMST ∧
    minKeyScan 2 (primAux (fun _ _ => (1 : ℚ)) 2 1).key
        (primAux (fun _ _ => (1 : ℚ)) 2 1).inMST ≠ -1 :=
  primMST_scan_ne_sentinel (fun _ _ => (1 : ℚ)) 2 (by norm_num) 1
    (by norm_num)

/-! ### The greedy matcher (claim C3) -/

theorem getD_set {γ : Type} (l : List γ) (i m : ℕ) (b dflt : γ) :
    (l.set i b).getD m dflt
      = if m = i ∧ i < l.length then b else l.getD m dflt := by
  rw [List.getD_eq_getElem?_getD, List.getD_eq_getElem?_getD,
    List.getElem?_set]
  rcases eq_or_ne i m with rfl | hne
  · by_cases hi : i < l.length
    · simp [hi]
    · rw [if_pos rfl, if_neg hi, if_neg (by omega)]
      rw [List.getElem?_eq_none (by omega)]
  · rw [if_neg hne, if_neg (by omega)]

theorem mem_range'_iff (s n m : ℕ) :
    m ∈ List.range' s n ↔ s ≤ m ∧ m < s + n := by
  rw [List.mem_range']
  constructor
  · rintro ⟨i, hi, rfl⟩; omega
  · rintro ⟨h1, h2⟩; exact ⟨m - s, by omega, by omega⟩

/-- The indices not yet matched by the greedy matcher. -/
def unusedIdx (used : List Bool) : List ℕ :=
  (List.range used.length).filter (fun m => used.getD m true = false)

theorem mem_unusedIdx (used : List Bool) (m : ℕ) :
    m ∈ unusedIdx used ↔ m < used.length ∧ used.getD m true = false := by
  unfold unusedIdx
  rw [List.mem_filter, List.mem_range]
  simp

theorem nodup_unusedIdx (used : List Bool) : (unusedIdx used).Nodup :=
  List.Nodup.filter _ (List.nodup_range _)

theorem unusedIdx_set_pair (used : List Bool) (i j : ℕ) (hij : i ≠ j)
    (hi : i ∈ unusedIdx used) (hj : j ∈ unusedIdx used) :
    List.Perm (unusedIdx used)
      (i :: j :: unusedIdx ((used.set i true).set j true)) := by
  obtain ⟨hi1, hi2⟩ := (mem_unusedIdx used i).1 hi
  obtain ⟨hj1, hj2⟩ := (mem_unusedIdx used j).1 hj
  have hlen : ((used.set i true).set j true).length = used.length := by
    rw [List.length_set, List.length_set]
  have hchar : ∀ m, m ∈ unusedIdx ((used.set i true).set j true)
      ↔ m < used.length ∧ m ≠ i ∧ m ≠ j ∧ used.getD m true = false := by
    intro m
    rw [mem_unusedIdx, hlen, getD_set, getD_set]
    constructor
    · rintro ⟨hm, hval⟩
      by_cases hmj : m = j
      · exfalso
        rw [if_pos ⟨hmj, by rw [List.length_set]; omega⟩] at hval
        cases hval
      · rw [if_neg (by intro hc; exact hmj hc.1)] at hval
        by_cases hmi : m = i
        · exfalso
          rw [if_pos ⟨hmi, by omega⟩] at hval
          cases hval
        · rw [if_neg (by intro hc; exact hmi hc.1)] at hval
          exact ⟨hm, hmi, hmj, hval⟩
    · rintro ⟨hm, hmi, hmj, hval⟩
      refine ⟨hm, ?_⟩
      rw [if_neg (by intro hc; exact hmj hc.1),
        if_neg (by intro hc; exact hmi hc.1)]
      exact hval
  have hnd := nodup_unusedIdx used
  have hnd' := nodup_unusedIdx ((used.set i true).set j true)
  rw [List.perm_iff_count]
  intro x
  by_cases hxi : x = i
  · have hc1 : List.count i (unusedIdx ((used.set i true).set j true)) = 0 :=
      List.count_eq_zero_of_not_mem (by
        intro hc
        exact ((hchar i).1 hc).2.1 rfl)
    rw [hxi, List.count_eq_one_of_mem hnd hi, List.count_cons_self,
      List.count_cons_of_ne hij, hc1]
  · by_cases hxj : x = j
    · have hc1 : List.count j (unusedIdx ((used.set i true).set j true)) = 0 :=
        List.count_eq_zero_of_not_mem (by
          intro hc
          exact ((hchar j).1 hc).2.2.1 rfl)
      rw [hxj, List.count_eq_one_of_mem hnd hj,
        List.count_cons_of_ne (fun hc => hij hc.symm),
        List.count_cons_self, hc1]
    · rw [List.count_cons_of_ne hxi, List.count_cons_of_ne hxj]
      by_cases hxm : x ∈ unusedIdx used
      · obtain ⟨h1, h2⟩ := (mem_unusedIdx used x).1 hxm
        have hx' : x ∈ unusedIdx ((used.set i true).set j true) :=
          (hchar x).2 ⟨h1, hxi, hxj, h2⟩
        rw [List.count_eq_one_of_mem hnd hxm,
          List.count_eq_one_of_mem hnd' hx']
      · have hx' : x ∉ unusedIdx ((used.set i true).set j true) := by
          intro hc
          obtain ⟨h1, -, -, h2⟩ := (hchar x).1 hc
          exact hxm ((mem_unusedIdx used x).2 ⟨h1, h2⟩)
        rw [List.count_eq_zero_of_not_mem hxm,
          List.count_eq_zero_of_not_mem hx']

theorem matchScan_keep (d : ℕ → ℕ → α) (odd : List ℕ) (used : List Bool)
    (i : ℕ) (l : List ℕ) :
    ∀ acc : WithTop α × ℤ, acc.1 < ⊤ → 0 ≤ acc.2 →
      (l.foldl (matchScanStep d odd used i) acc).1 < ⊤ ∧
      0 ≤ (l.foldl (matchScanStep d odd used i) acc).2 := by
  induction l with
  | nil => exact fun acc h1 h2 => ⟨h1, h2⟩
  | cons a t ih =>
    intro acc h1 h2
    rw [List.foldl_cons]
    unfold matchScanStep
    by_cases hu : used.getD a true = false
    · rw [if_pos hu]
      by_cases hlt : ((d (odd.getD i 0) (odd.getD a 0) : WithTop α)) < acc.1
      · rw [if_pos hlt]
        exact ih _ (WithTop.coe_lt_top _) (Int.natCast_nonneg a)
      · rw [if_neg hlt]
        exact ih acc h1 h2
    · rw [if_neg hu]
      exact ih acc h1 h2

theorem matchScan_finds (d : ℕ → ℕ → α) (odd : List ℕ) (used : List Bool)
    (i : ℕ) (l : List ℕ) :
    ∀ acc : WithTop α × ℤ,
      (∃ j ∈ l, used.getD j true = false) → acc.1 = ⊤ →
      (l.foldl (matchScanStep d odd used i) acc).1 < ⊤ ∧
      0 ≤ (l.foldl (matchScanStep d odd used i) acc).2 := by
  induction l with
  | nil => rintro acc ⟨j, hj, -⟩; cases hj
  | cons a t ih =>
    rintro acc ⟨j, hj, hju⟩ htop
    rw [List.foldl_cons]
    unfold matchScanStep
    by_cases hu : used.getD a true = false
    · rw [if_pos hu, if_pos (by rw [htop]; exact WithTop.coe_lt_top _)]
      exact matchScan_keep d odd used i t _ (WithTop.coe_lt_top _)
        (Int.natCast_nonneg a)
    · rw [if_neg hu]
      rcases List.mem_cons.1 hj with rfl | hjt
      · exact absurd hju hu
      · exact ih acc ⟨j, hjt, hju⟩ htop

theorem matchScan_cases (d : ℕ → ℕ → α) (odd : List ℕ) (used : List Bool)
    (i : ℕ) (l : List ℕ) :
    ∀ acc : WithTop α × ℤ,
      (l.foldl (matchScanStep d odd used i) acc).2 = acc.2 ∨
      ∃ j ∈ l, (l.foldl (matchScanStep d odd used i) acc).2 = (j : ℤ) ∧
        used.getD j true = false := by
  induction l with
  | nil => exact fun acc => Or.inl rfl
  | cons a t ih =>
    intro acc
    rw [List.foldl_cons]
    unfold matchScanStep
    by_cases hu : used.getD a true = false
    · rw [if_pos hu]
      by_cases hlt : ((d (odd.getD i 0) (odd.getD a 0) : WithTop α)) < acc.1
      · rw [if_pos hlt]
        rcases ih (((d (odd.getD i 0) (odd.getD a 0) : WithTop α)), (a : ℤ))
          with h | ⟨j, hjt, h1, h2⟩
        · exact Or.inr ⟨a, List.mem_cons_self a t, h, hu⟩
        · exact Or.inr ⟨j, List.mem_cons_of_mem a hjt, h1, h2⟩
      · rw [if_neg hlt]
        rcases ih acc with h | ⟨j, hjt, h1, h2⟩
        · exact Or.inl h
        · exact Or.inr ⟨j, List.mem_cons_of_mem a hjt, h1, h2⟩
    · rw [if_neg hu]
      rcases ih acc with h | ⟨j, hjt, h1, h2⟩
      · exact Or.inl h
      · exact Or.inr ⟨j, List.mem_cons_of_mem a hjt, h1, h2⟩

theorem findBestJ_nonneg (d : ℕ → ℕ → α) (odd : List ℕ) (used : List Bool)
    (i k : ℕ) (h : ∃ j, i + 1 ≤ j ∧ j < k ∧ used.getD j true = false) :
    0 ≤ findBestJ d odd used i k := by
  obtain ⟨j, h1, h2, h3⟩ := h
  unfold findBestJ
  exact (matchScan_finds d odd used i (List.range' (i + 1) (k - (i + 1)))
    (⊤, -1) ⟨j, (mem_range'_iff _ _ _).2 ⟨h1, by omega⟩, h3⟩ rfl).2

theorem findBestJ_mem (d : ℕ → ℕ → α) (odd : List ℕ) (used : List Bool)
    (i k : ℕ) (h : 0 ≤ findBestJ d odd used i k) :
    ∃ j, i + 1 ≤ j ∧ j < k ∧ findBestJ d odd used i k = (j : ℤ) ∧
      used.getD j true = false := by
  rcases matchScan_cases d odd used i (List.range' (i + 1) (k - (i + 1)))
    (⊤, -1) with h0 | ⟨j, hj, h1, h2⟩
  · exfalso
    unfold findBestJ at h
    rw [h0] at h
    norm_num at h
  · obtain ⟨hj1, hj2⟩ := (mem_range'_iff _ _ _).1 hj
    exact ⟨j, hj1, by omega, h1, h2⟩

theorem degree_pushNbr (adj : List (List ℕ)) (u x v : ℕ)
    (hu : u < adj.length) :
    degree (pushNbr adj u x) v
      = degree adj v + if v = u then 1 else 0 := by
  unfold degree pushNbr
  rw [getD_set]
  by_cases hvu : v = u
  · rw [if_pos ⟨hvu, hu⟩, if_pos hvu, List.length_append, hvu]
    simp
  · rw [if_neg (by intro hc; exact hvu hc.1), if_neg hvu]
    omega

theorem degree_addEdge (adj : List (List ℕ)) (u w v : ℕ)
    (hu : u < adj.length) (hw : w < adj.length) :
    degree (addEdge adj u w) v
      = degree adj v + (if v = u then 1 else 0)
        + (if v = w then 1 else 0) := by
  unfold addEdge
  rw [degree_pushNbr _ _ _ _ (by rw [length_pushNbr]; exact hw),
    degree_pushNbr _ _ _ _ hu]

theorem length_foldl_addEdge (pairs : List (ℕ × ℕ)) :
    ∀ adj : List (List ℕ),
      (pairs.foldl (fun a p => addEdge a p.1 p.2) adj).length
        = adj.length := by
  induction pairs with
  | nil => intro adj; rfl
  | cons p t ih =>
    intro adj
    rw [List.foldl_cons, ih, length_addEdge]

theorem degree_foldl_addEdge (pairs : List (ℕ × ℕ)) :
    ∀ adj : List (List ℕ),
      (∀ p ∈ pairs, p.1 < adj.length ∧ p.2 < adj.length) → ∀ v,
      degree (pairs.foldl (fun a p => addEdge a p.1 p.2) adj) v
        = degree adj v + (pairs.flatMap (fun p => [p.1, p.2])).count v := by
  induction pairs with
  | nil => intro adj _ v; simp
  | cons p t ih =>
    intro adj h v
    have hp := h p (List.mem_cons_self p t)
    rw [List.foldl_cons,
      ih (addEdge adj p.1 p.2)
        (fun q hq => by
          rw [length_addEdge]
          exact h q (List.mem_cons_of_mem p hq)) v,
      degree_addEdge adj p.1 p.2 v hp.1 hp.2,
      List.flatMap_cons, List.count_append]
    have hcnt : List.count v [p.1, p.2]
        = (if v = p.1 then 1 else 0) + (if v = p.2 then 1 else 0) := by
      rcases eq_or_ne p.1 p.2 with he | hne
      · rw [← he]
        by_cases h1 : v = p.1 <;> simp [List.count_cons, h1]
      · by_cases h1 : v = p.1
        · by_cases h2 : v = p.2
          · exact absurd (h1.symm.trans h2) hne
          · simp [List.count_cons, h1, h2, hne, Ne.symm hne]
        · by_cases h2 : v = p.2 <;>
            simp [List.count_cons, h1, h2, hne, Ne.symm hne]
    omega

theorem matchLoop_spec (d : ℕ → ℕ → α) (odd : List ℕ) (i : ℕ)
    (used : List Bool) (adj : List (List ℕ))
    (h1 : used.length = odd.length)
    (h2 : ∀ m, m < i → used.getD m true = true)
    (h3 : Even (unusedIdx used).length) :
    ∃ pairs : List (ℕ × ℕ),
      matchLoop d odd i used adj
        = pairs.foldl (fun a p => addEdge a p.1 p.2) adj ∧
      List.Perm (pairs.flatMap (fun p => [p.1, p.2]))
        ((unusedIdx used).map (fun m => odd.getD m 0)) := by
  by_cases hik : i < odd.length
  · rw [matchLoop, dif_pos hik]
    by_cases hui : used.getD i true = true
    · rw [if_pos hui]
      exact matchLoop_spec d odd (i + 1) used adj h1
        (fun m hm => by
          rcases Nat.lt_succ_iff_lt_or_eq.1 hm with h | rfl
          · exact h2 m h
          · exact hui) h3
    · rw [if_neg hui]
      have huif : used.getD i true = false := by
        cases hb : used.getD i true
        · rfl
        · exact absurd hb hui
      have hiu : i ∈ unusedIdx used :=
        (mem_unusedIdx used i).2 ⟨by omega, huif⟩
      have hex : ∃ j, i + 1 ≤ j ∧ j < odd.length ∧
          used.getD j true = false := by
        by_contra hcon
        push_neg at hcon
        have hall : ∀ m ∈ unusedIdx used, i = m := by
          intro m hm
          obtain ⟨hm1, hm2⟩ := (mem_unusedIdx used m).1 hm
          by_contra hmi
          rcases Nat.lt_or_ge m i with hlt | hge
          · rw [h2 m hlt] at hm2; cases hm2
          · exact (hcon m (by omega) (by omega)) hm2
        have hsing : (unusedIdx used).length = 1 := by
          have hle := List.nodup_iff_count_le_one.1 (nodup_unusedIdx used) i
          have hct := (List.count_eq_length).2 hall
          have hpos : 0 < List.count i (unusedIdx used) :=
            List.count_pos_iff.2 hiu
          omega
        rw [Nat.even_iff, hsing] at h3
        cases h3
      have hj0 : 0 ≤ findBestJ d odd used i odd.length :=
        findBestJ_nonneg d odd used i odd.length hex
      rw [if_pos hj0]
      obtain ⟨jN, hj1, hj2, hjeq, hju⟩ :=
        findBestJ_mem d odd used i odd.length hj0
      rw [hjeq, Int.toNat_natCast]
      have hij : i ≠ jN := by omega
      have hju' : jN ∈ unusedIdx used :=
        (mem_unusedIdx used jN).2 ⟨by omega, hju⟩
      have hperm := unusedIdx_set_pair used i jN hij hiu hju'
      have hlen' : ((used.set i true).set jN true).length = odd.length := by
        rw [List.length_set, List.length_set]; exact h1
      have h2' : ∀ m, m < i + 1 →
          ((used.set i true).set jN true).getD m true = true := by
        intro m hm
        rw [getD_set, getD_set]
        by_cases hmj : m = jN ∧ jN < (used.set i true).length
        · rw [if_pos hmj]
        · rw [if_neg hmj]
          by_cases hmi : m = i ∧ i < used.length
          · rw [if_pos hmi]
          · rw [if_neg hmi]
            have hmlt : m < i := by
              rcases Nat.lt_succ_iff_lt_or_eq.1 hm with h | rfl
              · exact h
              · exact absurd ⟨rfl, by omega⟩ hmi
            exact h2 m hmlt
      have h3' : Even (unusedIdx ((used.set i true).set jN true)).length := by
        have hle := hperm.length_eq
        simp only [List.length_cons] at hle
        rcases h3 with ⟨c, hc⟩
        exact ⟨c - 1, by omega⟩
      obtain ⟨pairs, hp1, hp2⟩ := matchLoop_spec d odd (i + 1)
        ((used.set i true).set jN true)
        (addEdge adj (odd.getD i 0) (odd.getD jN 0)) hlen' h2' h3'
      refine ⟨(odd.getD i 0, odd.getD jN 0) :: pairs, ?_, ?_⟩
      · rw [List.foldl_cons]
        exact hp1
      · rw [List.flatMap_cons]
        have hmap := hperm.map (fun m => odd.getD m 0)
        rw [List.map_cons, List.map_cons] at hmap
        have hstep : List.Perm
            ([odd.getD i 0, odd.getD jN 0]
              ++ pairs.flatMap (fun p => [p.1, p.2]))
            ([odd.getD i 0, odd.getD jN 0]
              ++ (unusedIdx ((used.set i true).set jN true)).map
                  (fun m => odd.getD m 0)) :=
          List.Perm.append_left _ hp2
        exact hstep.trans hmap.symm
  · rw [matchLoop, dif_neg hik]
    have hempty : unusedIdx used = [] := by
      rw [List.eq_nil_iff_forall_not_mem]
      intro m hm
      obtain ⟨hm1, hm2⟩ := (mem_unusedIdx used m).1 hm
      rw [h2 m (by omega)] at hm2
      cases hm2
    exact ⟨[], rfl, by rw [hempty]; simp⟩
termination_by odd.length - i

theorem findOdd_nodup (adj : List (List ℕ)) :
    (findOddDegreeVertices adj).Nodup :=
  List.Nodup.filter _ (List.nodup_range _)

theorem mem_findOdd (adj : List (List ℕ)) (v : ℕ) :
    v ∈ findOddDegreeVertices adj
      ↔ v < adj.length ∧ degree adj v % 2 = 1 := by
  unfold findOddDegreeVertices
  rw [List.mem_filter, List.mem_range]
  simp

/-- **Claim C3.**  Run on the odd-degree vertex list of an adjacency
(when that list has even length, as it does for the MST adjacency),
`addGreedyPerfectMatching` adds a set of pairing edges forming a perfect
matching on that list — the multiset of endpoints of the added edges is
a permutation of the odd list, so every listed vertex is paired exactly
once — and afterwards every vertex of the combined multigraph has even
degree; an empty odd list adds no edges. -/
theorem addGreedyPerfectMatching_spec (d : ℕ → ℕ → α)
    (adj : List (List ℕ))
    (heven : Even (findOddDegreeVertices adj).length) :
    (∃ pairs : List (ℕ × ℕ),
      addGreedyPerfectMatching (findOddDegreeVertices adj) d adj
        = pairs.foldl (fun a p => addEdge a p.1 p.2) adj ∧
      List.Perm (pairs.flatMap (fun p => [p.1, p.2]))
        (findOddDegreeVertices adj)) ∧
    (∀ v < adj.length,
      Even (degree
        (addGreedyPerfectMatching (findOddDegreeVertices adj) d adj) v)) ∧
    (findOddDegreeVertices adj = [] →
      addGreedyPerfectMatching (findOddDegreeVertices adj) d adj = adj) := by
  have hmain : ∃ pairs : List (ℕ × ℕ),
      addGreedyPerfectMatching (findOddDegreeVertices adj) d adj
        = pairs.foldl (fun a p => addEdge a p.1 p.2) adj ∧
      List.Perm (pairs.flatMap (fun p => [p.1, p.2]))
        (findOddDegreeVertices adj) := by
    by_cases hk : (findOddDegreeVertices adj).length = 0
    · refine ⟨[], ?_, ?_⟩
      · unfold addGreedyPerfectMatching
        rw [if_pos hk]
        rfl
      · rw [List.length_eq_zero.1 hk]
        simp
    · unfold addGreedyPerfectMatching
      rw [if_neg hk]
      have hrep : (List.replicate (findOddDegreeVertices adj).length
          false).length = (findOddDegreeVertices adj).length :=
        List.length_replicate ..
      have hunused : unusedIdx (List.replicate
          (findOddDegreeVertices adj).length false)
          = List.range (findOddDegreeVertices adj).length := by
        unfold unusedIdx
        rw [hrep]
        refine List.filter_eq_self.2 (fun m hm => ?_)
        simp [List.getElem?_replicate, List.mem_range.1 hm]
      obtain ⟨pairs, hp1, hp2⟩ := matchLoop_spec d
        (findOddDegreeVertices adj) 0
        (List.replicate (findOddDegreeVertices adj).length false) adj hrep
        (fun m hm => absurd hm (by omega))
        (by rw [hunused, List.length_range]; exact heven)
      refine ⟨pairs, hp1, ?_⟩
      have hmap : (unusedIdx (List.replicate
          (findOddDegreeVertices adj).length false)).map
            (fun m => (findOddDegreeVertices adj).getD m 0)
          = findOddDegreeVertices adj := by
        rw [hunused]
        exact map_getD_range (findOddDegreeVertices adj) 0
      rwa [hmap] at hp2
  refine ⟨hmain, ?_, ?_⟩
  · intro v hv
    obtain ⟨pairs, hp1, hp2⟩ := hmain
    have hrange : ∀ p ∈ pairs, p.1 < adj.length ∧ p.2 < adj.length := by
      intro p hp
      have h1 : p.1 ∈ pairs.flatMap (fun p => [p.1, p.2]) :=
        List.mem_flatMap.2 ⟨p, hp, by simp⟩
      have h2 : p.2 ∈ pairs.flatMap (fun p => [p.1, p.2]) :=
        List.mem_flatMap.2 ⟨p, hp, by simp⟩
      exact ⟨((mem_findOdd adj p.1).1 (hp2.mem_iff.1 h1)).1,
        ((mem_findOdd adj p.2).1 (hp2.mem_iff.1 h2)).1⟩
    rw [hp1, degree_foldl_addEdge pairs adj hrange v, hp2.count_eq v]
    by_cases hvo : v ∈ findOddDegreeVertices adj
    · rw [List.count_eq_one_of_mem (findOdd_nodup adj) hvo]
      have hdeg := ((mem_findOdd adj v).1 hvo).2
      rw [Nat.even_iff]
      omega
    · rw [List.count_eq_zero_of_not_mem hvo]
      have hdeg : ¬ degree adj v % 2 = 1 :=
        fun hc => hvo ((mem_findOdd adj v).2 ⟨hv, hc⟩)
      rw [Nat.even_iff]
      omega
  · intro h0
    unfold addGreedyPerfectMatching
    rw [if_pos (by rw [h0]; rfl)]

/-- Witness for C3 on the path graph with two odd vertices. -/
theorem addGreedyPerfectMatching_spec_witness :
    (∃ pairs : List (ℕ × ℕ),
      addGreedyPerfectMatching (findOddDegreeVertices [[1], [0]])
          (fun _ _ => (1 : ℚ)) [[1], [0]]
        = pairs.foldl (fun a p => addEdge a p.1 p.2) [[1], [0]] ∧
      List.Perm (pairs.flatMap (fun p => [p.1, p.2]))
        (findOddDegreeVertices [[1], [0]])) ∧
    (∀ v < ([[1], [0]] : List (List ℕ)).length,
      Even (degree (addGreedyPerfectMatching
        (findOddDegreeVertices [[1], [0]])
        (fun _ _ => (1 : ℚ)) [[1], [0]]) v)) ∧
    (findOddDegreeVertices [[1], [0]] = [] →
      addGreedyPerfectMatching (findOddDegreeVertices [[1], [0]])
        (fun _ _ => (1 : ℚ)) [[1], [0]] = [[1], [0]]) :=
  addGreedyPerfectMatching_spec (fun _ _ => (1 : ℚ)) [[1], [0]] ⟨1, rfl⟩

/-! ### Shortcutting under the triangle inequality (claim C5) -/

theorem tourLength_nonneg (d : ℕ → ℕ → α) (hnn : ∀ i j, 0 ≤ d i j) :
    ∀ w : List ℕ, 0 ≤ tourLength d w
  | [] => le_refl 0
  | [_] => le_refl 0
  | a :: b :: t => by
    show 0 ≤ d a b + tourLength d (b :: t)
    exact add_nonneg (hnn a b) (tourLength_nonneg d hnn (b :: t))

theorem tourLength_cons (d : ℕ → ℕ → α) (b : ℕ) (l : List ℕ)
    (hl : l ≠ []) :
    tourLength d (b :: l) = d b l.headI + tourLength d l := by
  cases l with
  | nil => exact absurd rfl hl
  | cons c t => rfl

theorem getLast?_cons_ne (b : ℕ) (l : List ℕ) (hl : l ≠ []) :
    (b :: l).getLast? = l.getLast? := by
  cases l with
  | nil => exact absurd rfl hl
  | cons c t => exact List.getLast?_cons_cons ..

theorem getLastD_cons_ne (b : ℕ) (l : List ℕ) (hl : l ≠ []) :
    (b :: l).getLastD 0 = l.getLastD 0 := by
  rw [List.getLastD_eq_getLast?, List.getLastD_eq_getLast?,
    getLast?_cons_ne b l hl]

theorem tourLength_sublist_chain (d : ℕ → ℕ → α)
    (htri : ∀ i j k, d i k ≤ d i j + d j k)
    (hnn : ∀ i j, 0 ≤ d i j) :
    ∀ {t w : List ℕ}, t.Sublist w → t ≠ [] →
      t.getLast? = w.getLast? → ∀ a : ℕ,
      d a t.headI + tourLength d t ≤ d a w.headI + tourLength d w := by
  intro t w h
  induction h with
  | slnil => exact fun h1 _ _ => absurd rfl h1
  | @cons l₁ l₂ b hsub ih =>
    intro h1 h2 a
    have hl₂ : l₂ ≠ [] := by
      intro he
      subst he
      exact h1 (List.sublist_nil.1 hsub)
    obtain ⟨c, w'', rfl⟩ : ∃ c w'', l₂ = c :: w'' := by
      cases l₂ with
      | nil => exact absurd rfl hl₂
      | cons c w'' => exact ⟨c, w'', rfl⟩
    have h2' : l₁.getLast? = (c :: w'').getLast? := by
      rw [h2, getLast?_cons_ne b _ (by simp)]
    have iha := ih h1 h2' a
    calc d a l₁.headI + tourLength d l₁
        ≤ d a (c :: w'').headI + tourLength d (c :: w'') := iha
      _ = d a c + tourLength d (c :: w'') := rfl
      _ ≤ (d a b + d b c) + tourLength d (c :: w'') := by
          exact add_le_add_right (htri a b c) _
      _ = d a (b :: c :: w'').headI + tourLength d (b :: c :: w'') := by
          show _ = d a b + (d b c + tourLength d (c :: w''))
          ring
  | @cons₂ l₁ l₂ b hsub ih =>
    intro _ h2 a
    show d a b + tourLength d (b :: l₁) ≤ d a b + tourLength d (b :: l₂)
    refine add_le_add_left ?_ _
    cases l₁ with
    | nil =>
      show (0 : α) ≤ tourLength d (b :: l₂)
      exact tourLength_nonneg d hnn _
    | cons c t' =>
      have hl₂ : l₂ ≠ [] := by
        intro he
        subst he
        cases List.sublist_nil.1 hsub
      obtain ⟨e, w'', rfl⟩ : ∃ e w'', l₂ = e :: w'' := by
        cases l₂ with
        | nil => exact absurd rfl hl₂
        | cons e w'' => exact ⟨e, w'', rfl⟩
      have h2' : (c :: t').getLast? = (e :: w'').getLast? := by
        have hx := h2
        rw [getLast?_cons_ne b _ (by simp), getLast?_cons_ne b _ (by simp)]
          at hx
        exact hx
      have := ih (by simp) h2' b
      rw [tourLength_cons d b (c :: t') (by simp),
        tourLength_cons d b (e :: w'') (by simp)]
      exact this

theorem tourLength_sublist_le (d : ℕ → ℕ → α)
    (htri : ∀ i j k, d i k ≤ d i j + d j k)
    (hnn : ∀ i j, 0 ≤ d i j) {t w : List ℕ} (h : t.Sublist w)
    (h1 : t ≠ []) (hh : t.headI = w.headI)
    (hl : t.getLast? = w.getLast?) :
    tourLength d t ≤ tourLength d w := by
  cases t with
  | nil => exact absurd rfl h1
  | cons b t' =>
    cases w with
    | nil => cases List.sublist_nil.1 h
    | cons bw w' =>
      have hb : b = bw := by simpa using hh
      subst hb
      have h' : t'.Sublist w' := List.cons_sublist_cons.1 h
      cases t' with
      | nil =>
        show (0 : α) ≤ tourLength d (b :: w')
        exact tourLength_nonneg d hnn _
      | cons c t'' =>
        have hw' : w' ≠ [] := by
          intro he
          subst he
          cases List.sublist_nil.1 h'
        have hl' : (c :: t'').getLast? = w'.getLast? := by
          have hx := hl
          rw [getLast?_cons_ne b _ (by simp), getLast?_cons_ne b w' hw']
            at hx
          exact hx
        rw [tourLength_cons d b (c :: t'') (by simp),
          tourLength_cons d b w' hw']
        exact tourLength_sublist_chain d htri hnn h' (by simp) hl' b

theorem headI_append (l1 l2 : List ℕ) (h : l1 ≠ []) :
    (l1 ++ l2).headI = l1.headI := by
  cases l1 with
  | nil => exact absurd rfl h
  | cons a t => rfl

theorem getLastD_append (l1 l2 : List ℕ) (h : l2 ≠ []) :
    (l1 ++ l2).getLastD 0 = l2.getLastD 0 := by
  rw [List.getLastD_eq_getLast?, List.getLastD_eq_getLast?,
    List.getLast?_append]
  cases hl : l2.getLast? with
  | some x => rfl
  | none =>
    exfalso
    rw [List.getLast?_eq_none_iff] at hl
    exact h hl

theorem tourLength_append (d : ℕ → ℕ → α) :
    ∀ (l1 l2 : List ℕ), l1 ≠ [] → l2 ≠ [] →
      tourLength d (l1 ++ l2)
        = tourLength d l1 + d (l1.getLastD 0) l2.headI + tourLength d l2
  | [], _, h1, _ => absurd rfl h1
  | [a], l2, _, h2 => by
    rw [List.singleton_append, tourLength_cons d a l2 h2]
    show _ = 0 + d a l2.headI + tourLength d l2
    rw [zero_add]
  | a :: b :: t, l2, _, h2 => by
    have ih := tourLength_append d (b :: t) l2 (by simp) h2
    rw [List.cons_append, tourLength_cons d a ((b :: t) ++ l2) (by simp),
      headI_append (b :: t) l2 (by simp), ih,
      tourLength_cons d a (b :: t) (by simp),
      getLastD_cons_ne a (b :: t) (by simp)]
    simp only [List.headI]
    ring

theorem tourLength_rotate (d : ℕ → ℕ → α) (xs ys : List ℕ)
    (hx : xs ≠ []) (hy : ys ≠ []) :
    tourLength d ((xs ++ ys) ++ [xs.headI])
      = tourLength d ((ys ++ xs) ++ [ys.headI]) := by
  rw [tourLength_append d (xs ++ ys) [xs.headI] (by simp [hx]) (by simp),
    tourLength_append d xs ys hx hy,
    tourLength_append d (ys ++ xs) [ys.headI] (by simp [hy]) (by simp),
    tourLength_append d ys xs hy hx,
    getLastD_append xs ys hy, getLastD_append ys xs hx]
  show _ + d (ys.getLastD 0) ([xs.headI]).headI + tourLength d [xs.headI]
      = _ + d (xs.getLastD 0) ([ys.headI]).headI + tourLength d [ys.headI]
  show _ + d (ys.getLastD 0) xs.headI + 0
      = _ + d (xs.getLastD 0) ys.headI + 0
  ring

theorem rotateToZero_tourLength (d : ℕ → ℕ → α) (t : List ℕ)
    (h0 : 0 ∈ t) :
    tourLength d (rotateToZero t ++ [0])
      = tourLength d (t ++ [t.headI]) := by
  unfold rotateToZero
  have hlt : t.indexOf 0 < t.length := List.indexOf_lt_length.2 h0
  by_cases hi : t.indexOf 0 ≠ 0 ∧ t.indexOf 0 < t.length
  · rw [if_pos hi]
    obtain ⟨hne, -⟩ := hi
    have hxne : t.take (t.indexOf 0) ≠ [] := by
      intro hc
      have hcl := congrArg List.length hc
      rw [List.length_take] at hcl
      simp only [List.length_nil] at hcl
      omega
    have hyne : t.drop (t.indexOf 0) ≠ [] := by
      intro hc
      have hcl := congrArg List.length hc
      rw [List.length_drop] at hcl
      simp only [List.length_nil] at hcl
      omega
    have hhead : (t.drop (t.indexOf 0)).headI = 0 := by
      rw [List.drop_eq_getElem_cons hlt]
      show t[t.indexOf 0] = 0
      exact List.getElem_indexOf hlt
    have hheadx : (t.take (t.indexOf 0)).headI = t.headI := by
      cases t with
      | nil => cases h0
      | cons a t' =>
        obtain ⟨k, hk⟩ := Nat.exists_eq_succ_of_ne_zero hne
        rw [hk]
        rfl
    calc tourLength d (t.drop (t.indexOf 0) ++ t.take (t.indexOf 0) ++ [0])
        = tourLength d ((t.drop (t.indexOf 0) ++ t.take (t.indexOf 0))
            ++ [(t.drop (t.indexOf 0)).headI]) := by rw [hhead]
      _ = tourLength d ((t.take (t.indexOf 0) ++ t.drop (t.indexOf 0))
            ++ [(t.take (t.indexOf 0)).headI]) :=
          tourLength_rotate d (t.drop (t.indexOf 0))
            (t.take (t.indexOf 0)) hyne hxne
      _ = tourLength d (t ++ [t.headI]) := by
          rw [List.take_append_drop, hheadx]
  · rw [if_neg hi]
    have hz : t.indexOf 0 = 0 := by
      by_contra hc
      exact hi ⟨hc, hlt⟩
    have hhead : t.headI = 0 := by
      cases t with
      | nil => cases h0
      | cons a t' =>
        rw [List.indexOf_cons] at hz
        by_cases ha : a = 0
        · exact ha
        · exfalso
          rw [beq_eq_false_iff_ne.2 ha] at hz
          simp at hz
    rw [hhead]

theorem shortcutAux_sublist :
    ∀ (w : List ℕ) (vis : List Bool), (shortcutAux w vis).Sublist w
  | [], _ => List.Sublist.slnil
  | v :: rest, vis => by
    unfold shortcutAux
    by_cases hv : vis.getD v true = false
    · rw [if_pos hv]
      exact (shortcutAux_sublist rest (vis.set v true)).cons₂ v
    · rw [if_neg hv]
      exact (shortcutAux_sublist rest vis).cons v

theorem shortcutAux_not_mem :
    ∀ (w : List ℕ) (vis : List Bool) (x : ℕ),
      vis.getD x true = true → x ∉ shortcutAux w vis
  | [], _, _, _ => by
    unfold shortcutAux
    exact List.not_mem_nil _
  | v :: rest, vis, x, hx => by
    unfold shortcutAux
    by_cases hv : vis.getD v true = false
    · rw [if_pos hv]
      intro hmem
      rcases List.mem_cons.1 hmem with rfl | hmem'
      · rw [hx] at hv
        cases hv
      · refine shortcutAux_not_mem rest (vis.set v true) x ?_ hmem'
        rw [getD_set]
        by_cases hc : x = v ∧ v < vis.length
        · rw [if_pos hc]
        · rw [if_neg hc]
          exact hx
    · rw [if_neg hv]
      exact shortcutAux_not_mem rest vis x hx

/-- **Claim C5.**  For every Eulerian circuit (a nonempty closed walk
starting and ending at vertex 0) over a distance matrix satisfying the
triangle inequality, the closed tour obtained by shortcutting it
(keeping first occurrences, rotating to start at vertex 0, appending
vertex 0) has `tourLength` at most the sum of distances along the
circuit; and the rotation step never changes the closed tour's
length. -/
theorem shortcut_rotate_le (d : ℕ → ℕ → α)
    (htri : ∀ i j k, d i k ≤ d i j + d j k)
    (hnn : ∀ i j, 0 ≤ d i j) (hdiag : ∀ i, d i i = 0)
    (n : ℕ) (hn : 0 < n) (euler : List ℕ)
    (hne : euler ≠ []) (hhead : euler.headI = 0)
    (hlast : euler.getLast? = some 0) :
    tourLength d
        (rotateToZero (shortcutAux euler (List.replicate n false)) ++ [0])
      ≤ tourLength d euler ∧
    (∀ t : List ℕ, 0 ∈ t →
      tourLength d (rotateToZero t ++ [0])
        = tourLength d (t ++ [t.headI])) := by
  refine ⟨?_, fun t h0 => rotateToZero_tourLength d t h0⟩
  obtain ⟨rest, rfl⟩ : ∃ rest, euler = 0 :: rest := by
    cases euler with
    | nil => exact absurd rfl hne
    | cons a rest => exact ⟨rest, by rw [show a = 0 from hhead]⟩
  have hkeep : (List.replicate n false).getD 0 true = false := by
    rw [List.getD_eq_getElem?_getD, List.getElem?_replicate, if_pos hn]
    rfl
  cases rest with
  | nil =>
    show tourLength d (rotateToZero (shortcutAux [0]
        (List.replicate n false)) ++ [0]) ≤ tourLength d [0]
    have ht : shortcutAux [0] (List.replicate n false) = [0] := by
      unfold shortcutAux
      rw [if_pos hkeep]
      rfl
    rw [ht]
    show tourLength d ([0] ++ [0]) ≤ tourLength d [0]
    show d 0 0 + 0 ≤ (0 : α)
    rw [hdiag 0, add_zero]
  | cons r rest' =>
    have ht : shortcutAux (0 :: r :: rest') (List.replicate n false)
        = 0 :: shortcutAux (r :: rest')
            ((List.replicate n false).set 0 true) := by
      unfold shortcutAux
      rw [if_pos hkeep]
      rfl
    have h0t₂ : 0 ∉ shortcutAux (r :: rest')
        ((List.replicate n false).set 0 true) := by
      refine shortcutAux_not_mem _ _ 0 ?_
      rw [getD_set, if_pos ⟨rfl, by rw [List.length_replicate]; exact hn⟩]
    have hrot : rotateToZero (0 :: shortcutAux (r :: rest')
        ((List.replicate n false).set 0 true))
        = 0 :: shortcutAux (r :: rest')
            ((List.replicate n false).set 0 true) := by
      unfold rotateToZero
      rw [if_neg]
      intro hcon
      exact hcon.1 (List.indexOf_cons_self 0 _)
    rw [ht, hrot]
    have hrne : (r :: rest') ≠ [] := by simp
    have hlast' : (r :: rest').getLast? = some 0 := by
      rw [← getLast?_cons_ne 0 (r :: rest') hrne]
      exact hlast
    have hlastv : (r :: rest').getLast hrne = 0 := by
      have hg := List.getLast?_eq_getLast (r :: rest') hrne
      rw [hlast'] at hg
      exact (Option.some.inj hg).symm
    have hdecomp : (r :: rest').dropLast ++ [0] = r :: rest' := by
      have hg := List.dropLast_concat_getLast hrne
      rw [hlastv] at hg
      exact hg
    have hsub : (shortcutAux (r :: rest')
        ((List.replicate n false).set 0 true)).Sublist
        ((r :: rest').dropLast) := by
      have hs2 : (shortcutAux (r :: rest')
          ((List.replicate n false).set 0 true)).Sublist
          ((r :: rest').dropLast ++ [0]) := by
        rw [hdecomp]
        exact shortcutAux_sublist _ _
      rcases List.sublist_append_iff.1 hs2 with ⟨r₁, r₂, heq, hr₁, hr₂⟩
      have hr₂nil : r₂ = [] := by
        cases r₂ with
        | nil => rfl
        | cons y ys =>
          exfalso
          have hy : y ∈ [0] := hr₂.subset (List.mem_cons_self y ys)
          have hy0 : y = 0 := by simpa using hy
          apply h0t₂
          rw [heq, hy0]
          exact List.mem_append.2 (Or.inr (List.mem_cons_self 0 ys))
      rw [hr₂nil, List.append_nil] at heq
      rw [heq]
      exact hr₁
    have hfull : ((0 :: shortcutAux (r :: rest')
        ((List.replicate n false).set 0 true)) ++ [0]).Sublist
        (0 :: r :: rest') := by
      rw [List.cons_append]
      refine List.Sublist.cons₂ 0 ?_
      have happ : (shortcutAux (r :: rest')
          ((List.replicate n false).set 0 true) ++ [0]).Sublist
          ((r :: rest').dropLast ++ [0]) :=
        hsub.append (List.Sublist.refl [0])
      rw [hdecomp] at happ
      exact happ
    refine tourLength_sublist_le d htri hnn hfull (by simp) rfl ?_
    rw [List.cons_append, getLast?_cons_ne 0 _ (by simp),
      List.getLast?_concat, getLast?_cons_ne 0 (r :: rest') hrne, hlast']

/-- Witness for C5 on the circuit `[0, 1, 0]` with the discrete metric. -/
theorem shortcut_rotate_le_witness :
    (tourLength (fun i j => if i = j then (0 : ℚ) else 1)
        (rotateToZero (shortcutAux [0, 1, 0] (List.replicate 2 false))
          ++ [0])
      ≤ tourLength (fun i j => if i = j then (0 : ℚ) else 1) [0, 1, 0]) ∧
    (∀ t : List ℕ, 0 ∈ t →
      tourLength (fun i j => if i = j then (0 : ℚ) else 1)
          (rotateToZero t ++ [0])
        = tourLength (fun i j => if i = j then (0 : ℚ) else 1)
            (t ++ [t.headI])) :=
  shortcut_rotate_le (fun i j => if i = j then (0 : ℚ) else 1)
    (by
      intro i j k
      show (if i = k then (0 : ℚ) else 1)
        ≤ (if i = j then (0 : ℚ) else 1) + (if j = k then (0 : ℚ) else 1)
      rcases eq_or_ne i k with rfl | hik
      · rw [if_pos rfl]
        have h1 : (0 : ℚ) ≤ if i = j then (0 : ℚ) else 1 := by
          by_cases h : i = j <;> simp [h]
        have h2 : (0 : ℚ) ≤ if j = i then (0 : ℚ) else 1 := by
          by_cases h : j = i <;> simp [h]
        exact add_nonneg h1 h2
      · rw [if_neg hik]
        rcases eq_or_ne i j with rfl | hij
        · rw [if_pos rfl, if_neg hik, zero_add]
        · rw [if_neg hij]
          have h2 : (0 : ℚ) ≤ if j = k then (0 : ℚ) else 1 := by
            by_cases h : j = k <;> simp [h]
          linarith)
    (by
      intro i j
      show (0 : ℚ) ≤ if i = j then (0 : ℚ) else 1
      by_cases h : i = j <;> simp [h])
    (fun i => if_pos rfl) 2 (by norm_num) [0, 1, 0] (by simp)
    rfl (by rfl)

/-! ### Hierholzer's algorithm: correctness (claim C4)

`eulerAuxG` is an instrumented version of the Euler loop: it produces the
final circuit directly in output order (the C++ code accumulates popped
vertices and reverses at the end) and also returns the final adjacency
structure, which the C++ code discards (it owns `adj` by value).  The
lemma `eulerLoop_eq_eulerAuxG` ties it to the literal loop embedding. -/

def eulerAuxG (adj : List (List ℕ)) (st : List ℕ) :
    List ℕ × List (List ℕ) :=
  match st with
  | [] => ([], adj)
  | u :: rest =>
    if h : adj.getD u [] = [] then
      ((eulerAuxG adj rest).1 ++ [u], (eulerAuxG adj rest).2)
    else eulerAuxG (eulerRemove adj u) (eulerNext adj u :: u :: rest)
termination_by 2 * totalLen adj + st.length
decreasing_by
  all_goals simp only [List.length_cons]
  all_goals try omega
  all_goals
    have hdec := totalLen_eulerRemove_lt adj u h
    omega

theorem eulerAuxG_nil (adj : List (List ℕ)) :
    eulerAuxG adj [] = ([], adj) := by
  rw [eulerAuxG.eq_def]

theorem eulerAuxG_pop (adj : List (List ℕ)) (u : ℕ) (rest : List ℕ)
    (h : adj.getD u [] = []) :
    eulerAuxG adj (u :: rest)
      = ((eulerAuxG adj rest).1 ++ [u], (eulerAuxG adj rest).2) := by
  rw [eulerAuxG.eq_def]
  show (if h : adj.getD u [] = [] then
      ((eulerAuxG adj rest).1 ++ [u], (eulerAuxG adj rest).2)
    else eulerAuxG (eulerRemove adj u) (eulerNext adj u :: u :: rest)) = _
  rw [dif_pos h]

theorem eulerAuxG_push (adj : List (List ℕ)) (u : ℕ) (rest : List ℕ)
    (h : ¬ adj.getD u [] = []) :
    eulerAuxG adj (u :: rest)
      = eulerAuxG (eulerRemove adj u) (eulerNext adj u :: u :: rest) := by
  rw [eulerAuxG.eq_def]
  show (if h : adj.getD u [] = [] then
      ((eulerAuxG adj rest).1 ++ [u], (eulerAuxG adj rest).2)
    else eulerAuxG (eulerRemove adj u) (eulerNext adj u :: u :: rest)) = _
  rw [dif_neg h]

theorem eulerLoop_eq_eulerAuxG (adj : List (List ℕ)) (st : List ℕ) :
    ∀ circuit : List ℕ,
      eulerLoop adj st circuit = circuit ++ (eulerAuxG adj st).1.reverse := by
  intro circuit
  match st with
  | [] =>
    rw [eulerLoop, eulerAuxG_nil]
    simp
  | u :: rest =>
    by_cases h : adj.getD u [] = []
    · rw [eulerLoop, eulerAuxG_pop adj u rest h]
      rw [dif_pos h]
      rw [eulerLoop_eq_eulerAuxG adj rest (circuit ++ [u])]
      rw [List.reverse_append]
      simp
    · rw [eulerLoop, eulerAuxG_push adj u rest h]
      rw [dif_neg h]
      exact eulerLoop_eq_eulerAuxG (eulerRemove adj u)
        (eulerNext adj u :: u :: rest) circuit
termination_by 2 * totalLen adj + st.length
decreasing_by
  · simp only [List.length_cons]; omega
  · have := totalLen_eulerRemove_lt adj u h
    simp only [List.length_cons]
    omega

theorem eulerianTourHierholzer_eq (start : ℕ) (adj : List (List ℕ)) :
    eulerianTourHierholzer start adj = (eulerAuxG adj [start]).1 := by
  unfold eulerianTourHierholzer
  rw [eulerLoop_eq_eulerAuxG adj [start] []]
  simp

/-- The multiset of unordered pairs of consecutive elements of a walk. -/
def chainPairs : List ℕ → Multiset (Sym2 ℕ)
  | [] => 0
  | [_] => 0
  | a :: b :: t => Sym2.mk (a, b) ::ₘ chainPairs (b :: t)

/-- The multiset of stored edge instances of the adjacency structure,
with vertex indices offset by `k` (each undirected edge appears twice,
once from each endpoint). -/
def edgesMFrom (k : ℕ) : List (List ℕ) → Multiset (Sym2 ℕ)
  | [] => 0
  | l :: rest =>
    (l.map (fun v => Sym2.mk (k, v)) : List (Sym2 ℕ)) + edgesMFrom (k + 1) rest

/-- The multiset of stored edge instances of the adjacency structure. -/
def edgesM (adj : List (List ℕ)) : Multiset (Sym2 ℕ) :=
  edgesMFrom 0 adj

theorem edgesMFrom_set (l : List ℕ) :
    ∀ (adj : List (List ℕ)) (k w : ℕ), w < adj.length →
      edgesMFrom k (adj.set w l)
          + ((adj.getD w []).map (fun v => Sym2.mk (k + w, v))
              : List (Sym2 ℕ))
        = edgesMFrom k adj
          + (l.map (fun v => Sym2.mk (k + w, v)) : List (Sym2 ℕ)) := by
  intro adj
  induction adj with
  | nil => intro k w hw; simp at hw
  | cons a t ih =>
    intro k w hw
    cases w with
    | zero =>
      rw [List.set_cons_zero]
      show ((l.map (fun v => Sym2.mk (k, v)) : List (Sym2 ℕ))
            : Multiset (Sym2 ℕ)) + edgesMFrom (k + 1) t
          + ((a.map (fun v => Sym2.mk (k + 0, v)) : List (Sym2 ℕ))
              : Multiset (Sym2 ℕ))
        = ((a.map (fun v => Sym2.mk (k, v)) : List (Sym2 ℕ))
            : Multiset (Sym2 ℕ)) + edgesMFrom (k + 1) t
          + ((l.map (fun v => Sym2.mk (k + 0, v)) : List (Sym2 ℕ))
              : Multiset (Sym2 ℕ))
      rw [Nat.add_zero]
      abel
    | succ w =>
      rw [List.set_cons_succ]
      show ((a.map (fun v => Sym2.mk (k, v)) : List (Sym2 ℕ))
            : Multiset (Sym2 ℕ)) + edgesMFrom (k + 1) (t.set w l)
          + ((t.getD w []).map (fun v => Sym2.mk (k + (w + 1), v))
              : List (Sym2 ℕ))
        = ((a.map (fun v => Sym2.mk (k, v)) : List (Sym2 ℕ))
            : Multiset (Sym2 ℕ)) + edgesMFrom (k + 1) t
          + ((l.map (fun v => Sym2.mk (k + (w + 1), v)) : List (Sym2 ℕ))
              : Multiset (Sym2 ℕ))
      have hw' : w < t.length := by
        simp only [List.length_cons] at hw
        omega
      have := ih (k + 1) w hw'
      rw [show k + (w + 1) = k + 1 + w by omega]
      calc ((a.map (fun v => Sym2.mk (k, v)) : List (Sym2 ℕ))
            : Multiset (Sym2 ℕ)) + edgesMFrom (k + 1) (t.set w l)
          + ((t.getD w []).map (fun v => Sym2.mk (k + 1 + w, v))
              : List (Sym2 ℕ))
          = ((a.map (fun v => Sym2.mk (k, v)) : List (Sym2 ℕ))
              : Multiset (Sym2 ℕ))
            + (edgesMFrom (k + 1) (t.set w l)
              + ((t.getD w []).map (fun v => Sym2.mk (k + 1 + w, v))
                  : List (Sym2 ℕ))) := by abel
        _ = ((a.map (fun v => Sym2.mk (k, v)) : List (Sym2 ℕ))
              : Multiset (Sym2 ℕ))
            + (edgesMFrom (k + 1) t
              + ((l.map (fun v => Sym2.mk (k + 1 + w, v)) : List (Sym2 ℕ))
                  : Multiset (Sym2 ℕ))) := by rw [this]
        _ = _ := by abel

/-- The invariant maintained by the Euler loop: the adjacency structure
represents a loopless undirected multigraph with in-range entries. -/
def EulerInv (adj : List (List ℕ)) : Prop :=
  (∀ u v : ℕ, (adj.getD u []).count v = (adj.getD v []).count u) ∧
  (∀ u : ℕ, u ∉ adj.getD u []) ∧
  (∀ l ∈ adj, ∀ w ∈ l, w < adj.length)

theorem eulerNext_mem (adj : List (List ℕ)) (u : ℕ)
    (h : adj.getD u [] ≠ []) : eulerNext adj u ∈ adj.getD u [] := by
  unfold eulerNext
  have h1 := List.getLast?_eq_getLast (adj.getD u []) h
  rw [List.getLastD_eq_getLast?, h1]
  exact List.getLast_mem h

theorem eulerRemove_length (adj : List (List ℕ)) (u : ℕ) :
    (eulerRemove adj u).length = adj.length := by
  unfold eulerRemove
  rw [List.length_set, List.length_set]

theorem eulerRemove_getD_u (adj : List (List ℕ)) (u : ℕ)
    (hu : u < adj.length) (huv : eulerNext adj u ≠ u) :
    (eulerRemove adj u).getD u [] = (adj.getD u []).dropLast := by
  unfold eulerRemove
  rw [getD_set, if_neg (fun hc => huv hc.1.symm), getD_set,
    if_pos ⟨rfl, hu⟩]

theorem eulerRemove_getD_v (adj : List (List ℕ)) (u : ℕ)
    (huv : eulerNext adj u ≠ u) :
    (eulerRemove adj u).getD (eulerNext adj u) []
      = (adj.getD (eulerNext adj u) []).erase u := by
  unfold eulerRemove
  by_cases hvlen : eulerNext adj u < adj.length
  · rw [getD_set, if_pos ⟨rfl, by rw [List.length_set]; exact hvlen⟩]
    congr 1
    rw [getD_set, if_neg (fun hc => huv hc.1)]
  · rw [getD_set, if_neg
      (fun hc => hvlen (by rw [List.length_set] at hc; exact hc.2)),
      getD_set, if_neg (fun hc => huv hc.1)]
    rw [List.getD_eq_default _ _ (le_of_not_lt hvlen)]
    rfl

theorem eulerRemove_getD_other (adj : List (List ℕ)) (u w : ℕ)
    (hwu : w ≠ u) (hwv : w ≠ eulerNext adj u) :
    (eulerRemove adj u).getD w [] = adj.getD w [] := by
  unfold eulerRemove
  rw [getD_set, if_neg (fun hc => hwv hc.1), getD_set,
    if_neg (fun hc => hwu hc.1)]

theorem count_dropLast_add (l : List ℕ) (h : l ≠ []) (y : ℕ) :
    (l.dropLast).count y + (if y = l.getLastD 0 then 1 else 0)
      = l.count y := by
  have hg : l.getLastD 0 = l.getLast h := by
    rw [List.getLastD_eq_getLast?, List.getLast?_eq_getLast l h]
    rfl
  rw [hg]
  conv_rhs => rw [← List.dropLast_concat_getLast h]
  rw [List.count_append]
  congr 1
  by_cases hy : y = l.getLast h
  · rw [if_pos hy, hy]
    simp
  · rw [if_neg hy]
    simp [List.count_cons, hy]

theorem eulerRemove_count (adj : List (List ℕ)) (u : ℕ)
    (hu : u < adj.length) (hne : adj.getD u [] ≠ [])
    (huv : eulerNext adj u ≠ u)
    (hs : (adj.getD (eulerNext adj u) []).count u
      = (adj.getD u []).count (eulerNext adj u)) (x w : ℕ) :
    ((eulerRemove adj u).getD x []).count w
      + (if x = u ∧ w = eulerNext adj u then 1 else 0)
      + (if x = eulerNext adj u ∧ w = u then 1 else 0)
    = ((adj.getD x []).count w) := by
  have hvmem : eulerNext adj u ∈ adj.getD u [] := eulerNext_mem adj u hne
  have humem : u ∈ adj.getD (eulerNext adj u) [] := by
    rw [← List.count_pos_iff, hs, List.count_pos_iff]
    exact hvmem
  by_cases hx : x = u
  · rw [hx, eulerRemove_getD_u adj u hu huv]
    by_cases hw : w = eulerNext adj u
    · rw [if_pos ⟨rfl, hw⟩, if_neg (fun hc => huv hc.1.symm)]
      have hdl := count_dropLast_add (adj.getD u []) hne w
      rw [if_pos (show w = (adj.getD u []).getLastD 0 from hw)] at hdl
      omega
    · rw [if_neg (fun hc => hw hc.2), if_neg (fun hc => huv hc.1.symm)]
      have hdl := count_dropLast_add (adj.getD u []) hne w
      rw [if_neg (show ¬ w = (adj.getD u []).getLastD 0 from hw)] at hdl
      omega
  · by_cases hxv : x = eulerNext adj u
    · rw [hxv, eulerRemove_getD_v adj u huv,
        if_neg (fun hc => huv hc.1)]
      by_cases hw : w = u
      · rw [if_pos ⟨rfl, hw⟩, hw]
        have h1 := List.count_erase_self u (adj.getD (eulerNext adj u) [])
        have h2 : 0 < (adj.getD (eulerNext adj u) []).count u :=
          List.count_pos_iff.2 humem
        omega
      · rw [if_neg (fun hc => hw hc.2), List.count_erase_of_ne hw]
        omega
    · rw [if_neg (fun hc => hx hc.1), if_neg (fun hc => hxv hc.1),
        eulerRemove_getD_other adj u x hx hxv]
      omega

theorem EulerInv_eulerRemove (adj : List (List ℕ)) (u : ℕ)
    (hinv : EulerInv adj) (hne : adj.getD u [] ≠ [])
    (hu : u < adj.length) :
    EulerInv (eulerRemove adj u) := by
  obtain ⟨hsym, hloop, hrange⟩ := hinv
  have hvmem : eulerNext adj u ∈ adj.getD u [] := eulerNext_mem adj u hne
  have huv : eulerNext adj u ≠ u := by
    intro hc
    have h2 := hc ▸ hvmem
    exact hloop u h2
  have hcnt := eulerRemove_count adj u hu hne huv (hsym _ u)
  refine ⟨?_, ?_, ?_⟩
  · intro x w
    have h1 := hcnt x w
    have h2 := hcnt w x
    have h3 := hsym x w
    have e1 : (if x = u ∧ w = eulerNext adj u then 1 else 0)
        = (if w = eulerNext adj u ∧ x = u then 1 else 0) := by
      by_cases hc : x = u ∧ w = eulerNext adj u
      · rw [if_pos hc, if_pos ⟨hc.2, hc.1⟩]
      · rw [if_neg hc, if_neg (fun hc2 => hc ⟨hc2.2, hc2.1⟩)]
    have e2 : (if x = eulerNext adj u ∧ w = u then 1 else 0)
        = (if w = u ∧ x = eulerNext adj u then 1 else 0) := by
      by_cases hc : x = eulerNext adj u ∧ w = u
      · rw [if_pos hc, if_pos ⟨hc.2, hc.1⟩]
      · rw [if_neg hc, if_neg (fun hc2 => hc ⟨hc2.2, hc2.1⟩)]
    omega
  · intro x
    by_cases hx : x = u
    · subst hx
      rw [eulerRemove_getD_u adj x hu huv]
      intro hc
      exact hloop x ((List.dropLast_sublist _).subset hc)
    · by_cases hxv : x = eulerNext adj u
      · subst hxv
        rw [eulerRemove_getD_v adj u huv]
        intro hc
        exact hloop _ ((List.erase_sublist _ _).subset hc)
      · rw [eulerRemove_getD_other adj u x hx hxv]
        exact hloop x
  · intro l hl w hw
    rw [eulerRemove_length]
    -- every list of `eulerRemove adj u` is a sublist of a list of `adj`
    unfold eulerRemove at hl
    rcases List.mem_or_eq_of_mem_set hl with hl1 | rfl
    · rcases List.mem_or_eq_of_mem_set hl1 with hl2 | rfl
      · exact hrange l hl2 w hw
      · exact hrange _ (by
          by_cases hu' : u < adj.length
          · rw [List.getD_eq_getElem adj [] hu']
            exact List.getElem_mem hu'
          · exfalso
            rw [List.getD_eq_default _ _ (by omega)] at hne
            exact hne rfl)
          w ((List.dropLast_sublist _).subset hw)
    · -- the erased v-list
      have hw' : w ∈ (adj.set u (adj.getD u []).dropLast).getD
          (eulerNext adj u) [] := (List.erase_sublist _ _).subset hw
      rw [getD_set] at hw'
      by_cases hc : eulerNext adj u = u ∧ u < adj.length
      · rw [if_pos hc] at hw'
        refine hrange (adj.getD u []) (by
          rw [List.getD_eq_getElem adj [] hu]
          exact List.getElem_mem hu) w
          ((List.dropLast_sublist _).subset hw')
      · rw [if_neg hc] at hw'
        by_cases hvlen : eulerNext adj u < adj.length
        · refine hrange _ (by
            rw [List.getD_eq_getElem adj [] hvlen]
            exact List.getElem_mem hvlen) w hw'
        · rw [List.getD_eq_default _ _ (le_of_not_lt hvlen)] at hw'
          cases hw'

theorem degree_eulerRemove_u (adj : List (List ℕ)) (u : ℕ)
    (hne : adj.getD u [] ≠ []) (hu : u < adj.length)
    (huv : eulerNext adj u ≠ u) :
    degree (eulerRemove adj u) u + 1 = degree adj u := by
  unfold degree
  rw [eulerRemove_getD_u adj u hu huv, List.length_dropLast]
  have := List.length_pos.2 hne
  omega

theorem degree_eulerRemove_v (adj : List (List ℕ)) (u : ℕ)
    (huv : eulerNext adj u ≠ u)
    (humem : u ∈ adj.getD (eulerNext adj u) []) :
    degree (eulerRemove adj u) (eulerNext adj u) + 1
      = degree adj (eulerNext adj u) := by
  unfold degree
  rw [eulerRemove_getD_v adj u huv, List.length_erase_of_mem humem]
  have h0 : 0 < (adj.getD (eulerNext adj u) []).length :=
    List.length_pos.2 (fun hc => by rw [hc] at humem; cases humem)
  omega

theorem degree_eulerRemove_other (adj : List (List ℕ)) (u w : ℕ)
    (hwu : w ≠ u) (hwv : w ≠ eulerNext adj u) :
    degree (eulerRemove adj u) w = degree adj w := by
  unfold degree
  rw [eulerRemove_getD_other adj u w hwu hwv]

theorem chainPairs_append_singleton (x : ℕ) :
    ∀ l : List ℕ, l ≠ [] →
      chainPairs (l ++ [x]) = Sym2.mk (l.getLastD 0, x) ::ₘ chainPairs l
  | [], h => absurd rfl h
  | [a], _ => rfl
  | a :: b :: t, _ => by
    have ih := chainPairs_append_singleton x (b :: t) (by simp)
    show Sym2.mk (a, b) ::ₘ chainPairs ((b :: t) ++ [x])
      = Sym2.mk ((a :: b :: t).getLastD 0, x) ::ₘ
          (Sym2.mk (a, b) ::ₘ chainPairs (b :: t))
    rw [ih, getLastD_cons_ne a (b :: t) (by simp)]
    exact Multiset.cons_swap _ _ _

theorem mem_chainPairs : ∀ (l : List ℕ) (e : Sym2 ℕ),
    e ∈ chainPairs l → ∃ a b, e = Sym2.mk (a, b) ∧ a ∈ l ∧ b ∈ l
  | [], e, h => absurd h (Multiset.not_mem_zero e)
  | [_], e, h => absurd h (Multiset.not_mem_zero e)
  | a :: b :: t, e, h => by
    rw [show chainPairs (a :: b :: t)
        = Sym2.mk (a, b) ::ₘ chainPairs (b :: t) from rfl,
      Multiset.mem_cons] at h
    rcases h with rfl | h
    · exact ⟨a, b, rfl, by simp, by simp⟩
    · obtain ⟨a', b', he, ha, hb⟩ := mem_chainPairs (b :: t) e h
      exact ⟨a', b', he, List.mem_cons_of_mem a ha,
        List.mem_cons_of_mem a hb⟩

theorem edgesM_set (adj : List (List ℕ)) (w : ℕ) (l : List ℕ)
    (hw : w < adj.length) :
    edgesM (adj.set w l)
        + ((adj.getD w []).map (fun v => Sym2.mk (w, v)) : List (Sym2 ℕ))
      = edgesM adj + (l.map (fun v => Sym2.mk (w, v)) : List (Sym2 ℕ)) := by
  have h := edgesMFrom_set l adj 0 w hw
  rw [Nat.zero_add] at h
  exact h

theorem edgesM_length_set (adj : List (List ℕ)) (w : ℕ) (l : List ℕ) :
    edgesM (adj.set w l) = edgesMFrom 0 (adj.set w l) := rfl

theorem edgesM_eulerRemove (adj : List (List ℕ)) (u : ℕ)
    (hu : u < adj.length) (hne : adj.getD u [] ≠ [])
    (huv : eulerNext adj u ≠ u)
    (humem : u ∈ adj.getD (eulerNext adj u) [])
    (hvlen : eulerNext adj u < adj.length) :
    edgesM (eulerRemove adj u) + {Sym2.mk (u, eulerNext adj u)}
        + {Sym2.mk (u, eulerNext adj u)}
      = edgesM adj := by
  have hglast : (adj.getD u []).getLastD 0 = eulerNext adj u := rfl
  have hlsplit : (adj.getD u []).dropLast ++ [eulerNext adj u]
      = adj.getD u [] := by
    have hg := List.dropLast_concat_getLast hne
    have hg2 : (adj.getD u []).getLast hne = eulerNext adj u := by
      rw [← hglast, List.getLastD_eq_getLast?,
        List.getLast?_eq_getLast _ hne]
      rfl
    rw [hg2] at hg
    exact hg
  -- step 1: removing the last entry of `adj[u]`
  have h1 := edgesM_set adj u (adj.getD u []).dropLast hu
  have hmap1 : ((adj.getD u []).map (fun v => Sym2.mk (u, v))
        : Multiset (Sym2 ℕ))
      = ((adj.getD u []).dropLast.map (fun v => Sym2.mk (u, v))
          : Multiset (Sym2 ℕ)) + {Sym2.mk (u, eulerNext adj u)} := by
    conv_lhs => rw [← hlsplit]
    rw [List.map_append]
    rfl
  rw [hmap1] at h1
  have h1' : edgesM (adj.set u (adj.getD u []).dropLast)
      + {Sym2.mk (u, eulerNext adj u)} = edgesM adj := by
    have hc : edgesM (adj.set u (adj.getD u []).dropLast)
        + {Sym2.mk (u, eulerNext adj u)}
        + ((adj.getD u []).dropLast.map (fun v => Sym2.mk (u, v))
            : Multiset (Sym2 ℕ))
      = edgesM adj
        + ((adj.getD u []).dropLast.map (fun v => Sym2.mk (u, v))
            : Multiset (Sym2 ℕ)) := by
      calc edgesM (adj.set u (adj.getD u []).dropLast)
          + {Sym2.mk (u, eulerNext adj u)}
          + ((adj.getD u []).dropLast.map (fun v => Sym2.mk (u, v))
              : Multiset (Sym2 ℕ))
          = edgesM (adj.set u (adj.getD u []).dropLast)
            + (((adj.getD u []).dropLast.map (fun v => Sym2.mk (u, v))
                : Multiset (Sym2 ℕ))
              + {Sym2.mk (u, eulerNext adj u)}) := by abel
        _ = edgesM adj
            + ((adj.getD u []).dropLast.map (fun v => Sym2.mk (u, v))
                : Multiset (Sym2 ℕ)) := h1
    exact add_right_cancel hc
  -- step 2: erasing the opposite entry from `adj[v]`
  have hv1 : (adj.set u (adj.getD u []).dropLast).getD
      (eulerNext adj u) [] = adj.getD (eulerNext adj u) [] := by
    rw [getD_set, if_neg (fun hc => huv hc.1)]
  have hv1len : eulerNext adj u
      < (adj.set u (adj.getD u []).dropLast).length := by
    rw [List.length_set]
    exact hvlen
  have h2 := edgesM_set (adj.set u (adj.getD u []).dropLast)
    (eulerNext adj u)
    (((adj.set u (adj.getD u []).dropLast).getD
      (eulerNext adj u) []).erase u) hv1len
  rw [hv1] at h2
  have her : eulerRemove adj u
      = (adj.set u (adj.getD u []).dropLast).set (eulerNext adj u)
          ((adj.getD (eulerNext adj u) []).erase u) := by
    show (adj.set u (adj.getD u []).dropLast).set (eulerNext adj u)
        (((adj.set u (adj.getD u []).dropLast).getD
          (eulerNext adj u) []).erase u) = _
    rw [hv1]
  rw [← her] at h2
  have hswap : Sym2.mk (eulerNext adj u, u) = Sym2.mk (u, eulerNext adj u) :=
    Sym2.eq_swap
  have hinj : Function.Injective
      (fun z => Sym2.mk (eulerNext adj u, z)) :=
    fun x y hxy => Sym2.congr_right.1 hxy
  have hmap2 : (((adj.getD (eulerNext adj u) []).erase u).map
        (fun z => Sym2.mk (eulerNext adj u, z)) : Multiset (Sym2 ℕ))
      + {Sym2.mk (u, eulerNext adj u)}
      = ((adj.getD (eulerNext adj u) []).map
          (fun z => Sym2.mk (eulerNext adj u, z)) : Multiset (Sym2 ℕ)) := by
    rw [List.map_erase hinj]
    have hm : Sym2.mk (eulerNext adj u, u)
        ∈ ((adj.getD (eulerNext adj u) []).map
            (fun z => Sym2.mk (eulerNext adj u, z)) : Multiset (Sym2 ℕ)) := by
      rw [Multiset.mem_coe, List.mem_map]
      exact ⟨u, humem, rfl⟩
    calc (↑(((adj.getD (eulerNext adj u) []).map
            (fun z => Sym2.mk (eulerNext adj u, z))).erase
              (Sym2.mk (eulerNext adj u, u))) : Multiset (Sym2 ℕ))
        + {Sym2.mk (u, eulerNext adj u)}
        = (((adj.getD (eulerNext adj u) []).map
            (fun z => Sym2.mk (eulerNext adj u, z)) : Multiset (Sym2 ℕ)).erase
              (Sym2.mk (eulerNext adj u, u)))
          + {Sym2.mk (eulerNext adj u, u)} := by
          rw [← Multiset.coe_erase, hswap]
      _ = Sym2.mk (eulerNext adj u, u) ::ₘ
          (((adj.getD (eulerNext adj u) []).map
            (fun z => Sym2.mk (eulerNext adj u, z)) : Multiset (Sym2 ℕ)).erase
              (Sym2.mk (eulerNext adj u, u))) := by
          rw [add_comm, Multiset.singleton_add]
      _ = _ := Multiset.cons_erase hm
  have h2' : edgesM (eulerRemove adj u) + {Sym2.mk (u, eulerNext adj u)}
      = edgesM (adj.set u (adj.getD u []).dropLast) := by
    have hc : edgesM (eulerRemove adj u) + {Sym2.mk (u, eulerNext adj u)}
        + (((adj.getD (eulerNext adj u) []).erase u).map
            (fun z => Sym2.mk (eulerNext adj u, z)) : Multiset (Sym2 ℕ))
      = edgesM (adj.set u (adj.getD u []).dropLast)
        + (((adj.getD (eulerNext adj u) []).erase u).map
            (fun z => Sym2.mk (eulerNext adj u, z)) : Multiset (Sym2 ℕ)) := by
      calc edgesM (eulerRemove adj u) + {Sym2.mk (u, eulerNext adj u)}
          + (((adj.getD (eulerNext adj u) []).erase u).map
              (fun z => Sym2.mk (eulerNext adj u, z)) : Multiset (Sym2 ℕ))
          = edgesM (eulerRemove adj u)
            + ((((adj.getD (eulerNext adj u) []).erase u).map
                (fun z => Sym2.mk (eulerNext adj u, z)) : Multiset (Sym2 ℕ))
              + {Sym2.mk (u, eulerNext adj u)}) := by abel
        _ = edgesM (eulerRemove adj u)
            + ((adj.getD (eulerNext adj u) []).map
                (fun z => Sym2.mk (eulerNext adj u, z))
                  : Multiset (Sym2 ℕ)) := by rw [hmap2]
        _ = edgesM (adj.set u (adj.getD u []).dropLast)
            + (((adj.getD (eulerNext adj u) []).erase u).map
                (fun z => Sym2.mk (eulerNext adj u, z))
                  : Multiset (Sym2 ℕ)) := h2
    exact add_right_cancel hc
  rw [h2', h1']

theorem mem_edgesMFrom_iff : ∀ (adj : List (List ℕ)) (k : ℕ) (e : Sym2 ℕ),
    e ∈ edgesMFrom k adj
      ↔ ∃ i z, i < adj.length ∧ z ∈ adj.getD i [] ∧ e = Sym2.mk (k + i, z)
  | [], k, e => by
    constructor
    · intro h
      exact absurd h (Multiset.not_mem_zero e)
    · rintro ⟨i, z, hi, -, -⟩
      simp at hi
  | a :: t, k, e => by
    rw [show edgesMFrom k (a :: t)
        = ((a.map (fun v => Sym2.mk (k, v)) : List (Sym2 ℕ))
            : Multiset (Sym2 ℕ)) + edgesMFrom (k + 1) t from rfl,
      Multiset.mem_add]
    constructor
    · rintro (h | h)
      · rw [Multiset.mem_coe, List.mem_map] at h
        obtain ⟨z, hz, rfl⟩ := h
        exact ⟨0, z, by simp, by simpa using hz, by rw [Nat.add_zero]⟩
      · obtain ⟨i, z, hi, hz, rfl⟩ := (mem_edgesMFrom_iff t (k + 1) e).1 h
        refine ⟨i + 1, z, by simpa using hi, by simpa using hz, ?_⟩
        rw [show k + (i + 1) = k + 1 + i by omega]
    · rintro ⟨i, z, hi, hz, rfl⟩
      cases i with
      | zero =>
        left
        rw [Multiset.mem_coe, List.mem_map]
        exact ⟨z, by simpa using hz, by rw [Nat.add_zero]⟩
      | succ i =>
        right
        refine (mem_edgesMFrom_iff t (k + 1) _).2
          ⟨i, z, by simpa using hi, by simpa using hz, ?_⟩
        rw [show k + (i + 1) = k + 1 + i by omega]

theorem mem_edgesM_iff (adj : List (List ℕ)) (e : Sym2 ℕ) :
    e ∈ edgesM adj
      ↔ ∃ i z, i < adj.length ∧ z ∈ adj.getD i [] ∧ e = Sym2.mk (i, z) := by
  rw [edgesM, mem_edgesMFrom_iff]
  constructor
  · rintro ⟨i, z, hi, hz, rfl⟩
    exact ⟨i, z, hi, hz, by rw [Nat.zero_add]⟩
  · rintro ⟨i, z, hi, hz, rfl⟩
    exact ⟨i, z, hi, hz, by rw [Nat.zero_add]⟩

theorem edgesM_eq_zero (adj : List (List ℕ))
    (h : ∀ i, i < adj.length → adj.getD i [] = []) : edgesM adj = 0 := by
  rw [Multiset.eq_zero_iff_forall_not_mem]
  intro e he
  obtain ⟨i, z, hi, hz, -⟩ := (mem_edgesM_iff adj e).1 he
  rw [h i hi] at hz
  cases hz

theorem eulerAuxG_main : ∀ (adj : List (List ℕ)) (u : ℕ) (rest : List ℕ)
    (e : ℕ),
    EulerInv adj →
    (∀ w ∈ u :: rest, w < adj.length) →
    ((e = u ∧ ∀ v, degree adj v % 2 = 0) ∨
      (e ∈ rest ∧ e ≠ u ∧
        (∀ v, degree adj v % 2 = 1 ↔ (v = u ∨ v = e)))) →
    (eulerAuxG adj (u :: rest)).1 ≠ [] ∧
    (eulerAuxG adj (u :: rest)).1.headI = (u :: rest).getLastD 0 ∧
    (eulerAuxG adj (u :: rest)).1.getLast? = some e ∧
    (edgesM adj + chainPairs (u :: rest) + chainPairs (u :: rest)
      = edgesM (eulerAuxG adj (u :: rest)).2
        + chainPairs (eulerAuxG adj (u :: rest)).1
        + chainPairs (eulerAuxG adj (u :: rest)).1) ∧
    (∀ v ∈ (eulerAuxG adj (u :: rest)).1,
      ((eulerAuxG adj (u :: rest)).2).getD v [] = []) ∧
    EulerInv (eulerAuxG adj (u :: rest)).2 ∧
    (eulerAuxG adj (u :: rest)).2.length = adj.length ∧
    (∀ x ∈ (eulerAuxG adj (u :: rest)).1, x < adj.length) ∧
    (∀ x ∈ u :: rest, x ∈ (eulerAuxG adj (u :: rest)).1) ∧
    (∀ v, (((eulerAuxG adj (u :: rest)).2).getD v []).Sublist
      (adj.getD v [])) := by
  intro adj u rest e hinv hrange hpar
  by_cases hne : adj.getD u [] = []
  · -- backtrack: pop `u`
    have hdegu : degree adj u = 0 := by
      unfold degree
      rw [hne]
      rfl
    have hpar' : e = u ∧ ∀ v, degree adj v % 2 = 0 := by
      rcases hpar with h | ⟨hmem, hne', hodd⟩
      · exact h
      · exfalso
        have h1 := (hodd u).2 (Or.inl rfl)
        rw [hdegu] at h1
        cases h1
    obtain ⟨he, heven⟩ := hpar'
    rw [eulerAuxG_pop adj u rest hne]
    cases rest with
    | nil =>
      rw [eulerAuxG_nil]
      refine ⟨by simp, rfl, by rw [he]; rfl, rfl, ?_, hinv, rfl, ?_, ?_, ?_⟩
      · intro v hv
        have hv' : v = u := by simpa using hv
        rw [hv']
        exact hne
      · intro x hx
        have hx' : x = u := by simpa using hx
        rw [hx']
        exact hrange u (List.mem_cons_self u [])
      · intro x hx
        exact hx
      · intro v
        exact List.Sublist.refl _
    | cons w rest' =>
      have hrec := eulerAuxG_main adj w rest' w hinv
        (fun x hx => hrange x (List.mem_cons_of_mem u hx))
        (Or.inl ⟨rfl, heven⟩)
      obtain ⟨r1ne, r1head, r1last, r1edges, r1empty, r1inv, r1len,
        r1range, r1mem, r1sub⟩ := hrec
      have hRlast : (eulerAuxG adj (w :: rest')).1.getLastD 0 = w := by
        rw [List.getLastD_eq_getLast?, r1last]
        rfl
      refine ⟨by simp, ?_, ?_, ?_, ?_, r1inv, r1len, ?_, ?_, r1sub⟩
      · show ((eulerAuxG adj (w :: rest')).1 ++ [u]).headI
          = (u :: w :: rest').getLastD 0
        rw [headI_append _ _ r1ne, r1head,
          getLastD_cons_ne u (w :: rest') (by simp)]
      · show ((eulerAuxG adj (w :: rest')).1 ++ [u]).getLast? = some e
        rw [he]
        exact List.getLast?_concat _
      · show edgesM adj + chainPairs (u :: w :: rest')
            + chainPairs (u :: w :: rest')
          = edgesM (eulerAuxG adj (w :: rest')).2
            + chainPairs ((eulerAuxG adj (w :: rest')).1 ++ [u])
            + chainPairs ((eulerAuxG adj (w :: rest')).1 ++ [u])
        have hc1 : chainPairs (u :: w :: rest')
            = {Sym2.mk (u, w)} + chainPairs (w :: rest') := by
          rw [Multiset.singleton_add]
          rfl
        have hc2 : chainPairs ((eulerAuxG adj (w :: rest')).1 ++ [u])
            = {Sym2.mk (u, w)} + chainPairs (eulerAuxG adj (w :: rest')).1
            := by
          rw [Multiset.singleton_add,
            chainPairs_append_singleton u _ r1ne, hRlast]
          rw [show Sym2.mk (w, u) = Sym2.mk (u, w) from Sym2.eq_swap]
        rw [hc1, hc2]
        calc edgesM adj
            + ({Sym2.mk (u, w)} + chainPairs (w :: rest'))
            + ({Sym2.mk (u, w)} + chainPairs (w :: rest'))
            = edgesM adj + chainPairs (w :: rest')
              + chainPairs (w :: rest')
              + ({Sym2.mk (u, w)} + {Sym2.mk (u, w)}) := by abel
          _ = edgesM (eulerAuxG adj (w :: rest')).2
              + chainPairs (eulerAuxG adj (w :: rest')).1
              + chainPairs (eulerAuxG adj (w :: rest')).1
              + ({Sym2.mk (u, w)} + {Sym2.mk (u, w)}) := by rw [r1edges]
          _ = _ := by abel
      · intro v hv
        rcases List.mem_append.1 hv with hv1 | hv1
        · exact r1empty v hv1
        · have hv' : v = u := by simpa using hv1
          rw [hv']
          have hsub := r1sub u
          rw [hne] at hsub
          exact List.sublist_nil.1 hsub
      · intro x hx
        rcases List.mem_append.1 hx with hx1 | hx1
        · exact r1range x hx1
        · have hx' : x = u := by simpa using hx1
          rw [hx']
          exact hrange u (List.mem_cons_self u _)
      · intro x hx
        rcases List.mem_cons.1 hx with rfl | hx1
        · exact List.mem_append.2 (Or.inr (by simp))
        · exact List.mem_append.2 (Or.inl (r1mem x hx1))
  · -- explore: take the edge `u – eulerNext adj u`
    obtain ⟨hsym, hloop, hrangeE⟩ := hinv
    have hu : u < adj.length := hrange u (List.mem_cons_self u _)
    have hvmem : eulerNext adj u ∈ adj.getD u [] := eulerNext_mem adj u hne
    have huv : eulerNext adj u ≠ u := by
      intro hc
      have h2 := hc ▸ hvmem
      exact hloop u h2
    have hvlen : eulerNext adj u < adj.length := by
      refine hrangeE (adj.getD u []) ?_ _ hvmem
      rw [List.getD_eq_getElem adj [] hu]
      exact List.getElem_mem hu
    have humem : u ∈ adj.getD (eulerNext adj u) [] := by
      rw [← List.count_pos_iff, hsym _ u, List.count_pos_iff]
      exact hvmem
    have hinv2 : EulerInv (eulerRemove adj u) :=
      EulerInv_eulerRemove adj u ⟨hsym, hloop, hrangeE⟩ hne hu
    have hrange2 : ∀ w ∈ eulerNext adj u :: u :: rest,
        w < (eulerRemove adj u).length := by
      intro w hw
      rw [eulerRemove_length]
      rcases List.mem_cons.1 hw with rfl | hw1
      · exact hvlen
      · exact hrange w hw1
    have hdu := degree_eulerRemove_u adj u hne hu huv
    have hdv := degree_eulerRemove_v adj u huv humem
    have hdo := degree_eulerRemove_other adj u
    have hedges := edgesM_eulerRemove adj u hu hne huv humem hvlen
    rw [eulerAuxG_push adj u rest hne]
    have hchain : chainPairs (eulerNext adj u :: u :: rest)
        = {Sym2.mk (u, eulerNext adj u)} + chainPairs (u :: rest) := by
      rw [Multiset.singleton_add,
        show Sym2.mk (u, eulerNext adj u)
          = Sym2.mk (eulerNext adj u, u) from Sym2.eq_swap]
      rfl
    have hmain : ∀ e' : ℕ,
        ((e' = eulerNext adj u ∧
            ∀ v, degree (eulerRemove adj u) v % 2 = 0) ∨
          (e' ∈ u :: rest ∧ e' ≠ eulerNext adj u ∧
            (∀ v, degree (eulerRemove adj u) v % 2 = 1
              ↔ (v = eulerNext adj u ∨ v = e')))) →
        (eulerAuxG (eulerRemove adj u) (eulerNext adj u :: u :: rest)).1
            ≠ [] ∧
        (eulerAuxG (eulerRemove adj u)
            (eulerNext adj u :: u :: rest)).1.headI
          = (u :: rest).getLastD 0 ∧
        (eulerAuxG (eulerRemove adj u)
            (eulerNext adj u :: u :: rest)).1.getLast? = some e' ∧
        (edgesM adj + chainPairs (u :: rest) + chainPairs (u :: rest)
          = edgesM (eulerAuxG (eulerRemove adj u)
                (eulerNext adj u :: u :: rest)).2
            + chainPairs (eulerAuxG (eulerRemove adj u)
                (eulerNext adj u :: u :: rest)).1
            + chainPairs (eulerAuxG (eulerRemove adj u)
                (eulerNext adj u :: u :: rest)).1) ∧
        (∀ v ∈ (eulerAuxG (eulerRemove adj u)
            (eulerNext adj u :: u :: rest)).1,
          ((eulerAuxG (eulerRemove adj u)
              (eulerNext adj u :: u :: rest)).2).getD v [] = []) ∧
        EulerInv (eulerAuxG (eulerRemove adj u)
            (eulerNext adj u :: u :: rest)).2 ∧
        (eulerAuxG (eulerRemove adj u)
            (eulerNext adj u :: u :: rest)).2.length = adj.length ∧
        (∀ x ∈ (eulerAuxG (eulerRemove adj u)
            (eulerNext adj u :: u :: rest)).1, x < adj.length) ∧
        (∀ x ∈ u :: rest, x ∈ (eulerAuxG (eulerRemove adj u)
            (eulerNext adj u :: u :: rest)).1) ∧
        (∀ v, (((eulerAuxG (eulerRemove adj u)
              (eulerNext adj u :: u :: rest)).2).getD v []).Sublist
          (adj.getD v [])) := by
      intro e' hpar2
      have hrec := eulerAuxG_main (eulerRemove adj u) (eulerNext adj u)
        (u :: rest) e' hinv2 hrange2 hpar2
      obtain ⟨r1ne, r1head, r1last, r1edges, r1empty, r1inv, r1len,
        r1range, r1mem, r1sub⟩ := hrec
      refine ⟨r1ne, ?_, r1last, ?_, r1empty, r1inv, ?_, ?_, ?_, ?_⟩
      · rw [r1head, getLastD_cons_ne _ (u :: rest) (by simp)]
      · calc edgesM adj + chainPairs (u :: rest) + chainPairs (u :: rest)
            = edgesM (eulerRemove adj u)
                + {Sym2.mk (u, eulerNext adj u)}
                + {Sym2.mk (u, eulerNext adj u)}
                + chainPairs (u :: rest) + chainPairs (u :: rest) := by
              rw [hedges]
          _ = edgesM (eulerRemove adj u)
              + ({Sym2.mk (u, eulerNext adj u)} + chainPairs (u :: rest))
              + ({Sym2.mk (u, eulerNext adj u)} + chainPairs (u :: rest))
              := by abel
          _ = edgesM (eulerRemove adj u)
              + chainPairs (eulerNext adj u :: u :: rest)
              + chainPairs (eulerNext adj u :: u :: rest) := by
              rw [hchain]
          _ = _ := r1edges
      · rw [r1len, eulerRemove_length]
      · intro x hx
        have := r1range x hx
        rw [eulerRemove_length] at this
        exact this
      · intro x hx
        exact r1mem x (List.mem_cons_of_mem _ hx)
      · intro w
        refine (r1sub w).trans ?_
        by_cases hwu : w = u
        · rw [hwu, eulerRemove_getD_u adj u hu huv]
          exact List.dropLast_sublist _
        · by_cases hwv : w = eulerNext adj u
          · rw [hwv, eulerRemove_getD_v adj u huv]
            exact List.erase_sublist _ _
          · rw [eulerRemove_getD_other adj u w hwu hwv]
    rcases hpar with ⟨he, heven⟩ | ⟨hmem, hneq, hodd⟩
    · -- all degrees even: the open trail now runs from `u` to the top
      refine hmain e (Or.inr ⟨by rw [he]; exact List.mem_cons_self u rest,
        fun hc => huv (hc.symm.trans he), ?_⟩)
      intro w
      by_cases hwv : w = eulerNext adj u
      · have h2 := hdv
        have h3 := heven (eulerNext adj u)
        rw [hwv]
        constructor
        · intro hw
          exact Or.inl rfl
        · intro hw
          omega
      · by_cases hwu : w = u
        · have h2 := hdu
          have h3 := heven u
          rw [hwu]
          constructor
          · intro hw
            exact Or.inr he.symm
          · intro hw
            omega
        · rw [hdo w hwu hwv]
          have h3 := heven w
          constructor
          · intro hc
            omega
          · intro hc
            rcases hc with hc1 | hc1
            · exact absurd hc1 hwv
            · exact absurd (hc1.trans he) hwu
    · -- odd degrees exactly at `u` and `e`
      by_cases hve : eulerNext adj u = e
      · -- the taken edge closes the open trail: all degrees become even
        refine hmain e (Or.inl ⟨hve.symm, ?_⟩)
        intro w
        by_cases hwu : w = u
        · have h1 := (hodd u).2 (Or.inl rfl)
          have h2 := hdu
          rw [hwu]
          omega
        · by_cases hwv : w = eulerNext adj u
          · have h1 := (hodd e).2 (Or.inr rfl)
            have h2 := hdv
            rw [hve] at h2
            rw [hwv, hve]
            omega
          · rw [hdo w hwu hwv]
            have h1 : ¬ degree adj w % 2 = 1 := by
              intro hc
              rcases (hodd w).1 hc with hc1 | hc1
              · exact hwu hc1
              · exact hwv (hc1.trans hve.symm)
            omega
      · -- the open trail now runs from `e` to the new top
        refine hmain e (Or.inr ⟨List.mem_cons_of_mem u hmem,
          fun hc => hve hc.symm, ?_⟩)
        intro w
        by_cases hwv : w = eulerNext adj u
        · have h2 := hdv
          have h1 : ¬ degree adj (eulerNext adj u) % 2 = 1 := by
            intro hc
            rcases (hodd _).1 hc with hc1 | hc1
            · exact huv hc1
            · exact hve hc1
          rw [hwv]
          constructor
          · intro hw
            exact Or.inl rfl
          · intro hw
            omega
        · by_cases hwu : w = u
          · have h2 := hdu
            have h1 := (hodd u).2 (Or.inl rfl)
            rw [hwu]
            constructor
            · intro hc
              omega
            · intro hc
              rcases hc with hc1 | hc1
              · exact absurd hc1.symm huv
              · exact absurd hc1.symm hneq
          · rw [hdo w hwu hwv, hodd w]
            constructor
            · intro hc
              rcases hc with hc1 | hc1
              · exact absurd hc1 hwu
              · exact Or.inr hc1
            · intro hc
              rcases hc with hc1 | hc1
              · exact absurd hc1 hwv
              · exact Or.inr hc1
termination_by adj u rest => 2 * totalLen adj + rest.length
decreasing_by
  · rename_i hrw
    rw [hrw]
    simp only [List.length_cons]
    omega
  · have := totalLen_eulerRemove_lt adj u hne
    simp only [List.length_cons]
    omega

theorem card_chainPairs : ∀ (l : List ℕ), l ≠ [] →
    Multiset.card (chainPairs l) + 1 = l.length
  | [], h => absurd rfl h
  | [_], _ => rfl
  | a :: b :: t, _ => by
    rw [show chainPairs (a :: b :: t)
        = Sym2.mk (a, b) ::ₘ chainPairs (b :: t) from rfl,
      Multiset.card_cons]
    have := card_chainPairs (b :: t) (by simp)
    simp only [List.length_cons] at this ⊢
    omega

theorem card_edgesMFrom : ∀ (k : ℕ) (adj : List (List ℕ)),
    Multiset.card (edgesMFrom k adj) = totalLen adj
  | _, [] => rfl
  | k, l :: rest => by
    rw [show edgesMFrom k (l :: rest)
        = ((l.map (fun v => Sym2.mk (k, v)) : List (Sym2 ℕ))
            : Multiset (Sym2 ℕ)) + edgesMFrom (k + 1) rest from rfl,
      Multiset.card_add, card_edgesMFrom (k + 1) rest]
    show (l.map (fun v => Sym2.mk (k, v))).length + totalLen rest
      = totalLen (l :: rest)
    rw [List.length_map]
    show l.length + totalLen rest = ((l :: rest).map List.length).sum
    rw [List.map_cons, List.sum_cons]
    rfl

/-- Coverage of Hierholzer's algorithm on a symmetric, loopless, in-range
adjacency structure with all degrees even, every stored edge reachable
from vertex `0`: the circuit starts and ends at `0`, its consecutive
pairs cover the stored edge multiset exactly (each undirected edge is
stored twice, once per endpoint), and its length is the edge count plus
one. -/
theorem eulerCore (adj : List (List ℕ))
    (hinv : EulerInv adj)
    (heven : ∀ v, degree adj v % 2 = 0)
    (hconn : ∀ a b, b ∈ adj.getD a [] →
      Relation.ReflTransGen (fun x y => y ∈ adj.getD x []) 0 a)
    (hlen : 0 < adj.length) :
    (eulerianTourHierholzer 0 adj).headI = 0 ∧
    (eulerianTourHierholzer 0 adj).getLast? = some 0 ∧
    chainPairs (eulerianTourHierholzer 0 adj)
      + chainPairs (eulerianTourHierholzer 0 adj) = edgesM adj ∧
    2 * (eulerianTourHierholzer 0 adj).length = totalLen adj + 2 := by
  have hrange : ∀ w ∈ [0], w < adj.length := by
    intro w hw
    have hw' : w = 0 := by simpa using hw
    rw [hw']
    exact hlen
  obtain ⟨rne, rhead, rlast, redges, rempty, rinv, rlen, rrange, rmem, rsub⟩
    := eulerAuxG_main adj 0 [] 0 hinv hrange (Or.inl ⟨rfl, heven⟩)
  rw [eulerianTourHierholzer_eq]
  have redges' : edgesM adj
      = edgesM (eulerAuxG adj [0]).2 + chainPairs (eulerAuxG adj [0]).1
        + chainPairs (eulerAuxG adj [0]).1 := by
    have h0 : chainPairs [0] = 0 := rfl
    rw [h0, add_zero, add_zero] at redges
    exact redges
  have hclosed : ∀ v ∈ (eulerAuxG adj [0]).1, ∀ w ∈ adj.getD v [],
      w ∈ (eulerAuxG adj [0]).1 := by
    intro v hv w hw
    have hvlen : v < adj.length := rrange v hv
    have hchcase : Sym2.mk (v, w) ∈ chainPairs (eulerAuxG adj [0]).1
        → w ∈ (eulerAuxG adj [0]).1 := by
      intro hmem2
      obtain ⟨a, b, hab, ha, hb⟩ := mem_chainPairs _ _ hmem2
      rcases Sym2.eq_iff.1 hab with ⟨hva, hwb⟩ | ⟨hvb, hwa⟩
      · rw [hwb]
        exact hb
      · rw [hwa]
        exact ha
    have hefcase : Sym2.mk (v, w) ∈ edgesM (eulerAuxG adj [0]).2 → False
        := by
      intro hmem2
      obtain ⟨i, z, hi, hz, hez⟩ := (mem_edgesM_iff _ _).1 hmem2
      rcases Sym2.eq_iff.1 hez with ⟨hvi, hwz⟩ | ⟨hvz, hwi⟩
      · rw [← hvi, rempty v hv] at hz
        cases hz
      · obtain ⟨rsym, -, -⟩ := rinv
        rw [← hwi] at hz
        rw [← hvz] at hz
        have hc : ((eulerAuxG adj [0]).2.getD w []).count v
            = ((eulerAuxG adj [0]).2.getD v []).count w := rsym w v
        rw [rempty v hv] at hc
        have hpos : 0 < ((eulerAuxG adj [0]).2.getD w []).count v :=
          List.count_pos_iff.2 hz
        rw [hc] at hpos
        simp at hpos
    have hmem : Sym2.mk (v, w) ∈ edgesM adj :=
      (mem_edgesM_iff adj _).2 ⟨v, w, hvlen, hw, rfl⟩
    rw [redges'] at hmem
    rcases Multiset.mem_add.1 hmem with hmem1 | hmem1
    · rcases Multiset.mem_add.1 hmem1 with hmem2 | hmem2
      · exact absurd hmem2 hefcase
      · exact hchcase hmem2
    · exact hchcase hmem1
  have hreach : ∀ v,
      Relation.ReflTransGen (fun x y => y ∈ adj.getD x []) 0 v
      → v ∈ (eulerAuxG adj [0]).1 := by
    intro v hv
    induction hv with
    | refl => exact rmem 0 (by simp)
    | tail hab hstep ih => exact hclosed _ ih _ hstep
  have hzero : edgesM (eulerAuxG adj [0]).2 = 0 := by
    apply edgesM_eq_zero
    intro i hi
    by_cases hc : (eulerAuxG adj [0]).2.getD i [] = []
    · exact hc
    · exfalso
      obtain ⟨w, hw⟩ := List.exists_mem_of_ne_nil _ hc
      have hw' : w ∈ adj.getD i [] := (rsub i).subset hw
      have hir := hreach i (hconn i w hw')
      exact hc (rempty i hir)
  have hEqE : chainPairs (eulerAuxG adj [0]).1
      + chainPairs (eulerAuxG adj [0]).1 = edgesM adj := by
    rw [redges', hzero, zero_add]
  refine ⟨by rw [rhead]; rfl, rlast, hEqE, ?_⟩
  have h1 := card_chainPairs (eulerAuxG adj [0]).1 rne
  have h2 : Multiset.card (edgesM adj) = totalLen adj :=
    card_edgesMFrom 0 adj
  have h3 := congrArg Multiset.card hEqE
  rw [Multiset.card_add, h2] at h3
  omega

theorem getD_eq_nil_of_le (adj : List (List ℕ)) (i : ℕ)
    (h : adj.length ≤ i) : adj.getD i [] = [] := by
  rw [List.getD_eq_getElem?_getD, List.getElem?_eq_none h]
  rfl

theorem getD_mem_self (adj : List (List ℕ)) (i : ℕ) (h : i < adj.length) :
    adj.getD i [] ∈ adj := by
  rw [List.getD_eq_getElem adj [] h]
  exact List.getElem_mem h

/-- The bounded forms of symmetry and looplessness (which are decidable
on a concrete adjacency structure) imply the unbounded invariant: out of
range, every adjacency list reads as `[]`. -/
theorem EulerInv_of_bounded (adj : List (List ℕ))
    (hsymB : ∀ u < adj.length, ∀ v < adj.length,
      (adj.getD u []).count v = (adj.getD v []).count u)
    (hloopB : ∀ u < adj.length, u ∉ adj.getD u [])
    (hrangeB : ∀ l ∈ adj, ∀ w ∈ l, w < adj.length) : EulerInv adj := by
  refine ⟨?_, ?_, hrangeB⟩
  · intro u v
    by_cases hu : u < adj.length
    · by_cases hv : v < adj.length
      · exact hsymB u hu v hv
      · rw [getD_eq_nil_of_le adj v (by omega), List.count_nil,
          List.count_eq_zero]
        intro hc
        exact absurd (hrangeB _ (getD_mem_self adj u hu) v hc) (by omega)
    · rw [getD_eq_nil_of_le adj u (by omega), List.count_nil]
      by_cases hv : v < adj.length
      · symm
        rw [List.count_eq_zero]
        intro hc
        exact absurd (hrangeB _ (getD_mem_self adj v hv) u hc) (by omega)
      · rw [getD_eq_nil_of_le adj v (by omega), List.count_nil]
  · intro u
    by_cases hu : u < adj.length
    · exact hloopB u hu
    · rw [getD_eq_nil_of_le adj u (by omega)]
      exact List.not_mem_nil u

theorem totalLen_foldl_addEdge (pairs : List (ℕ × ℕ)) :
    ∀ adj : List (List ℕ),
      (∀ p ∈ pairs, p.1 < adj.length ∧ p.2 < adj.length) →
      totalLen (pairs.foldl (fun a p => addEdge a p.1 p.2) adj)
        = totalLen adj + 2 * pairs.length := by
  induction pairs with
  | nil =>
    intro adj _
    simp
  | cons p t ih =>
    intro adj h
    rw [List.foldl_cons, ih (addEdge adj p.1 p.2) ?_]
    · rw [totalLen_addEdge adj p.1 p.2 (h p (by simp)).1 (h p (by simp)).2]
      simp only [List.length_cons]
      omega
    · intro q hq
      rw [length_addEdge]
      exact h q (List.mem_cons_of_mem p hq)

theorem buildAdjFromParent_totalLen (parent : ℕ → ℤ) (n : ℕ)
    (h : ∀ v, 1 ≤ v → v < n → (parent v).toNat < n) :
    totalLen (buildAdjFromParent parent n) = 2 * (n - 1) := by
  unfold buildAdjFromParent
  rw [show (List.range (n - 1)).foldl
        (fun adj i => addEdge adj (i + 1) (parent (i + 1)).toNat)
        (List.replicate n [])
      = ((List.range (n - 1)).map
          (fun i => (i + 1, (parent (i + 1)).toNat))).foldl
        (fun a p => addEdge a p.1 p.2) (List.replicate n [])
    from by rw [List.foldl_map]]
  have hside : ∀ p ∈ (List.range (n - 1)).map
      (fun i => (i + 1, (parent (i + 1)).toNat)),
      p.1 < (List.replicate n ([] : List ℕ)).length
        ∧ p.2 < (List.replicate n ([] : List ℕ)).length := by
    intro p hp
    obtain ⟨i, hi, hpi⟩ := List.mem_map.1 hp
    have hi' : i < n - 1 := List.mem_range.1 hi
    rw [← hpi]
    rw [List.length_replicate]
    exact ⟨by omega, h (i + 1) (by omega) (by omega)⟩
  rw [totalLen_foldl_addEdge _ _ hside]
  have hz : totalLen (List.replicate n ([] : List ℕ)) = 0 := by
    unfold totalLen
    simp
  rw [hz, List.length_map, List.length_range]
  omega

/-! ### Structural facts about the Prim parent vector -/

theorem scan_stay (key : ℕ → WithTop α) (inMST : ℕ → Bool) :
    ∀ (l : List ℕ) (acc : WithTop α × ℤ),
      (∀ v ∈ l, ¬ key v < acc.1) →
      l.foldl (scanStep key inMST) acc = acc
  | [], _, _ => rfl
  | a :: t, acc, h => by
    rw [List.foldl_cons]
    have hna : ¬ (inMST a = false ∧ key a < acc.1) :=
      fun hc => h a (List.mem_cons_self a t) hc.2
    rw [show scanStep key inMST acc a = acc from by
      unfold scanStep
      rw [if_neg hna]]
    exact scan_stay key inMST t acc
      (fun v hv => h v (List.mem_cons_of_mem a hv))

/-- In the first iteration the scan selects vertex `0`: it is the only
vertex with a finite key. -/
theorem minKeyScan_init (n : ℕ) (hn : 1 ≤ n) :
    minKeyScan n (primInit α).key (primInit α).inMST = 0 := by
  unfold minKeyScan
  obtain ⟨m, rfl⟩ : ∃ m, n = m + 1 := ⟨n - 1, by omega⟩
  rw [List.range_eq_range']
  rw [show List.range' 0 (m + 1) = 0 :: List.range' 1 m from rfl]
  rw [List.foldl_cons]
  have hkey0 : (primInit α).key 0 = ((0 : α) : WithTop α) := by
    show (if (0 : ℕ) = 0 then (0 : WithTop α) else ⊤) = ((0 : α) : WithTop α)
    rw [if_pos rfl]
    exact (WithTop.coe_zero).symm
  have hstep0 : scanStep (primInit α).key (primInit α).inMST (⊤, -1) 0
      = ((primInit α).key 0, ((0 : ℕ) : ℤ)) := by
    unfold scanStep
    rw [if_pos ⟨rfl, by rw [hkey0]; exact WithTop.coe_lt_top _⟩]
  rw [hstep0]
  rw [scan_stay (primInit α).key (primInit α).inMST (List.range' 1 m)
    ((primInit α).key 0, ((0 : ℕ) : ℤ)) ?_]
  · rfl
  intro v hv
  have hv1 : 1 ≤ v := ((mem_range'_iff 1 m v).1 hv).1
  show ¬ (primInit α).key v < (primInit α).key 0
  have h1 : (primInit α).key v = ⊤ := by
    show (if v = 0 then (0 : WithTop α) else ⊤) = ⊤
    rw [if_neg (by omega : ¬ v = 0)]
  rw [h1]
  exact not_top_lt

theorem countP_update_mono (g : ℕ → Bool) (uN : ℕ) :
    ∀ l : List ℕ,
      l.countP g ≤ l.countP (fun v => if v = uN then true else g v)
  | [] => le_refl _
  | a :: t => by
    rw [List.countP_cons, List.countP_cons]
    have ht := countP_update_mono g uN t
    by_cases ha : a = uN
    · have h4 : (if (if a = uN then true else g a) = true then 1 else 0)
          = 1 := by
        rw [if_pos ha]
        decide
      rw [h4]
      by_cases hga : g a = true
      · rw [if_pos hga]
        omega
      · rw [if_neg hga]
        omega
    · rw [if_neg ha]
      omega

theorem countP_update_ge (g : ℕ → Bool) (uN : ℕ) :
    ∀ l : List ℕ, uN ∈ l → g uN = false →
      l.countP g + 1 ≤ l.countP (fun v => if v = uN then true else g v)
  | [], hmem, _ => absurd hmem (List.not_mem_nil uN)
  | a :: t, hmem, hg => by
    rw [List.countP_cons, List.countP_cons]
    by_cases ha : a = uN
    · have h2 : g a = false := by rw [ha]; exact hg
      have h3 := countP_update_mono g uN t
      have h4 : (if (if a = uN then true else g a) = true then 1 else 0)
          = 1 := by
        rw [if_pos ha]
        decide
      have h5 : (if g a = true then 1 else 0) = 0 := by
        rw [h2]
        rfl
      rw [h4, h5]
      omega
    · have hmt : uN ∈ t := by
        rcases List.mem_cons.1 hmem with h | h
        · exact absurd h.symm ha
        · exact h
      have := countP_update_ge g uN t hmt hg
      rw [if_neg ha]
      omega

theorem primAux_count_ge (d : ℕ → ℕ → α) (n : ℕ) (hn : 1 ≤ n) :
    ∀ k, k ≤ n → k ≤ countInMST (primAux d n k) n
  | 0, _ => Nat.zero_le _
  | k + 1, hk => by
    have ih := primAux_count_ge d n hn k (by omega)
    have hscan := primAux_scan_nonneg d n hn k (by omega)
    obtain ⟨uN, hlt, heq, hnot⟩ := minKeyScan_mem n _ _ hscan
    have hstep := primStep_of_nonneg d n (primAux d n k) hscan
    have huN : (minKeyScan n (primAux d n k).key
        (primAux d n k).inMST).toNat = uN := by
      rw [heq]
      exact Int.toNat_natCast uN
    show k + 1 ≤ countInMST (primStep d n (primAux d n k)) n
    rw [hstep, huN]
    unfold countInMST primUpdate
    simp only []
    have hge := countP_update_ge (fun v => (primAux d n k).inMST v) uN
      (List.range n) (List.mem_range.2 hlt) hnot
    have hge' : (List.range n).countP (fun v => (primAux d n k).inMST v) + 1
        ≤ (List.range n).countP (fun v => if v = uN then true
            else (primAux d n k).inMST v) := hge
    unfold countInMST at ih
    omega

theorem primAux_all_inMST (d : ℕ → ℕ → α) (n : ℕ) (hn : 1 ≤ n)
    (v : ℕ) (hv : v < n) : (primAux d n n).inMST v = true := by
  have h1 := primAux_count_ge d n hn n (le_refl n)
  have h2 := (primAux_inv d n hn n).1
  have heq : countInMST (primAux d n n) n = n := le_antisymm h2 h1
  unfold countInMST at heq
  have hall : ∀ a ∈ List.range n, (primAux d n n).inMST a = true :=
    List.countP_eq_length.1 (by rw [heq, List.length_range])
  exact hall v (List.mem_range.2 hv)

/-- The structural invariant of the Prim state after `k ≥ 1` iterations:
vertex `0` is included; the parent of every vertex other than `0`
(included or not) is a nonnegative in-range index different from the
vertex itself and already included; and ranks strictly decrease along
parent links of included vertices, so parent chains cannot cycle. -/
theorem primAux_parent_inv (d : ℕ → ℕ → α) (n : ℕ) (hn : 1 ≤ n) :
    ∀ k, 1 ≤ k → k ≤ n →
    ∃ r : ℕ → ℕ,
      (primAux d n k).inMST 0 = true ∧
      (∀ v, v < n → (primAux d n k).inMST v = true →
        r v < countInMST (primAux d n k) n ∧
        (v = 0 ∨ (0 ≤ (primAux d n k).parent v
          ∧ ((primAux d n k).parent v).toNat < n
          ∧ ((primAux d n k).parent v).toNat ≠ v
          ∧ (primAux d n k).inMST ((primAux d n k).parent v).toNat = true
          ∧ r (((primAux d n k).parent v).toNat) < r v))) ∧
      (∀ v, v < n → (primAux d n k).inMST v = false →
        0 ≤ (primAux d n k).parent v
          ∧ ((primAux d n k).parent v).toNat < n
          ∧ ((primAux d n k).parent v).toNat ≠ v
          ∧ (primAux d n k).inMST ((primAux d n k).parent v).toNat
              = true)
  | 0, h1, _ => absurd h1 (by omega)
  | 1, _, h2 => by
    have hstep : primAux d n 1 = primUpdate d n 0
        { primInit α with inMST := fun v => if v = 0 then true
            else (primInit α).inMST v } := by
      show primStep d n (primInit α) = _
      rw [primStep_of_nonneg d n (primInit α) (by
        rw [minKeyScan_init n hn])]
      rw [minKeyScan_init n hn]
      rfl
    have hcount := primAux_count_ge d n hn 1 h2
    have hin : ∀ x, (primAux d n 1).inMST x
        = if x = 0 then true else false := by
      intro x
      rw [hstep]
      rfl
    have hpar : ∀ x, (primAux d n 1).parent x
        = if x < n ∧ (if x = 0 then true else false) = false
            ∧ ((d 0 x : α) : WithTop α) < (primInit α).key x
          then ((0 : ℕ) : ℤ) else (-1 : ℤ) := by
      intro x
      rw [hstep]
      rfl
    refine ⟨fun _ => 0, ?_, ?_, ?_⟩
    · rw [hin 0]
      decide
    · intro v hv hvin
      rw [hin v] at hvin
      by_cases hv0 : v = 0
      · refine ⟨?_, Or.inl hv0⟩
        show (0 : ℕ) < countInMST (primAux d n 1) n
        omega
      · rw [if_neg hv0] at hvin
        cases hvin
    · intro v hv hvout
      rw [hin v] at hvout
      have hv0 : ¬ v = 0 := by
        intro hc
        rw [if_pos hc] at hvout
        cases hvout
      have hkeyv : (primInit α).key v = ⊤ := by
        show (if v = 0 then (0 : WithTop α) else ⊤) = ⊤
        rw [if_neg hv0]
      have hcond : v < n ∧ (if v = 0 then true else false) = false
          ∧ ((d 0 v : α) : WithTop α) < (primInit α).key v := by
        refine ⟨hv, by rw [if_neg hv0], ?_⟩
        rw [hkeyv]
        exact WithTop.coe_lt_top _
      rw [hpar v, if_pos hcond]
      refine ⟨Int.natCast_nonneg 0, ?_, ?_, ?_⟩
      · rw [Int.toNat_natCast]
        omega
      · rw [Int.toNat_natCast]
        omega
      · rw [Int.toNat_natCast, hin 0]
        decide
  | k + 2, _, h2 => by
    obtain ⟨r, ihA, ihB, ihC⟩ :=
      primAux_parent_inv d n hn (k + 1) (by omega) (by omega)
    have hscan := primAux_scan_nonneg d n hn (k + 1) (by omega)
    obtain ⟨uN, hltN, heqN, hnotN⟩ := minKeyScan_mem n _ _ hscan
    have huN : (minKeyScan n (primAux d n (k + 1)).key
        (primAux d n (k + 1)).inMST).toNat = uN := by
      rw [heqN]
      exact Int.toNat_natCast uN
    have hstep : primAux d n (k + 2) = primUpdate d n uN
        { primAux d n (k + 1) with inMST := fun v => if v = uN then true
            else (primAux d n (k + 1)).inMST v } := by
      show primStep d n (primAux d n (k + 1)) = _
      rw [primStep_of_nonneg d n _ hscan, huN]
    have hin : ∀ x, (primAux d n (k + 2)).inMST x
        = if x = uN then true else (primAux d n (k + 1)).inMST x := by
      intro x
      rw [hstep]
      rfl
    have hpar : ∀ x, (primAux d n (k + 2)).parent x
        = if x < n
            ∧ (if x = uN then true
                else (primAux d n (k + 1)).inMST x) = false
            ∧ ((d uN x : α) : WithTop α) < (primAux d n (k + 1)).key x
          then ((uN : ℕ) : ℤ) else (primAux d n (k + 1)).parent x := by
      intro x
      rw [hstep]
      rfl
    have hup : ∀ x, (primAux d n (k + 1)).inMST x = true →
        (primAux d n (k + 2)).inMST x = true := by
      intro x hx
      rw [hin x]
      by_cases h : x = uN
      · rw [if_pos h]
      · rw [if_neg h]
        exact hx
    have hcgrow : countInMST (primAux d n (k + 1)) n + 1
        ≤ countInMST (primAux d n (k + 2)) n := by
      rw [hstep]
      unfold countInMST primUpdate
      simp only []
      exact countP_update_ge (fun v => (primAux d n (k + 1)).inMST v) uN
        (List.range n) (List.mem_range.2 hltN) hnotN
    refine ⟨fun v => if v = uN then countInMST (primAux d n (k + 1)) n
      else r v, hup 0 ihA, ?_, ?_⟩
    · intro v hv hvin
      rw [hin v] at hvin
      by_cases hvu : v = uN
      · -- the newly included vertex
        have hpout := ihC uN hltN hnotN
        have hpeq : (primAux d n (k + 2)).parent v
            = (primAux d n (k + 1)).parent v := by
          rw [hpar v, if_neg]
          intro hc
          rw [if_pos hvu] at hc
          cases hc.2.1
        have htne : ((primAux d n (k + 1)).parent uN).toNat ≠ uN :=
          hpout.2.2.1
        have hrankt := (ihB ((primAux d n (k + 1)).parent uN).toNat
          hpout.2.1 hpout.2.2.2).1
        constructor
        · show (if v = uN then countInMST (primAux d n (k + 1)) n else r v)
            < countInMST (primAux d n (k + 2)) n
          rw [if_pos hvu]
          omega
        · refine Or.inr ⟨?_, ?_, ?_, ?_, ?_⟩
          · rw [hpeq, hvu]
            exact hpout.1
          · rw [hpeq, hvu]
            exact hpout.2.1
          · rw [hpeq, hvu]
            exact htne
          · rw [hpeq, hvu]
            exact hup _ hpout.2.2.2
          · show (if ((primAux d n (k + 2)).parent v).toNat = uN
                then countInMST (primAux d n (k + 1)) n
                else r ((primAux d n (k + 2)).parent v).toNat)
              < (if v = uN then countInMST (primAux d n (k + 1)) n
                else r v)
            rw [hpeq, hvu, if_neg htne, if_pos rfl]
            omega
      · rw [if_neg hvu] at hvin
        obtain ⟨hrv, hor⟩ := ihB v hv hvin
        have hpeq : (primAux d n (k + 2)).parent v
            = (primAux d n (k + 1)).parent v := by
          rw [hpar v, if_neg]
          intro hc
          rw [if_neg hvu, hvin] at hc
          cases hc.2.1
        constructor
        · show (if v = uN then countInMST (primAux d n (k + 1)) n else r v)
            < countInMST (primAux d n (k + 2)) n
          rw [if_neg hvu]
          omega
        · rcases hor with h0 | ⟨q1, q2, q3, q4, q5⟩
          · exact Or.inl h0
          · have htne : ((primAux d n (k + 1)).parent v).toNat ≠ uN := by
              intro hc
              rw [hc] at q4
              rw [q4] at hnotN
              cases hnotN
            refine Or.inr ⟨?_, ?_, ?_, ?_, ?_⟩
            · rw [hpeq]
              exact q1
            · rw [hpeq]
              exact q2
            · rw [hpeq]
              exact q3
            · rw [hpeq]
              exact hup _ q4
            · show (if ((primAux d n (k + 2)).parent v).toNat = uN
                  then countInMST (primAux d n (k + 1)) n
                  else r ((primAux d n (k + 2)).parent v).toNat)
                < (if v = uN then countInMST (primAux d n (k + 1)) n
                  else r v)
              rw [hpeq, if_neg htne, if_neg hvu]
              exact q5
    · intro v hv hvout
      rw [hin v] at hvout
      have hvu : ¬ v = uN := by
        intro hc
        rw [if_pos hc] at hvout
        cases hvout
      rw [if_neg hvu] at hvout
      rw [hpar v]
      by_cases hcond : v < n
          ∧ (if v = uN then true
              else (primAux d n (k + 1)).inMST v) = false
          ∧ ((d uN v : α) : WithTop α) < (primAux d n (k + 1)).key v
      · rw [if_pos hcond]
        refine ⟨Int.natCast_nonneg uN, ?_, ?_, ?_⟩
        · rw [Int.toNat_natCast]
          exact hltN
        · rw [Int.toNat_natCast]
          omega
        · rw [Int.toNat_natCast, hin uN, if_pos rfl]
      · rw [if_neg hcond]
        obtain ⟨p1, p2, p3, p4⟩ := ihC v hv hvout
        exact ⟨p1, p2, p3, hup _ p4⟩

/-- The final Prim parent vector for `n ≥ 1`: every vertex other than
`0` has a nonnegative, in-range parent different from itself, and a rank
function certifies that parent chains descend towards `0`. -/
theorem primMST_struct (d : ℕ → ℕ → α) (n : ℕ) (hn : 1 ≤ n) :
    ∃ r : ℕ → ℕ, ∀ v, v < n → v ≠ 0 →
      0 ≤ primMST d n v ∧ (primMST d n v).toNat < n
        ∧ (primMST d n v).toNat ≠ v
        ∧ r ((primMST d n v).toNat) < r v := by
  obtain ⟨r, hA, hB, hC⟩ := primAux_parent_inv d n hn n hn (le_refl n)
  refine ⟨r, ?_⟩
  intro v hv hv0
  have hvin := primAux_all_inMST d n hn v hv
  obtain ⟨hrv, hor⟩ := hB v hv hvin
  rcases hor with h0 | ⟨q1, q2, q3, q4, q5⟩
  · exact absurd h0 hv0
  · exact ⟨q1, q2, q3, q5⟩

/-! ### Membership and invariance under `addEdge` -/

theorem getD_pushNbr (adj : List (List ℕ)) (u v a : ℕ) :
    (pushNbr adj u v).getD a []
      = if a = u ∧ u < adj.length then adj.getD u [] ++ [v]
        else adj.getD a [] := by
  unfold pushNbr
  rw [getD_set]

theorem mem_getD_pushNbr_mono (adj : List (List ℕ)) (u v a x : ℕ)
    (h : x ∈ adj.getD a []) : x ∈ (pushNbr adj u v).getD a [] := by
  rw [getD_pushNbr]
  by_cases hc : a = u ∧ u < adj.length
  · rw [if_pos hc]
    exact List.mem_append.2 (Or.inl (hc.1 ▸ h))
  · rw [if_neg hc]
    exact h

theorem mem_getD_addEdge_mono (adj : List (List ℕ)) (u v a x : ℕ)
    (h : x ∈ adj.getD a []) : x ∈ (addEdge adj u v).getD a [] :=
  mem_getD_pushNbr_mono _ _ _ _ _ (mem_getD_pushNbr_mono _ _ _ _ _ h)

theorem mem_getD_addEdge_self (adj : List (List ℕ)) (u v : ℕ)
    (hu : u < adj.length) (hv : v < adj.length) :
    v ∈ (addEdge adj u v).getD u [] ∧ u ∈ (addEdge adj u v).getD v []
    := by
  constructor
  · show v ∈ (pushNbr (pushNbr adj u v) v u).getD u []
    apply mem_getD_pushNbr_mono
    rw [getD_pushNbr, if_pos ⟨rfl, hu⟩]
    exact List.mem_append.2 (Or.inr (by simp))
  · show u ∈ (pushNbr (pushNbr adj u v) v u).getD v []
    rw [getD_pushNbr, if_pos ⟨rfl, by rw [length_pushNbr]; exact hv⟩]
    exact List.mem_append.2 (Or.inr (by simp))

theorem mem_getD_foldl_addEdge_mono :
    ∀ (pairs : List (ℕ × ℕ)) (adj : List (List ℕ)) (a x : ℕ),
      x ∈ adj.getD a [] →
      x ∈ (pairs.foldl (fun b p => addEdge b p.1 p.2) adj).getD a []
  | [], _, _, _, h => h
  | p :: t, adj, a, x, h => by
    rw [List.foldl_cons]
    exact mem_getD_foldl_addEdge_mono t _ a x
      (mem_getD_addEdge_mono adj p.1 p.2 a x h)

theorem mem_getD_foldl_addEdge_self :
    ∀ (pairs : List (ℕ × ℕ)) (adj : List (List ℕ)),
      (∀ q ∈ pairs, q.1 < adj.length ∧ q.2 < adj.length) →
      ∀ p ∈ pairs,
        p.2 ∈ (pairs.foldl (fun b q => addEdge b q.1 q.2) adj).getD p.1 []
        ∧ p.1 ∈ (pairs.foldl (fun b q => addEdge b q.1 q.2) adj).getD
            p.2 []
  | [], _, _, p, hp => absurd hp (List.not_mem_nil p)
  | q :: t, adj, hr, p, hp => by
    rw [List.foldl_cons]
    rcases List.mem_cons.1 hp with rfl | hpt
    · have hq := hr p (List.mem_cons_self p t)
      have h1 := mem_getD_addEdge_self adj p.1 p.2 hq.1 hq.2
      exact ⟨mem_getD_foldl_addEdge_mono t _ _ _ h1.1,
        mem_getD_foldl_addEdge_mono t _ _ _ h1.2⟩
    · exact mem_getD_foldl_addEdge_self t (addEdge adj q.1 q.2)
        (fun q' hq' => by
          rw [length_addEdge]
          exact hr q' (List.mem_cons_of_mem q hq'))
        p hpt

theorem count_getD_addEdge (adj : List (List ℕ)) (u v : ℕ)
    (hu : u < adj.length) (hv : v < adj.length) (huv : u ≠ v) (a b : ℕ) :
    ((addEdge adj u v).getD a []).count b
      = (adj.getD a []).count b
        + ((if a = u ∧ b = v then 1 else 0)
          + (if a = v ∧ b = u then 1 else 0)) := by
  have hcnt : ∀ x y : ℕ, ([x] : List ℕ).count y
      = if y = x then 1 else 0 := by
    intro x y
    by_cases hxy : y = x
    · rw [if_pos hxy, hxy]
      simp
    · rw [if_neg hxy]
      simp [hxy]
  show ((pushNbr (pushNbr adj u v) v u).getD a []).count b = _
  by_cases hav : a = v
  · rw [hav]
    rw [getD_pushNbr (pushNbr adj u v) v u v,
      if_pos ⟨rfl, by rw [length_pushNbr]; exact hv⟩]
    rw [getD_pushNbr adj u v v, if_neg (fun hc => huv hc.1.symm)]
    rw [List.count_append]
    have e1 : (if v = u ∧ b = v then 1 else 0) = 0 :=
      if_neg (fun hc => huv hc.1.symm)
    have e2 : (if v = v ∧ b = u then 1 else 0)
        = if b = u then 1 else 0 := by
      by_cases hbu : b = u
      · rw [if_pos ⟨rfl, hbu⟩, if_pos hbu]
      · rw [if_neg (fun hc => hbu hc.2), if_neg hbu]
    rw [e1, e2, hcnt u b]
    omega
  · rw [getD_pushNbr (pushNbr adj u v) v u a,
      if_neg (fun hc => hav hc.1)]
    by_cases hau : a = u
    · rw [hau]
      rw [getD_pushNbr adj u v u, if_pos ⟨rfl, hu⟩]
      rw [List.count_append]
      have e1 : (if u = u ∧ b = v then 1 else 0)
          = if b = v then 1 else 0 := by
        by_cases hbv : b = v
        · rw [if_pos ⟨rfl, hbv⟩, if_pos hbv]
        · rw [if_neg (fun hc => hbv hc.2), if_neg hbv]
      have e2 : (if u = v ∧ b = u then 1 else 0) = 0 :=
        if_neg (fun hc => huv hc.1)
      rw [e1, e2, hcnt v b]
      omega
    · rw [getD_pushNbr adj u v a, if_neg (fun hc => hau hc.1)]
      have e1 : (if a = u ∧ b = v then 1 else 0) = 0 :=
        if_neg (fun hc => hau hc.1)
      have e2 : (if a = v ∧ b = u then 1 else 0) = 0 :=
        if_neg (fun hc => hav hc.1)
      rw [e1, e2]
      omega

theorem range_pushNbr (adj : List (List ℕ)) (u v : ℕ)
    (hv : v < adj.length)
    (hrange : ∀ l ∈ adj, ∀ w ∈ l, w < adj.length) :
    ∀ l ∈ pushNbr adj u v, ∀ w ∈ l, w < (pushNbr adj u v).length := by
  intro l hl w hw
  rw [length_pushNbr]
  rcases List.mem_or_eq_of_mem_set hl with h | h
  · exact hrange l h w hw
  · rw [h] at hw
    rcases List.mem_append.1 hw with h1 | h1
    · by_cases hu : u < adj.length
      · exact hrange _ (getD_mem_self adj u hu) w h1
      · rw [getD_eq_nil_of_le adj u (by omega)] at h1
        cases h1
    · have hwv : w = v := by simpa using h1
      rw [hwv]
      exact hv

theorem EulerInv_addEdge (adj : List (List ℕ)) (u v : ℕ)
    (hu : u < adj.length) (hv : v < adj.length) (huv : u ≠ v)
    (hinv : EulerInv adj) : EulerInv (addEdge adj u v) := by
  obtain ⟨hsym, hloop, hrange⟩ := hinv
  refine ⟨?_, ?_, ?_⟩
  · intro a b
    rw [count_getD_addEdge adj u v hu hv huv a b,
      count_getD_addEdge adj u v hu hv huv b a, hsym a b]
    have e1 : (if a = u ∧ b = v then 1 else 0)
        = (if b = v ∧ a = u then 1 else 0) := by
      by_cases h : a = u ∧ b = v
      · rw [if_pos h, if_pos ⟨h.2, h.1⟩]
      · rw [if_neg h, if_neg (fun hc => h ⟨hc.2, hc.1⟩)]
    have e2 : (if a = v ∧ b = u then 1 else 0)
        = (if b = u ∧ a = v then 1 else 0) := by
      by_cases h : a = v ∧ b = u
      · rw [if_pos h, if_pos ⟨h.2, h.1⟩]
      · rw [if_neg h, if_neg (fun hc => h ⟨hc.2, hc.1⟩)]
    rw [e1, e2]
    omega
  · intro a
    rw [← List.count_eq_zero, count_getD_addEdge adj u v hu hv huv a a]
    have e1 : (if a = u ∧ a = v then 1 else 0) = 0 :=
      if_neg (fun hc => huv (hc.1.symm.trans hc.2))
    have e2 : (if a = v ∧ a = u then 1 else 0) = 0 :=
      if_neg (fun hc => huv (hc.2.symm.trans hc.1))
    rw [e1, e2, List.count_eq_zero.2 (hloop a)]
  · have h1 := range_pushNbr adj u v hv hrange
    have h2 := range_pushNbr (pushNbr adj u v) v u
      (by rw [length_pushNbr]; exact hu) h1
    intro l hl w hw
    have h3 := h2 l hl w hw
    rw [length_pushNbr, length_pushNbr] at h3
    rw [length_addEdge]
    exact h3

theorem EulerInv_foldl_addEdge :
    ∀ (pairs : List (ℕ × ℕ)) (adj : List (List ℕ)), EulerInv adj →
      (∀ p ∈ pairs, p.1 < adj.length ∧ p.2 < adj.length ∧ p.1 ≠ p.2) →
      EulerInv (pairs.foldl (fun b p => addEdge b p.1 p.2) adj)
  | [], _, h, _ => h
  | p :: t, adj, h, hr => by
    rw [List.foldl_cons]
    have hp := hr p (List.mem_cons_self p t)
    exact EulerInv_foldl_addEdge t _
      (EulerInv_addEdge adj p.1 p.2 hp.1 hp.2.1 hp.2.2 h)
      (fun q hq => by
        rw [length_addEdge]
        exact hr q (List.mem_cons_of_mem p hq))

theorem getD_replicate_nil (n w : ℕ) :
    (List.replicate n ([] : List ℕ)).getD w [] = [] := by
  by_cases hw : w < n
  · rw [List.getD_eq_getElem _ _ (by rw [List.length_replicate]; exact hw)]
    exact List.getElem_replicate _ _
  · exact getD_eq_nil_of_le _ _ (by rw [List.length_replicate]; omega)

theorem EulerInv_replicate (n : ℕ) :
    EulerInv (List.replicate n ([] : List ℕ)) := by
  refine ⟨?_, ?_, ?_⟩
  · intro u v
    rw [getD_replicate_nil, getD_replicate_nil]
    rfl
  · intro u
    rw [getD_replicate_nil]
    exact List.not_mem_nil u
  · intro l hl w hw
    have hle : l = [] := List.eq_of_mem_replicate hl
    rw [hle] at hw
    cases hw

theorem buildAdjFromParent_eq_foldl (parent : ℕ → ℤ) (n : ℕ) :
    buildAdjFromParent parent n
      = ((List.range (n - 1)).map
          (fun i => (i + 1, (parent (i + 1)).toNat))).foldl
        (fun b p => addEdge b p.1 p.2) (List.replicate n []) := by
  unfold buildAdjFromParent
  rw [List.foldl_map]

/-- The edges added by the greedy matcher, as a list of vertex pairs
whose endpoint multiset is exactly the odd list. -/
theorem addGreedy_pairs (d : ℕ → ℕ → α) (adj : List (List ℕ))
    (heven : Even (findOddDegreeVertices adj).length) :
    ∃ pairs : List (ℕ × ℕ),
      addGreedyPerfectMatching (findOddDegreeVertices adj) d adj
        = pairs.foldl (fun b p => addEdge b p.1 p.2) adj ∧
      List.Perm (pairs.flatMap (fun p => [p.1, p.2]))
        (findOddDegreeVertices adj) := by
  by_cases hk : (findOddDegreeVertices adj).length = 0
  · refine ⟨[], ?_, ?_⟩
    · unfold addGreedyPerfectMatching
      rw [if_pos hk]
      rfl
    · rw [List.length_eq_zero.1 hk]
      simp
  · unfold addGreedyPerfectMatching
    rw [if_neg hk]
    have hrep : (List.replicate (findOddDegreeVertices adj).length
        false).length = (findOddDegreeVertices adj).length :=
      List.length_replicate ..
    have hunused : unusedIdx (List.replicate
        (findOddDegreeVertices adj).length false)
        = List.range (findOddDegreeVertices adj).length := by
      unfold unusedIdx
      rw [hrep]
      refine List.filter_eq_self.2 (fun m hm => ?_)
      simp [List.getElem?_replicate, List.mem_range.1 hm]
    obtain ⟨pairs, hp1, hp2⟩ := matchLoop_spec d
      (findOddDegreeVertices adj) 0
      (List.replicate (findOddDegreeVertices adj).length false) adj hrep
      (fun m hm => absurd hm (by omega))
      (by rw [hunused, List.length_range]; exact heven)
    refine ⟨pairs, hp1, ?_⟩
    have hmap : (unusedIdx (List.replicate
        (findOddDegreeVertices adj).length false)).map
          (fun m => (findOddDegreeVertices adj).getD m 0)
        = findOddDegreeVertices adj := by
      rw [hunused]
      exact map_getD_range (findOddDegreeVertices adj) 0
    rwa [hmap] at hp2

theorem flatMap_pairs_nodup_ne : ∀ pairs : List (ℕ × ℕ),
    (pairs.flatMap (fun p => [p.1, p.2])).Nodup →
    ∀ p ∈ pairs, p.1 ≠ p.2
  | [], _, p, hp => absurd hp (List.not_mem_nil p)
  | q :: t, hnd, p, hp => by
    rw [List.flatMap_cons] at hnd
    rcases List.mem_cons.1 hp with rfl | hpt
    · intro hc
      have h1 := (List.nodup_append.1 hnd).1
      have h2 := (List.nodup_cons.1 h1).1
      exact h2 (by rw [hc]; simp)
    · exact flatMap_pairs_nodup_ne t ((List.nodup_append.1 hnd).2.1) p hpt

/-- Complete characterization of the shortcutting loop: the result is
duplicate-free, its members are exactly the walk members not yet marked
visited, and every unvisited walk member survives. -/
theorem shortcutAux_spec : ∀ (l : List ℕ) (vis : List Bool),
    (shortcutAux l vis).Nodup ∧
    (∀ x ∈ shortcutAux l vis, x ∈ l ∧ vis.getD x true = false) ∧
    (∀ v ∈ l, vis.getD v true = false → v ∈ shortcutAux l vis)
  | [], _ => ⟨List.nodup_nil, fun x hx => absurd hx (List.not_mem_nil x),
      fun v hv _ => absurd hv (List.not_mem_nil v)⟩
  | a :: rest, vis => by
    have heq : shortcutAux (a :: rest) vis
        = if vis.getD a true = false
          then a :: shortcutAux rest (vis.set a true)
          else shortcutAux rest vis := rfl
    by_cases hkeep : vis.getD a true = false
    · rw [heq, if_pos hkeep]
      obtain ⟨ih1, ih2, ih3⟩ := shortcutAux_spec rest (vis.set a true)
      have halen : a < vis.length := by
        by_contra hcon
        push_neg at hcon
        rw [List.getD_eq_getElem?_getD, List.getElem?_eq_none hcon]
          at hkeep
        cases hkeep
      refine ⟨?_, ?_, ?_⟩
      · rw [List.nodup_cons]
        refine ⟨?_, ih1⟩
        intro hmem
        have h2 := (ih2 a hmem).2
        rw [getD_set, if_pos ⟨rfl, halen⟩] at h2
        cases h2
      · intro x hx
        rcases List.mem_cons.1 hx with rfl | hxt
        · exact ⟨List.mem_cons_self _ _, hkeep⟩
        · obtain ⟨hx1, hx2⟩ := ih2 x hxt
          refine ⟨List.mem_cons_of_mem a hx1, ?_⟩
          rw [getD_set] at hx2
          by_cases hxa : x = a ∧ a < vis.length
          · rw [if_pos hxa] at hx2
            cases hx2
          · rw [if_neg hxa] at hx2
            exact hx2
      · intro v hv hvis
        rcases List.mem_cons.1 hv with rfl | hvt
        · exact List.mem_cons_self _ _
        · by_cases hva : v = a
          · rw [hva]
            exact List.mem_cons_self _ _
          · refine List.mem_cons_of_mem a (ih3 v hvt ?_)
            rw [getD_set, if_neg (fun hc => hva hc.1)]
            exact hvis
    · rw [heq, if_neg hkeep]
      obtain ⟨ih1, ih2, ih3⟩ := shortcutAux_spec rest vis
      refine ⟨ih1, ?_, ?_⟩
      · intro x hx
        obtain ⟨hx1, hx2⟩ := ih2 x hx
        exact ⟨List.mem_cons_of_mem a hx1, hx2⟩
      · intro v hv hvis
        rcases List.mem_cons.1 hv with rfl | hvt
        · exact absurd hvis hkeep
        · exact ih3 v hvt hvis

/-- Rank-descending parent chains reach vertex `0` by strong recursion
on the rank. -/
theorem chain_reach (step : ℕ → ℕ → Prop) (r : ℕ → ℕ) (n : ℕ)
    (h : ∀ v, v < n → v ≠ 0 → ∃ w, w < n ∧ step v w ∧ r w < r v) :
    ∀ v, v < n → Relation.ReflTransGen step v 0
  | v, hv => by
    by_cases hv0 : v = 0
    · rw [hv0]
    · obtain ⟨w, hw1, hw2, hw3⟩ := h v hv hv0
      exact Relation.ReflTransGen.head hw2 (chain_reach step r n h w hw1)
termination_by v _ => r v
decreasing_by exact hw3

/-- On an even-degree, connected multigraph the Euler circuit visits
every vertex that carries at least one edge, and also vertex `0`. -/
theorem euler_covers (n : ℕ) (B : List (List ℕ)) (hlen : B.length = n)
    (hinv : EulerInv B) (heven : ∀ v, degree B v % 2 = 0)
    (hconn : ∀ a b, b ∈ B.getD a [] →
      Relation.ReflTransGen (fun x y => y ∈ B.getD x []) 0 a)
    (hn : 1 ≤ n)
    (hedge : ∀ v, v < n → v ≠ 0 → ∃ w, w ∈ B.getD v []) :
    (eulerianTourHierholzer 0 B).headI = 0 ∧
    eulerianTourHierholzer 0 B ≠ [] ∧
    (∀ v, v < n → v ∈ eulerianTourHierholzer 0 B) := by
  obtain ⟨c1, c2, c3, c4⟩ := eulerCore B hinv heven hconn (by omega)
  have hEne : eulerianTourHierholzer 0 B ≠ [] := by
    intro hc
    rw [hc] at c4
    simp at c4
  refine ⟨c1, hEne, ?_⟩
  intro v hv
  by_cases hv0 : v = 0
  · have h0 : (0 : ℕ) ∈ eulerianTourHierholzer 0 B := by
      cases hE : eulerianTourHierholzer 0 B with
      | nil => exact absurd hE hEne
      | cons a t =>
        have ha : a = 0 := by
          rw [hE] at c1
          exact c1
        rw [ha]
        exact List.mem_cons_self 0 t
    rw [hv0]
    exact h0
  · obtain ⟨w, hw⟩ := hedge v hv hv0
    have hmemE : Sym2.mk (v, w) ∈ edgesM B :=
      (mem_edgesM_iff B _).2 ⟨v, w, by omega, hw, rfl⟩
    rw [← c3] at hmemE
    have hch : Sym2.mk (v, w)
        ∈ chainPairs (eulerianTourHierholzer 0 B) := by
      rcases Multiset.mem_add.1 hmemE with h | h
      · exact h
      · exact h
    obtain ⟨a, b, hab, ha, hb⟩ := mem_chainPairs _ _ hch
    rcases Sym2.eq_iff.1 hab with ⟨h1, h2⟩ | ⟨h1, h2⟩
    · rw [h1]
      exact ha
    · rw [h1]
      exact hb

/-- Shortcutting an Eulerian walk that starts at `0` and visits every
vertex, then rotating, produces a duplicate-free permutation of the `n`
vertices starting at `0`; the rotation is the identity here. -/
theorem shortcut_rotate_wellformed (n : ℕ) (hn : 1 ≤ n) (E : List ℕ)
    (hhead : E.headI = 0) (hne : E ≠ [])
    (hcov : ∀ v, v < n → v ∈ E) :
    (shortcutAux E (List.replicate n false)).Perm (List.range n) ∧
    (shortcutAux E (List.replicate n false)).headI = 0 ∧
    shortcutAux E (List.replicate n false) ≠ [] ∧
    rotateToZero (shortcutAux E (List.replicate n false))
      = shortcutAux E (List.replicate n false) := by
  have hvget : ∀ v, v < n →
      (List.replicate n false).getD v true = false := by
    intro v hv
    rw [List.getD_eq_getElem?_getD, List.getElem?_replicate, if_pos hv]
    rfl
  have hvget' : ∀ v, ¬ v < n →
      (List.replicate n false).getD v true = true := by
    intro v hv
    rw [List.getD_eq_getElem?_getD,
      List.getElem?_eq_none (by rw [List.length_replicate]; omega)]
    rfl
  obtain ⟨hnd, hmemf, hcomp⟩ := shortcutAux_spec E (List.replicate n false)
  have hmem : ∀ x, x ∈ shortcutAux E (List.replicate n false) ↔ x < n
      ∧ x ∈ E := by
    intro x
    constructor
    · intro hx
      obtain ⟨h1, h2⟩ := hmemf x hx
      refine ⟨?_, h1⟩
      by_contra hcon
      rw [hvget' x hcon] at h2
      cases h2
    · intro ⟨h1, h2⟩
      exact hcomp x h2 (hvget x h1)
  have hperm : (shortcutAux E (List.replicate n false)).Perm
      (List.range n) := by
    rw [List.perm_iff_count]
    intro x
    by_cases hx : x < n
    · rw [List.count_eq_one_of_mem hnd ((hmem x).2 ⟨hx, hcov x hx⟩),
        List.count_eq_one_of_mem (List.nodup_range n)
          (List.mem_range.2 hx)]
    · rw [List.count_eq_zero_of_not_mem (fun hc => hx ((hmem x).1 hc).1),
        List.count_eq_zero_of_not_mem
          (fun hc => hx (List.mem_range.1 hc))]
  obtain ⟨a, t, hE⟩ : ∃ a t, E = a :: t := by
    cases E with
    | nil => exact absurd rfl hne
    | cons a t => exact ⟨a, t, rfl⟩
  have ha0 : a = 0 := by
    rw [hE] at hhead
    exact hhead
  have htour : shortcutAux E (List.replicate n false)
      = 0 :: shortcutAux t ((List.replicate n false).set 0 true) := by
    rw [hE, ha0]
    show (if (List.replicate n false).getD 0 true = false
        then 0 :: shortcutAux t ((List.replicate n false).set 0 true)
        else shortcutAux t (List.replicate n false)) = _
    rw [if_pos (hvget 0 (by omega))]
  refine ⟨hperm, ?_, ?_, ?_⟩
  · rw [htour]
    rfl
  · rw [htour]
    exact List.cons_ne_nil _ _
  · unfold rotateToZero
    rw [if_neg]
    rintro ⟨hc1, -⟩
    rw [htour] at hc1
    exact hc1 (List.indexOf_cons_self 0 _)

/-- **C4**: for the multigraph built from the `n − 1` spanning-tree edges
plus the matching edges — symmetric, loopless, in-range, all degrees
even, and connected in the sense that every stored edge's endpoint is
reachable from vertex `0` — `eulerianTourHierholzer 0` returns a closed
walk whose first and last vertices are both the start vertex `0`, whose
multiset of consecutive pairs, taken twice, is exactly the stored edge
multiset (each undirected edge instance is stored once per endpoint, so
each is traversed exactly once), and whose edge count (length minus one)
equals `(n − 1)` plus the number of matching pairs. -/
theorem eulerianTourHierholzer_circuit (parent : ℕ → ℤ) (n : ℕ)
    (hn : 1 ≤ n) (pairs : List (ℕ × ℕ)) (adj : List (List ℕ))
    (hadj : adj = pairs.foldl (fun a p => addEdge a p.1 p.2)
      (buildAdjFromParent parent n))
    (hpar : ∀ v, 1 ≤ v → v < n → (parent v).toNat < n)
    (hpairs : ∀ p ∈ pairs, p.1 < n ∧ p.2 < n)
    (hsymB : ∀ u < adj.length, ∀ v < adj.length,
      (adj.getD u []).count v = (adj.getD v []).count u)
    (hloopB : ∀ u < adj.length, u ∉ adj.getD u [])
    (hrangeB : ∀ l ∈ adj, ∀ w ∈ l, w < adj.length)
    (heven : ∀ v, v < n → degree adj v % 2 = 0)
    (hconn : ∀ a b, b ∈ adj.getD a [] →
      Relation.ReflTransGen (fun x y => y ∈ adj.getD x []) 0 a) :
    (eulerianTourHierholzer 0 adj).headI = 0 ∧
    (eulerianTourHierholzer 0 adj).getLast? = some 0 ∧
    chainPairs (eulerianTourHierholzer 0 adj)
      + chainPairs (eulerianTourHierholzer 0 adj) = edgesM adj ∧
    (eulerianTourHierholzer 0 adj).length = ((n - 1) + pairs.length) + 1
    := by
  have hlenadj : adj.length = n := by
    rw [hadj, length_foldl_addEdge, buildAdjFromParent_length]
  have hevenAll : ∀ v, degree adj v % 2 = 0 := by
    intro v
    by_cases hv : v < n
    · exact heven v hv
    · rw [degree, getD_eq_nil_of_le adj v (by omega)]
      rfl
  have hinv : EulerInv adj := EulerInv_of_bounded adj hsymB hloopB hrangeB
  obtain ⟨c1, c2, c3, c4⟩ := eulerCore adj hinv hevenAll hconn (by omega)
  refine ⟨c1, c2, c3, ?_⟩
  have hside : ∀ p ∈ pairs, p.1 < (buildAdjFromParent parent n).length
      ∧ p.2 < (buildAdjFromParent parent n).length := by
    intro p hp
    rw [buildAdjFromParent_length]
    exact hpairs p hp
  have htl : totalLen adj = 2 * (n - 1) + 2 * pairs.length := by
    rw [hadj, totalLen_foldl_addEdge pairs _ hside,
      buildAdjFromParent_totalLen parent n hpar]
  omega

/-- Witness for C4 on the two-vertex double edge (path `0–1` plus the
matching edge `0–1`). -/
theorem eulerianTourHierholzer_circuit_witness :
    (eulerianTourHierholzer 0 [[1, 1], [0, 0]]).headI = 0 ∧
    (eulerianTourHierholzer 0 [[1, 1], [0, 0]]).getLast? = some 0 ∧
    chainPairs (eulerianTourHierholzer 0 [[1, 1], [0, 0]])
      + chainPairs (eulerianTourHierholzer 0 [[1, 1], [0, 0]])
      = edgesM [[1, 1], [0, 0]] ∧
    (eulerianTourHierholzer 0 [[1, 1], [0, 0]]).length
      = ((2 - 1) + [((0 : ℕ), (1 : ℕ))].length) + 1 :=
  eulerianTourHierholzer_circuit (fun _ => 0) 2 (by decide) [(0, 1)]
    [[1, 1], [0, 0]] (by decide)
    (fun v h1 h2 => show ((0 : ℤ)).toNat < 2 by decide)
    (by
      intro p hp
      have hp' : p = (0, 1) := by simpa using hp
      rw [hp']
      exact ⟨by decide, by decide⟩)
    (by decide) (by decide) (by decide) (by decide)
    (by
      intro a b hb
      rcases a with - | a1
      · exact Relation.ReflTransGen.refl
      · rcases a1 with - | a2
        · exact Relation.ReflTransGen.single
            (show (1 : ℕ) ∈ ([[1, 1], [0, 0]] : List (List ℕ)).getD 0 []
              by decide)
        · exfalso
          rw [getD_eq_nil_of_le _ _
            (by simp only [List.length_cons, List.length_nil]; omega)] at hb
          exact (List.not_mem_nil b) hb)

/-- **C1**: for every distance matrix over `n ≥ 2` vertices (in
particular one built from `n ≥ 2` points), `christofidesTour` returns a
sequence of exactly `n + 1` vertex indices whose first `n` entries are a
permutation of the `n` vertices `0..n−1` (each appears exactly once),
and whose first entry equals its last entry, both being vertex `0`: a
well-formed closed tour. -/
theorem christofidesTour_wellformed (d : ℕ → ℕ → α) (n : ℕ)
    (hn : 2 ≤ n) :
    (christofidesTour d n).length = n + 1 ∧
    ((christofidesTour d n).take n).Perm (List.range n) ∧
    (christofidesTour d n).headI = 0 ∧
    (christofidesTour d n).getLast? = some 0 := by
  have hn1 : 1 ≤ n := by omega
  obtain ⟨r, hstruct⟩ := primMST_struct d n hn1
  obtain ⟨A, hAdef⟩ : ∃ A, A = buildAdjFromParent (primMST d n) n :=
    ⟨_, rfl⟩
  obtain ⟨B, hBdef⟩ :
      ∃ B, B = addGreedyPerfectMatching (findOddDegreeVertices A) d A :=
    ⟨_, rfl⟩
  obtain ⟨E, hEdef⟩ : ∃ E, E = eulerianTourHierholzer 0 B := ⟨_, rfl⟩
  obtain ⟨tour, htourdef⟩ :
      ∃ t, t = shortcutAux E (List.replicate n false) := ⟨_, rfl⟩
  have hct : christofidesTour d n = rotateToZero tour ++ [0] := by
    rw [htourdef, hEdef, hBdef, hAdef]
    rfl
  -- the spanning-tree adjacency
  have hTreeRange : ∀ p ∈ (List.range (n - 1)).map
      (fun i => (i + 1, (primMST d n (i + 1)).toNat)),
      p.1 < n ∧ p.2 < n ∧ p.1 ≠ p.2 := by
    intro p hp
    obtain ⟨i, hi, hpi⟩ := List.mem_map.1 hp
    have hi' : i < n - 1 := List.mem_range.1 hi
    obtain ⟨q1, q2, q3, q4⟩ := hstruct (i + 1) (by omega) (by omega)
    rw [← hpi]
    exact ⟨by omega, q2, fun hc => q3 hc.symm⟩
  have hadjlen : A.length = n := by
    rw [hAdef]
    exact buildAdjFromParent_length _ n
  have hInvTree : EulerInv A := by
    rw [hAdef, buildAdjFromParent_eq_foldl]
    refine EulerInv_foldl_addEdge _ _ (EulerInv_replicate n) ?_
    intro p hp
    rw [List.length_replicate]
    exact hTreeRange p hp
  -- odd vertices and matching
  have hodde : Even (findOddDegreeVertices A).length := by
    rw [hAdef, Nat.even_iff, findOdd_parity]
    exact Nat.even_iff.1 (buildAdjFromParent_totalLen_even (primMST d n) n
      (fun v h1 h2 => ⟨(hstruct v h2 (by omega)).1,
        (hstruct v h2 (by omega)).2.1⟩))
  obtain ⟨mpairs, hm1, hm2⟩ := addGreedy_pairs d A hodde
  rw [← hBdef] at hm1
  have hMRraw : ∀ x ∈ mpairs.flatMap (fun p => [p.1, p.2]), x < n := by
    intro x hx
    have h1 := (mem_findOdd _ x).1 (hm2.mem_iff.1 hx)
    rw [hadjlen] at h1
    exact h1.1
  have hMne : ∀ p ∈ mpairs, p.1 ≠ p.2 :=
    flatMap_pairs_nodup_ne mpairs (hm2.nodup_iff.2 (findOdd_nodup _))
  have hMR : ∀ p ∈ mpairs,
      p.1 < A.length ∧ p.2 < A.length ∧ p.1 ≠ p.2 := by
    intro p hp
    rw [hadjlen]
    exact ⟨hMRraw p.1 (List.mem_flatMap.2 ⟨p, hp, by simp⟩),
      hMRraw p.2 (List.mem_flatMap.2 ⟨p, hp, by simp⟩), hMne p hp⟩
  -- the multigraph
  have hInv2 : EulerInv B := by
    rw [hm1]
    exact EulerInv_foldl_addEdge mpairs _ hInvTree hMR
  have hlen2 : B.length = n := by
    rw [hm1, length_foldl_addEdge, hadjlen]
  have hevenB : ∀ v, degree B v % 2 = 0 := by
    intro v
    by_cases hv : v < n
    · rw [hm1, degree_foldl_addEdge mpairs _
        (fun p hp => ⟨(hMR p hp).1, (hMR p hp).2.1⟩) v, hm2.count_eq v]
      by_cases hvo : v ∈ findOddDegreeVertices A
      · rw [List.count_eq_one_of_mem (findOdd_nodup _) hvo]
        have hdeg := ((mem_findOdd _ v).1 hvo).2
        omega
      · rw [List.count_eq_zero_of_not_mem hvo]
        have hdeg : ¬ degree A v % 2 = 1 :=
          fun hc => hvo ((mem_findOdd _ v).2
            ⟨by rw [hadjlen]; exact hv, hc⟩)
        omega
    · rw [degree, getD_eq_nil_of_le _ v (by rw [hlen2]; omega)]
      rfl
  -- tree edges are stored in the multigraph
  have hTreeEdge : ∀ v, 1 ≤ v → v < n →
      (primMST d n v).toNat ∈ B.getD v []
      ∧ v ∈ B.getD ((primMST d n v).toNat) [] := by
    intro v h1 h2
    have hpmem : (v, (primMST d n v).toNat) ∈ (List.range (n - 1)).map
        (fun i => (i + 1, (primMST d n (i + 1)).toNat)) := by
      refine List.mem_map.2 ⟨v - 1, List.mem_range.2 (by omega), ?_⟩
      have hv1 : v - 1 + 1 = v := by omega
      rw [hv1]
    have hself := mem_getD_foldl_addEdge_self _ (List.replicate n [])
      (fun q hq => by
        rw [List.length_replicate]
        exact ⟨(hTreeRange q hq).1, (hTreeRange q hq).2.1⟩)
      _ hpmem
    have hA1 : (primMST d n v).toNat ∈ A.getD v [] := by
      rw [hAdef, buildAdjFromParent_eq_foldl]
      exact hself.1
    have hA2 : v ∈ A.getD ((primMST d n v).toNat) [] := by
      rw [hAdef, buildAdjFromParent_eq_foldl]
      exact hself.2
    rw [hm1]
    exact ⟨mem_getD_foldl_addEdge_mono mpairs A _ _ hA1,
      mem_getD_foldl_addEdge_mono mpairs A _ _ hA2⟩
  -- connectivity of the multigraph from vertex 0
  have hstepsym : Symmetric (fun x y => y ∈ B.getD x []) := by
    intro x y hxy
    show x ∈ B.getD y []
    rw [← List.count_pos_iff, hInv2.1 y x, List.count_pos_iff]
    exact hxy
  have hreach0 : ∀ v, v < n →
      Relation.ReflTransGen (fun x y => y ∈ B.getD x []) v 0 := by
    refine chain_reach _ r n ?_
    intro v hv hv0
    obtain ⟨q1, q2, q3, q4⟩ := hstruct v hv hv0
    exact ⟨(primMST d n v).toNat, q2,
      (hTreeEdge v (by omega) hv).1, q4⟩
  have hconn : ∀ a b, b ∈ B.getD a [] →
      Relation.ReflTransGen (fun x y => y ∈ B.getD x []) 0 a := by
    intro a b hb
    have ha : a < n := by
      by_contra hcon
      rw [getD_eq_nil_of_le B a (by rw [hlen2]; omega)] at hb
      cases hb
    exact (Relation.ReflTransGen.symmetric hstepsym) (hreach0 a ha)
  -- the Euler circuit covers every vertex
  have hcov := euler_covers n B hlen2 hInv2 hevenB hconn hn1
    (fun v hv hv0 => ⟨(primMST d n v).toNat,
      (hTreeEdge v (by omega) hv).1⟩)
  obtain ⟨hEhead, hEne, hEcov⟩ := hcov
  rw [← hEdef] at hEhead hEne hEcov
  -- shortcut and rotate
  obtain ⟨hperm, hthead, htne, hrot⟩ := shortcut_rotate_wellformed n hn1 E
    hEhead hEne (fun v hv => hEcov v hv)
  rw [← htourdef] at hperm hthead htne hrot
  have htlen : tour.length = n := by
    rw [hperm.length_eq, List.length_range]
  rw [hct, hrot]
  refine ⟨?_, ?_, ?_, ?_⟩
  · rw [List.length_append, htlen]
    rfl
  · have htake : (tour ++ [0]).take n = tour := by
      rw [← htlen]
      exact List.take_left tour [0]
    rw [htake]
    exact hperm
  · rw [headI_append tour [0] htne]
    exact hthead
  · exact List.getLast?_concat tour

/-! ### Concrete evaluation of the pipeline on the unit square (claim C7) -/

theorem primUpdate_key (d : ℕ → ℕ → α) (n u : ℕ) (s : PrimState α)
    (v : ℕ) :
    (primUpdate d n u s).key v
      = if v < n ∧ s.inMST v = false ∧ ((d u v : α) : WithTop α) < s.key v
        then ((d u v : α) : WithTop α) else s.key v := rfl

theorem primUpdate_parent (d : ℕ → ℕ → α) (n u : ℕ) (s : PrimState α)
    (v : ℕ) :
    (primUpdate d n u s).parent v
      = if v < n ∧ s.inMST v = false ∧ ((d u v : α) : WithTop α) < s.key v
        then ((u : ℕ) : ℤ) else s.parent v := rfl

theorem primUpdate_inMST (d : ℕ → ℕ → α) (n u : ℕ) (s : PrimState α) :
    (primUpdate d n u s).inMST = s.inMST := rfl

theorem mk_key (k : ℕ → WithTop α) (p : ℕ → ℤ) (i : ℕ → Bool) :
    (PrimState.mk k p i).key = k := rfl

theorem mk_parent (k : ℕ → WithTop α) (p : ℕ → ℤ) (i : ℕ → Bool) :
    (PrimState.mk k p i).parent = p := rfl

theorem mk_inMST (k : ℕ → WithTop α) (p : ℕ → ℤ) (i : ℕ → Bool) :
    (PrimState.mk k p i).inMST = i := rfl

theorem setIn_key (s : PrimState α) (f : ℕ → Bool) :
    ({ s with inMST := f } : PrimState α).key = s.key := rfl

theorem setIn_parent (s : PrimState α) (f : ℕ → Bool) :
    ({ s with inMST := f } : PrimState α).parent = s.parent := rfl

theorem setIn_inMST (s : PrimState α) (f : ℕ → Bool) :
    ({ s with inMST := f } : PrimState α).inMST = f := rfl

theorem primAux_succ (d : ℕ → ℕ → α) (n k : ℕ) :
    primAux d n (k + 1) = primStep d n (primAux d n k) := rfl

theorem primStep_inMST_eq (d : ℕ → ℕ → α) (n : ℕ) (s : PrimState α)
    (u : ℕ) (hscan : minKeyScan n s.key s.inMST = ((u : ℕ) : ℤ))
    (v : ℕ) :
    (primStep d n s).inMST v = if v = u then true else s.inMST v := by
  have h1 := primStep_of_nonneg d n s
    (by rw [hscan]; exact Int.natCast_nonneg u)
  rw [h1, hscan, Int.toNat_natCast]
  rfl

theorem primStep_key_eq (d : ℕ → ℕ → α) (n : ℕ) (s : PrimState α)
    (u : ℕ) (hscan : minKeyScan n s.key s.inMST = ((u : ℕ) : ℤ))
    (v : ℕ) :
    (primStep d n s).key v
      = if v < n ∧ v ≠ u ∧ s.inMST v = false
          ∧ ((d u v : α) : WithTop α) < s.key v
        then ((d u v : α) : WithTop α) else s.key v := by
  have h1 := primStep_of_nonneg d n s
    (by rw [hscan]; exact Int.natCast_nonneg u)
  rw [h1, hscan, Int.toNat_natCast]
  show (if v < n ∧ (if v = u then true else s.inMST v) = false
      ∧ ((d u v : α) : WithTop α) < s.key v
    then ((d u v : α) : WithTop α) else s.key v) = _
  by_cases hcond : v < n ∧ v ≠ u ∧ s.inMST v = false
      ∧ ((d u v : α) : WithTop α) < s.key v
  · rw [if_pos hcond, if_pos ⟨hcond.1,
      by rw [if_neg hcond.2.1]; exact hcond.2.2.1, hcond.2.2.2⟩]
  · rw [if_neg hcond, if_neg]
    intro hc
    apply hcond
    have h2 := hc.2.1
    by_cases hvu : v = u
    · rw [if_pos hvu] at h2
      cases h2
    · rw [if_neg hvu] at h2
      exact ⟨hc.1, hvu, h2, hc.2.2⟩

theorem primStep_parent_eq (d : ℕ → ℕ → α) (n : ℕ) (s : PrimState α)
    (u : ℕ) (hscan : minKeyScan n s.key s.inMST = ((u : ℕ) : ℤ))
    (v : ℕ) :
    (primStep d n s).parent v
      = if v < n ∧ v ≠ u ∧ s.inMST v = false
          ∧ ((d u v : α) : WithTop α) < s.key v
        then ((u : ℕ) : ℤ) else s.parent v := by
  have h1 := primStep_of_nonneg d n s
    (by rw [hscan]; exact Int.natCast_nonneg u)
  rw [h1, hscan, Int.toNat_natCast]
  show (if v < n ∧ (if v = u then true else s.inMST v) = false
      ∧ ((d u v : α) : WithTop α) < s.key v
    then ((u : ℕ) : ℤ) else s.parent v) = _
  by_cases hcond : v < n ∧ v ≠ u ∧ s.inMST v = false
      ∧ ((d u v : α) : WithTop α) < s.key v
  · rw [if_pos hcond, if_pos ⟨hcond.1,
      by rw [if_neg hcond.2.1]; exact hcond.2.2.1, hcond.2.2.2⟩]
  · rw [if_neg hcond, if_neg]
    intro hc
    apply hcond
    have h2 := hc.2.1
    by_cases hvu : v = u
    · rw [if_pos hvu] at h2
      cases h2
    · rw [if_neg hvu] at h2
      exact ⟨hc.1, hvu, h2, hc.2.2⟩

/-- The Prim trace on the unit-square distance pattern: `x` stands for
the diagonal distance (√2 for the real square), subject only to
`¬ x < 1` and `1 < x`.  The resulting parents are `1 ↦ 0`, `2 ↦ 1`,
`3 ↦ 0`. -/
theorem squarePrim (d : ℕ → ℕ → α) (x : α)
    (h01 : d 0 1 = 1) (h02 : d 0 2 = x) (h03 : d 0 3 = 1)
    (h12 : d 1 2 = 1) (h13 : d 1 3 = x) (h23 : d 2 3 = 1)
    (hx1 : ¬ x < 1) (h1x : 1 < x) :
    primMST d 4 1 = ((0 : ℕ) : ℤ) ∧ primMST d 4 2 = ((1 : ℕ) : ℤ)
      ∧ primMST d 4 3 = ((0 : ℕ) : ℤ) := by
  have hscan0 : minKeyScan 4 (primAux d 4 0).key (primAux d 4 0).inMST
      = ((0 : ℕ) : ℤ) := by
    show minKeyScan 4 (primInit α).key (primInit α).inMST = ((0 : ℕ) : ℤ)
    rw [minKeyScan_init 4 (by omega)]
    rfl
  have hin1 : ∀ v, (primAux d 4 1).inMST v
      = if v = 0 then true else false := by
    intro v
    rw [primAux_succ, primStep_inMST_eq d 4 (primAux d 4 0) 0 hscan0 v]
    by_cases hv0 : v = 0
    · rw [if_pos hv0, if_pos hv0]
    · rw [if_neg hv0, if_neg hv0]
      rfl
  have hkey1 : ∀ v, v < 4 → (primAux d 4 1).key v
      = if v = 0 then 0 else ((d 0 v : α) : WithTop α) := by
    intro v hv
    rw [primAux_succ, primStep_key_eq d 4 (primAux d 4 0) 0 hscan0 v]
    by_cases hv0 : v = 0
    · rw [if_neg (fun hc => hc.2.1 hv0), if_pos hv0]
      show (if v = 0 then (0 : WithTop α) else ⊤) = 0
      rw [if_pos hv0]
    · have hc2 : ((d 0 v : α) : WithTop α) < (primAux d 4 0).key v := by
        show ((d 0 v : α) : WithTop α)
          < (if v = 0 then (0 : WithTop α) else ⊤)
        rw [if_neg hv0]
        exact WithTop.coe_lt_top _
      rw [if_pos ⟨hv, hv0, rfl, hc2⟩, if_neg hv0]
  have hpar1 : ∀ v, v < 4 → v ≠ 0 →
      (primAux d 4 1).parent v = ((0 : ℕ) : ℤ) := by
    intro v hv hv0
    rw [primAux_succ, primStep_parent_eq d 4 (primAux d 4 0) 0 hscan0 v]
    have hc2 : ((d 0 v : α) : WithTop α) < (primAux d 4 0).key v := by
      show ((d 0 v : α) : WithTop α)
        < (if v = 0 then (0 : WithTop α) else ⊤)
      rw [if_neg hv0]
      exact WithTop.coe_lt_top _
    rw [if_pos ⟨hv, hv0, rfl, hc2⟩]
  -- second scan: vertex 1
  have hscan1 : minKeyScan 4 (primAux d 4 1).key (primAux d 4 1).inMST
      = ((1 : ℕ) : ℤ) := by
    rw [minKeyScan, show List.range 4 = [0, 1, 2, 3] from rfl]
    simp only [List.foldl_cons, List.foldl_nil]
    rw [show scanStep (primAux d 4 1).key (primAux d 4 1).inMST
        ((⊤ : WithTop α), (-1 : ℤ)) 0 = (⊤, -1) from by
      unfold scanStep
      rw [if_neg]
      intro hc
      have h2 := hc.1
      simp [hin1] at h2]
    rw [show scanStep (primAux d 4 1).key (primAux d 4 1).inMST
        ((⊤ : WithTop α), (-1 : ℤ)) 1
        = ((primAux d 4 1).key 1, ((1 : ℕ) : ℤ)) from by
      unfold scanStep
      have hcnd : (primAux d 4 1).inMST 1 = false ∧
          (primAux d 4 1).key 1 < ((⊤ : WithTop α), (-1 : ℤ)).1 := by
        constructor
        · simp [hin1]
        · show (primAux d 4 1).key 1 < ⊤
          rw [hkey1 1 (by omega), if_neg (by decide), h01]
          exact WithTop.coe_lt_top _
      rw [if_pos hcnd]]
    rw [show scanStep (primAux d 4 1).key (primAux d 4 1).inMST
        ((primAux d 4 1).key 1, ((1 : ℕ) : ℤ)) 2
        = ((primAux d 4 1).key 1, ((1 : ℕ) : ℤ)) from by
      unfold scanStep
      rw [if_neg]
      intro hc
      have h2 := hc.2
      rw [hkey1 2 (by omega), if_neg (by decide), h02] at h2
      rw [hkey1 1 (by omega), if_neg (by decide), h01] at h2
      exact hx1 (WithTop.coe_lt_coe.1 h2)]
    rw [show scanStep (primAux d 4 1).key (primAux d 4 1).inMST
        ((primAux d 4 1).key 1, ((1 : ℕ) : ℤ)) 3
        = ((primAux d 4 1).key 1, ((1 : ℕ) : ℤ)) from by
      unfold scanStep
      rw [if_neg]
      intro hc
      have h2 := hc.2
      rw [hkey1 3 (by omega), if_neg (by decide), h03] at h2
      rw [hkey1 1 (by omega), if_neg (by decide), h01] at h2
      exact absurd (WithTop.coe_lt_coe.1 h2) (by norm_num)]
  have hin2 : ∀ v, (primAux d 4 2).inMST v
      = if v = 1 then true else (primAux d 4 1).inMST v := by
    intro v
    rw [primAux_succ, primStep_inMST_eq d 4 (primAux d 4 1) 1 hscan1 v]
  have hkey2_2 : (primAux d 4 2).key 2 = ((1 : α) : WithTop α) := by
    rw [primAux_succ, primStep_key_eq d 4 (primAux d 4 1) 1 hscan1 2]
    have hc3 : (primAux d 4 1).inMST 2 = false := by
      simp [hin1]
    have hc2 : ((d 1 2 : α) : WithTop α) < (primAux d 4 1).key 2 := by
      rw [hkey1 2 (by omega), if_neg (by decide), h12, h02]
      exact WithTop.coe_lt_coe.2 h1x
    rw [if_pos ⟨by omega, by decide, hc3, hc2⟩, h12]
  have hkey2_3 : (primAux d 4 2).key 3 = ((1 : α) : WithTop α) := by
    rw [primAux_succ, primStep_key_eq d 4 (primAux d 4 1) 1 hscan1 3]
    rw [if_neg]
    · rw [hkey1 3 (by omega), if_neg (by decide), h03]
    · intro hc
      have h2 := hc.2.2.2
      rw [hkey1 3 (by omega), if_neg (by decide), h13, h03] at h2
      exact hx1 (WithTop.coe_lt_coe.1 h2)
  have hpar2_1 : (primAux d 4 2).parent 1 = ((0 : ℕ) : ℤ) := by
    rw [primAux_succ, primStep_parent_eq d 4 (primAux d 4 1) 1 hscan1 1]
    rw [if_neg (fun hc => hc.2.1 rfl)]
    exact hpar1 1 (by omega) (by decide)
  have hpar2_2 : (primAux d 4 2).parent 2 = ((1 : ℕ) : ℤ) := by
    rw [primAux_succ, primStep_parent_eq d 4 (primAux d 4 1) 1 hscan1 2]
    have hc3 : (primAux d 4 1).inMST 2 = false := by
      simp [hin1]
    have hc2 : ((d 1 2 : α) : WithTop α) < (primAux d 4 1).key 2 := by
      rw [hkey1 2 (by omega), if_neg (by decide), h12, h02]
      exact WithTop.coe_lt_coe.2 h1x
    rw [if_pos ⟨by omega, by decide, hc3, hc2⟩]
  have hpar2_3 : (primAux d 4 2).parent 3 = ((0 : ℕ) : ℤ) := by
    rw [primAux_succ, primStep_parent_eq d 4 (primAux d 4 1) 1 hscan1 3]
    rw [if_neg]
    · exact hpar1 3 (by omega) (by decide)
    · intro hc
      have h2 := hc.2.2.2
      rw [hkey1 3 (by omega), if_neg (by decide), h13, h03] at h2
      exact hx1 (WithTop.coe_lt_coe.1 h2)
  -- third scan: vertex 2
  have hscan2 : minKeyScan 4 (primAux d 4 2).key (primAux d 4 2).inMST
      = ((2 : ℕ) : ℤ) := by
    rw [minKeyScan, show List.range 4 = [0, 1, 2, 3] from rfl]
    simp only [List.foldl_cons, List.foldl_nil]
    rw [show scanStep (primAux d 4 2).key (primAux d 4 2).inMST
        ((⊤ : WithTop α), (-1 : ℤ)) 0 = (⊤, -1) from by
      unfold scanStep
      rw [if_neg]
      intro hc
      have h2 := hc.1
      simp [hin2, hin1] at h2]
    rw [show scanStep (primAux d 4 2).key (primAux d 4 2).inMST
        ((⊤ : WithTop α), (-1 : ℤ)) 1 = (⊤, -1) from by
      unfold scanStep
      rw [if_neg]
      intro hc
      have h2 := hc.1
      simp [hin2] at h2]
    rw [show scanStep (primAux d 4 2).key (primAux d 4 2).inMST
        ((⊤ : WithTop α), (-1 : ℤ)) 2
        = ((primAux d 4 2).key 2, ((2 : ℕ) : ℤ)) from by
      unfold scanStep
      have hcnd : (primAux d 4 2).inMST 2 = false ∧
          (primAux d 4 2).key 2 < ((⊤ : WithTop α), (-1 : ℤ)).1 := by
        constructor
        · simp [hin2, hin1]
        · show (primAux d 4 2).key 2 < ⊤
          rw [hkey2_2]
          exact WithTop.coe_lt_top _
      rw [if_pos hcnd]]
    rw [show scanStep (primAux d 4 2).key (primAux d 4 2).inMST
        ((primAux d 4 2).key 2, ((2 : ℕ) : ℤ)) 3
        = ((primAux d 4 2).key 2, ((2 : ℕ) : ℤ)) from by
      unfold scanStep
      rw [if_neg]
      intro hc
      have h2 := hc.2
      rw [hkey2_3, hkey2_2] at h2
      exact absurd (WithTop.coe_lt_coe.1 h2) (by norm_num)]
  have hin3 : ∀ v, (primAux d 4 3).inMST v
      = if v = 2 then true else (primAux d 4 2).inMST v := by
    intro v
    rw [primAux_succ, primStep_inMST_eq d 4 (primAux d 4 2) 2 hscan2 v]
  have hkey3_3 : (primAux d 4 3).key 3 = ((1 : α) : WithTop α) := by
    rw [primAux_succ, primStep_key_eq d 4 (primAux d 4 2) 2 hscan2 3]
    rw [if_neg]
    · exact hkey2_3
    · intro hc
      have h2 := hc.2.2.2
      rw [hkey2_3, h23] at h2
      exact absurd (WithTop.coe_lt_coe.1 h2) (by norm_num)
  have hpar3_1 : (primAux d 4 3).parent 1 = ((0 : ℕ) : ℤ) := by
    rw [primAux_succ, primStep_parent_eq d 4 (primAux d 4 2) 2 hscan2 1]
    rw [if_neg]
    · exact hpar2_1
    · intro hc
      have h2 := hc.2.2.1
      simp [hin2] at h2
  have hpar3_2 : (primAux d 4 3).parent 2 = ((1 : ℕ) : ℤ) := by
    rw [primAux_succ, primStep_parent_eq d 4 (primAux d 4 2) 2 hscan2 2]
    rw [if_neg (fun hc => hc.2.1 rfl)]
    exact hpar2_2
  have hpar3_3 : (primAux d 4 3).parent 3 = ((0 : ℕ) : ℤ) := by
    rw [primAux_succ, primStep_parent_eq d 4 (primAux d 4 2) 2 hscan2 3]
    rw [if_neg]
    · exact hpar2_3
    · intro hc
      have h2 := hc.2.2.2
      rw [hkey2_3, h23] at h2
      exact absurd (WithTop.coe_lt_coe.1 h2) (by norm_num)
  -- fourth scan: vertex 3
  have hscan3 : minKeyScan 4 (primAux d 4 3).key (primAux d 4 3).inMST
      = ((3 : ℕ) : ℤ) := by
    rw [minKeyScan, show List.range 4 = [0, 1, 2, 3] from rfl]
    simp only [List.foldl_cons, List.foldl_nil]
    rw [show scanStep (primAux d 4 3).key (primAux d 4 3).inMST
        ((⊤ : WithTop α), (-1 : ℤ)) 0 = (⊤, -1) from by
      unfold scanStep
      rw [if_neg]
      intro hc
      have h2 := hc.1
      simp [hin3, hin2, hin1] at h2]
    rw [show scanStep (primAux d 4 3).key (primAux d 4 3).inMST
        ((⊤ : WithTop α), (-1 : ℤ)) 1 = (⊤, -1) from by
      unfold scanStep
      rw [if_neg]
      intro hc
      have h2 := hc.1
      simp [hin3, hin2] at h2]
    rw [show scanStep (primAux d 4 3).key (primAux d 4 3).inMST
        ((⊤ : WithTop α), (-1 : ℤ)) 2 = (⊤, -1) from by
      unfold scanStep
      rw [if_neg]
      intro hc
      have h2 := hc.1
      simp [hin3] at h2]
    rw [show scanStep (primAux d 4 3).key (primAux d 4 3).inMST
        ((⊤ : WithTop α), (-1 : ℤ)) 3
        = ((primAux d 4 3).key 3, ((3 : ℕ) : ℤ)) from by
      unfold scanStep
      have hcnd : (primAux d 4 3).inMST 3 = false ∧
          (primAux d 4 3).key 3 < ((⊤ : WithTop α), (-1 : ℤ)).1 := by
        constructor
        · simp [hin3, hin2, hin1]
        · show (primAux d 4 3).key 3 < ⊤
          rw [hkey3_3]
          exact WithTop.coe_lt_top _
      rw [if_pos hcnd]]
  -- final parents
  refine ⟨?_, ?_, ?_⟩
  · show (primAux d 4 4).parent 1 = _
    rw [primAux_succ, primStep_parent_eq d 4 (primAux d 4 3) 3 hscan3 1]
    rw [if_neg]
    · exact hpar3_1
    · intro hc
      have h2 := hc.2.2.1
      simp [hin3, hin2] at h2
  · show (primAux d 4 4).parent 2 = _
    rw [primAux_succ, primStep_parent_eq d 4 (primAux d 4 3) 3 hscan3 2]
    rw [if_neg]
    · exact hpar3_2
    · intro hc
      have h2 := hc.2.2.1
      simp [hin3] at h2
  · show (primAux d 4 4).parent 3 = _
    rw [primAux_succ, primStep_parent_eq d 4 (primAux d 4 3) 3 hscan3 3]
    rw [if_neg (fun hc => hc.2.1 rfl)]
    exact hpar3_3
theorem squareAdj (parent : ℕ → ℤ)
    (hp1 : parent 1 = ((0 : ℕ) : ℤ)) (hp2 : parent 2 = ((1 : ℕ) : ℤ))
    (hp3 : parent 3 = ((0 : ℕ) : ℤ)) :
    buildAdjFromParent parent 4 = [[1, 3], [0, 2], [1], [0]] := by
  unfold buildAdjFromParent
  rw [show List.range (4 - 1) = [0, 1, 2] from rfl]
  simp only [List.foldl_cons, List.foldl_nil]
  show addEdge (addEdge (addEdge (List.replicate 4 []) 1
      (parent 1).toNat) 2 (parent 2).toNat) 3 (parent 3).toNat = _
  rw [hp1, hp2, hp3]
  decide

theorem squareMatch (d : ℕ → ℕ → α) :
    addGreedyPerfectMatching [2, 3] d [[1, 3], [0, 2], [1], [0]]
      = [[1, 3], [0, 2], [1, 3], [0, 2]] := by
  have hbest : findBestJ d [2, 3] [false, false] 0
      (([2, 3] : List ℕ).length) = ((1 : ℕ) : ℤ) := by
    unfold findBestJ
    rw [show List.range' (0 + 1) (([2, 3] : List ℕ).length - (0 + 1))
        = [1] from rfl]
    simp only [List.foldl_cons, List.foldl_nil]
    rw [show matchScanStep d [2, 3] [false, false] 0
        ((⊤ : WithTop α), (-1 : ℤ)) 1
        = (((d (([2, 3] : List ℕ).getD 0 0) (([2, 3] : List ℕ).getD 1 0)
            : α) : WithTop α), ((1 : ℕ) : ℤ)) from by
      unfold matchScanStep
      rw [if_pos (by decide), if_pos (WithTop.coe_lt_top _)]]
  unfold addGreedyPerfectMatching
  rw [if_neg (by decide)]
  show matchLoop d [2, 3] 0 [false, false] [[1, 3], [0, 2], [1], [0]] = _
  rw [matchLoop, dif_pos (by decide : (0 : ℕ) < ([2, 3] : List ℕ).length)]
  rw [if_neg (by decide :
    ¬ ([false, false] : List Bool).getD 0 true = true)]
  simp only [hbest]
  rw [if_pos (by decide : (0 : ℤ) ≤ ((1 : ℕ) : ℤ))]
  show matchLoop d [2, 3] 1 [true, true] [[1, 3], [0, 2], [1, 3], [0, 2]]
      = _
  rw [matchLoop, dif_pos (by decide : (1 : ℕ) < ([2, 3] : List ℕ).length)]
  rw [if_pos (by decide : ([true, true] : List Bool).getD 1 true = true)]
  show matchLoop d [2, 3] 2 [true, true] [[1, 3], [0, 2], [1, 3], [0, 2]]
      = _
  rw [matchLoop, dif_neg (by decide :
    ¬ (2 : ℕ) < ([2, 3] : List ℕ).length)]

theorem squareEuler :
    eulerianTourHierholzer 0 [[1, 3], [0, 2], [1, 3], [0, 2]]
      = [0, 3, 2, 1, 0] := by
  rw [eulerianTourHierholzer_eq]
  rw [eulerAuxG_push _ 0 _ (by decide)]
  show (eulerAuxG [[1], [0, 2], [1, 3], [2]] [3, 0]).1 = [0, 3, 2, 1, 0]
  rw [eulerAuxG_push _ 3 _ (by decide)]
  show (eulerAuxG [[1], [0, 2], [1], []] [2, 3, 0]).1 = [0, 3, 2, 1, 0]
  rw [eulerAuxG_push _ 2 _ (by decide)]
  show (eulerAuxG [[1], [0], [], []] [1, 2, 3, 0]).1 = [0, 3, 2, 1, 0]
  rw [eulerAuxG_push _ 1 _ (by decide)]
  show (eulerAuxG [[], [], [], []] [0, 1, 2, 3, 0]).1 = [0, 3, 2, 1, 0]
  rw [eulerAuxG_pop _ 0 _ (by decide)]
  rw [eulerAuxG_pop _ 1 _ (by decide)]
  rw [eulerAuxG_pop _ 2 _ (by decide)]
  rw [eulerAuxG_pop _ 3 _ (by decide)]
  rw [eulerAuxG_pop _ 0 _ (by decide)]
  rw [eulerAuxG_nil]
  rfl

/-- The complete pipeline on the unit-square distance pattern returns
the perimeter tour `0 → 3 → 2 → 1 → 0`. -/
theorem squareTour (d : ℕ → ℕ → α) (x : α)
    (h01 : d 0 1 = 1) (h02 : d 0 2 = x) (h03 : d 0 3 = 1)
    (h12 : d 1 2 = 1) (h13 : d 1 3 = x) (h23 : d 2 3 = 1)
    (hx1 : ¬ x < 1) (h1x : 1 < x) :
    christofidesTour d 4 = [0, 3, 2, 1, 0] := by
  obtain ⟨hp1, hp2, hp3⟩ := squarePrim d x h01 h02 h03 h12 h13 h23 hx1 h1x
  have hadj : buildAdjFromParent (primMST d 4) 4
      = [[1, 3], [0, 2], [1], [0]] := squareAdj (primMST d 4) hp1 hp2 hp3
  show rotateToZero (shortcutAux (eulerianTourHierholzer 0
      (addGreedyPerfectMatching (findOddDegreeVertices
        (buildAdjFromParent (primMST d 4) 4)) d
        (buildAdjFromParent (primMST d 4) 4)))
      (List.replicate 4 false)) ++ [0] = [0, 3, 2, 1, 0]
  rw [hadj, show findOddDegreeVertices [[1, 3], [0, 2], [1], [0]]
      = [2, 3] from by decide, squareMatch d, squareEuler]
  decide

theorem squareLength (d : ℕ → ℕ → α)
    (h03 : d 0 3 = 1) (h32 : d 3 2 = 1) (h21 : d 2 1 = 1)
    (h10 : d 1 0 = 1) :
    tourLength d [0, 3, 2, 1, 0] = 4 := by
  show d 0 3 + (d 3 2 + (d 2 1 + (d 1 0 + 0))) = 4
  rw [h03, h32, h21, h10]
  norm_num

/-- **C7**: for the four input points (0,0), (0,1), (1,1), (1,0) the
full pipeline — distance matrix, MST, parity, greedy matching, Eulerian
circuit, shortcutting — produces the tour `0 → 3 → 2 → 1 → 0`, whose
evaluated length is exactly `4`, the perimeter of the unit square. -/
theorem unitSquare_tour_length :
    tourLength (buildDistanceMatrix [⟨0, 0⟩, ⟨0, 1⟩, ⟨1, 1⟩, ⟨1, 0⟩])
      (christofidesTour
        (buildDistanceMatrix [⟨0, 0⟩, ⟨0, 1⟩, ⟨1, 1⟩, ⟨1, 0⟩]) 4)
      = 4 := by
  have h1x : (1 : ℝ) < Real.sqrt 2 := by
    rw [show (1 : ℝ) = Real.sqrt 1 from (Real.sqrt_one).symm]
    exact Real.sqrt_lt_sqrt (by norm_num) (by norm_num)
  have hx1 : ¬ Real.sqrt 2 < 1 := not_lt.2 (le_of_lt h1x)
  have h01 : buildDistanceMatrix [⟨0, 0⟩, ⟨0, 1⟩, ⟨1, 1⟩, ⟨1, 0⟩] 0 1
      = 1 := by
    show Real.sqrt (((0 : ℝ) - 0) * ((0 : ℝ) - 0)
      + ((0 : ℝ) - 1) * ((0 : ℝ) - 1)) = 1
    rw [show ((0 : ℝ) - 0) * ((0 : ℝ) - 0)
        + ((0 : ℝ) - 1) * ((0 : ℝ) - 1) = 1 from by norm_num]
    exact Real.sqrt_one
  have h02 : buildDistanceMatrix [⟨0, 0⟩, ⟨0, 1⟩, ⟨1, 1⟩, ⟨1, 0⟩] 0 2
      = Real.sqrt 2 := by
    show Real.sqrt (((0 : ℝ) - 1) * ((0 : ℝ) - 1)
      + ((0 : ℝ) - 1) * ((0 : ℝ) - 1)) = Real.sqrt 2
    rw [show ((0 : ℝ) - 1) * ((0 : ℝ) - 1)
        + ((0 : ℝ) - 1) * ((0 : ℝ) - 1) = 2 from by norm_num]
  have h03 : buildDistanceMatrix [⟨0, 0⟩, ⟨0, 1⟩, ⟨1, 1⟩, ⟨1, 0⟩] 0 3
      = 1 := by
    show Real.sqrt (((0 : ℝ) - 1) * ((0 : ℝ) - 1)
      + ((0 : ℝ) - 0) * ((0 : ℝ) - 0)) = 1
    rw [show ((0 : ℝ) - 1) * ((0 : ℝ) - 1)
        + ((0 : ℝ) - 0) * ((0 : ℝ) - 0) = 1 from by norm_num]
    exact Real.sqrt_one
  have h12 : buildDistanceMatrix [⟨0, 0⟩, ⟨0, 1⟩, ⟨1, 1⟩, ⟨1, 0⟩] 1 2
      = 1 := by
    show Real.sqrt (((0 : ℝ) - 1) * ((0 : ℝ) - 1)
      + ((1 : ℝ) - 1) * ((1 : ℝ) - 1)) = 1
    rw [show ((0 : ℝ) - 1) * ((0 : ℝ) - 1)
        + ((1 : ℝ) - 1) * ((1 : ℝ) - 1) = 1 from by norm_num]
    exact Real.sqrt_one
  have h13 : buildDistanceMatrix [⟨0, 0⟩, ⟨0, 1⟩, ⟨1, 1⟩, ⟨1, 0⟩] 1 3
      = Real.sqrt 2 := by
    show Real.sqrt (((0 : ℝ) - 1) * ((0 : ℝ) - 1)
      + ((1 : ℝ) - 0) * ((1 : ℝ) - 0)) = Real.sqrt 2
    rw [show ((0 : ℝ) - 1) * ((0 : ℝ) - 1)
        + ((1 : ℝ) - 0) * ((1 : ℝ) - 0) = 2 from by norm_num]
  have h23 : buildDistanceMatrix [⟨0, 0⟩, ⟨0, 1⟩, ⟨1, 1⟩, ⟨1, 0⟩] 2 3
      = 1 := by
    show Real.sqrt (((1 : ℝ) - 1) * ((1 : ℝ) - 1)
      + ((1 : ℝ) - 0) * ((1 : ℝ) - 0)) = 1
    rw [show ((1 : ℝ) - 1) * ((1 : ℝ) - 1)
        + ((1 : ℝ) - 0) * ((1 : ℝ) - 0) = 1 from by norm_num]
    exact Real.sqrt_one
  have h32 : buildDistanceMatrix [⟨0, 0⟩, ⟨0, 1⟩, ⟨1, 1⟩, ⟨1, 0⟩] 3 2
      = 1 := by
    show Real.sqrt (((1 : ℝ) - 1) * ((1 : ℝ) - 1)
      + ((0 : ℝ) - 1) * ((0 : ℝ) - 1)) = 1
    rw [show ((1 : ℝ) - 1) * ((1 : ℝ) - 1)
        + ((0 : ℝ) - 1) * ((0 : ℝ) - 1) = 1 from by norm_num]
    exact Real.sqrt_one
  have h21 : buildDistanceMatrix [⟨0, 0⟩, ⟨0, 1⟩, ⟨1, 1⟩, ⟨1, 0⟩] 2 1
      = 1 := by
    show Real.sqrt (((1 : ℝ) - 0) * ((1 : ℝ) - 0)
      + ((1 : ℝ) - 1) * ((1 : ℝ) - 1)) = 1
    rw [show ((1 : ℝ) - 0) * ((1 : ℝ) - 0)
        + ((1 : ℝ) - 1) * ((1 : ℝ) - 1) = 1 from by norm_num]
    exact Real.sqrt_one
  have h10 : buildDistanceMatrix [⟨0, 0⟩, ⟨0, 1⟩, ⟨1, 1⟩, ⟨1, 0⟩] 1 0
      = 1 := by
    show Real.sqrt (((0 : ℝ) - 0) * ((0 : ℝ) - 0)
      + ((1 : ℝ) - 0) * ((1 : ℝ) - 0)) = 1
    rw [show ((0 : ℝ) - 0) * ((0 : ℝ) - 0)
        + ((1 : ℝ) - 0) * ((1 : ℝ) - 0) = 1 from by norm_num]
    exact Real.sqrt_one
  rw [squareTour _ (Real.sqrt 2) h01 h02 h03 h12 h13 h23 hx1 h1x]
  exact squareLength _ h03 h32 h21 h10

theorem christofidesTour_wellformed_witness :
    (christofidesTour (fun _ _ => (1 : ℚ)) 2).length = 2 + 1 ∧
    ((christofidesTour (fun _ _ => (1 : ℚ)) 2).take 2).Perm
      (List.range 2) ∧
    (christofidesTour (fun _ _ => (1 : ℚ)) 2).headI = 0 ∧
    (christofidesTour (fun _ _ => (1 : ℚ)) 2).getLast? = some 0 :=
  christofidesTour_wellformed (fun _ _ => (1 : ℚ)) 2 (by omega)

/-! ### Minimality of Prim's spanning tree (C2)

The scan of `primMST` selects a vertex of minimum key among the
excluded vertices, the key of every excluded vertex records the
distance to its parent and lower-bounds the distance to every included
vertex, and parents of already-included vertices never change.  These
facts drive the classical cut-exchange argument. -/

theorem scan_min (key : ℕ → WithTop α) (inMST : ℕ → Bool) :
    ∀ (l : List ℕ) (acc : WithTop α × ℤ),
      (l.foldl (scanStep key inMST) acc).1 ≤ acc.1 ∧
      ∀ v ∈ l, inMST v = false →
        (l.foldl (scanStep key inMST) acc).1 ≤ key v
  | [], acc => ⟨le_refl _, fun v hv _ => absurd hv (List.not_mem_nil v)⟩
  | a :: t, acc => by
    rw [List.foldl_cons]
    by_cases hc : inMST a = false ∧ key a < acc.1
    · rw [show scanStep key inMST acc a = (key a, (a : ℤ)) from by
        unfold scanStep
        rw [if_pos hc]]
      obtain ⟨h1, h2⟩ := scan_min key inMST t (key a, (a : ℤ))
      refine ⟨le_trans h1 (le_of_lt hc.2), ?_⟩
      intro v hv hvin
      rcases List.mem_cons.1 hv with rfl | hvt
      · exact h1
      · exact h2 v hvt hvin
    · rw [show scanStep key inMST acc a = acc from by
        unfold scanStep
        rw [if_neg hc]]
      obtain ⟨h1, h2⟩ := scan_min key inMST t acc
      refine ⟨h1, ?_⟩
      intro v hv hvin
      rcases List.mem_cons.1 hv with rfl | hvt
      · have hnlt : ¬ key v < acc.1 := fun hlt => hc ⟨hvin, hlt⟩
        exact le_trans h1 (not_lt.1 hnlt)
      · exact h2 v hvt hvin

theorem scan_pair_cases (key : ℕ → WithTop α) (inMST : ℕ → Bool) :
    ∀ (l : List ℕ) (acc : WithTop α × ℤ),
      l.foldl (scanStep key inMST) acc = acc ∨
      ∃ v ∈ l, l.foldl (scanStep key inMST) acc = (key v, (v : ℤ)) ∧
        inMST v = false
  | [], _ => Or.inl rfl
  | a :: t, acc => by
    rw [List.foldl_cons]
    by_cases hc : inMST a = false ∧ key a < acc.1
    · rw [show scanStep key inMST acc a = (key a, (a : ℤ)) from by
        unfold scanStep
        rw [if_pos hc]]
      rcases scan_pair_cases key inMST t (key a, (a : ℤ)) with h | ⟨v, hv, h1, h2⟩
      · exact Or.inr ⟨a, List.mem_cons_self a t, h, hc.1⟩
      · exact Or.inr ⟨v, List.mem_cons_of_mem a hv, h1, h2⟩
    · rw [show scanStep key inMST acc a = acc from by
        unfold scanStep
        rw [if_neg hc]]
      rcases scan_pair_cases key inMST t acc with h | ⟨v, hv, h1, h2⟩
      · exact Or.inl h
      · exact Or.inr ⟨v, List.mem_cons_of_mem a hv, h1, h2⟩

/-- When the scan selects `u`, the key of `u` is minimal among the keys
of excluded vertices. -/
theorem minKeyScan_min (n : ℕ) (key : ℕ → WithTop α) (inMST : ℕ → Bool)
    (u : ℕ) (hscan : minKeyScan n key inMST = ((u : ℕ) : ℤ)) :
    ∀ v, v < n → inMST v = false → key u ≤ key v := by
  intro v hv hvin
  unfold minKeyScan at hscan
  rcases scan_pair_cases key inMST (List.range n) (⊤, -1)
    with h | ⟨w, hw, h1, h2⟩
  · rw [h] at hscan
    have hcon : (-1 : ℤ) = ((u : ℕ) : ℤ) := hscan
    omega
  · rw [h1] at hscan
    have hwu : ((w : ℕ) : ℤ) = ((u : ℕ) : ℤ) := hscan
    have hwu' : w = u := by omega
    have hfold1 : ((List.range n).foldl (scanStep key inMST) (⊤, -1)).1
        = key u := by
      rw [h1, hwu']
    have hle := (scan_min key inMST (List.range n) (⊤, -1)).2 v
      (List.mem_range.2 hv) hvin
    rw [hfold1] at hle
    exact hle

theorem primStep_of_neg (d : ℕ → ℕ → α) (n : ℕ) (s : PrimState α)
    (h : ¬ 0 ≤ minKeyScan n s.key s.inMST) : primStep d n s = s := by
  rw [primStep]
  simp only [if_neg h]

/-- Vertex `0` is included from the first iteration on. -/
theorem primAux_inMST0 (d : ℕ → ℕ → α) (n : ℕ) (hn : 1 ≤ n) :
    ∀ k, 1 ≤ k → (primAux d n k).inMST 0 = true
  | 0, h => absurd h (by omega)
  | 1, _ => by
    have hscan : minKeyScan n (primAux d n 0).key (primAux d n 0).inMST
        = ((0 : ℕ) : ℤ) := minKeyScan_init n hn
    show (primStep d n (primAux d n 0)).inMST 0 = true
    rw [primStep_inMST_eq d n _ 0 hscan 0, if_pos rfl]
  | k + 2, _ => by
    have ih := primAux_inMST0 d n hn (k + 1) (by omega)
    show (primStep d n (primAux d n (k + 1))).inMST 0 = true
    by_cases h : 0 ≤ minKeyScan n (primAux d n (k + 1)).key
        (primAux d n (k + 1)).inMST
    · obtain ⟨u, hu, hueq, hunot⟩ := minKeyScan_mem n _ _ h
      rw [primStep_inMST_eq d n _ u hueq 0]
      by_cases h0 : (0 : ℕ) = u
      · rw [if_pos h0]
      · rw [if_neg h0]
        exact ih
    · rw [primStep_of_neg d n _ h]
      exact ih

/-- The parent of vertex `0` stays at the sentinel `-1` forever. -/
theorem primAux_parent0 (d : ℕ → ℕ → α) (n : ℕ) (hn : 1 ≤ n) :
    ∀ k, (primAux d n k).parent 0 = -1
  | 0 => rfl
  | k + 1 => by
    have ih := primAux_parent0 d n hn k
    show (primStep d n (primAux d n k)).parent 0 = -1
    by_cases h : 0 ≤ minKeyScan n (primAux d n k).key (primAux d n k).inMST
    · obtain ⟨u, hu, hueq, hunot⟩ := minKeyScan_mem n _ _ h
      rw [primStep_parent_eq d n _ u hueq 0]
      rcases Nat.eq_zero_or_pos k with rfl | hk1
      · have hu0 : u = 0 := by
          have h0 : minKeyScan n (primAux d n 0).key (primAux d n 0).inMST
              = (0 : ℤ) := minKeyScan_init n hn
          rw [hueq] at h0
          omega
        rw [if_neg (by
          rintro ⟨-, hne, -, -⟩
          exact hne hu0.symm)]
        exact ih
      · have h0in := primAux_inMST0 d n hn k hk1
        rw [if_neg (by
          rintro ⟨-, -, h0f, -⟩
          rw [h0in] at h0f
          cases h0f)]
        exact ih
    · rw [primStep_of_neg d n _ h]
      exact ih

/-- Once a vertex is included, its membership and its parent never
change in later iterations. -/
theorem primAux_stable (d : ℕ → ℕ → α) (n : ℕ) :
    ∀ (j k : ℕ), k ≤ j → ∀ v, (primAux d n k).inMST v = true →
      (primAux d n j).inMST v = true ∧
      (primAux d n j).parent v = (primAux d n k).parent v
  | 0, k, hk, v, hv => by
    have hk0 : k = 0 := by omega
    subst hk0
    exact ⟨hv, rfl⟩
  | j + 1, k, hk, v, hv => by
    rcases Nat.eq_or_lt_of_le hk with rfl | hlt
    · exact ⟨hv, rfl⟩
    · have ih := primAux_stable d n j k (by omega) v hv
      show (primStep d n (primAux d n j)).inMST v = true ∧
        (primStep d n (primAux d n j)).parent v = (primAux d n k).parent v
      by_cases h : 0 ≤ minKeyScan n (primAux d n j).key (primAux d n j).inMST
      · obtain ⟨u, hu, hueq, hunot⟩ := minKeyScan_mem n _ _ h
        constructor
        · rw [primStep_inMST_eq d n _ u hueq v]
          by_cases hvu : v = u
          · rw [if_pos hvu]
          · rw [if_neg hvu]
            exact ih.1
        · rw [primStep_parent_eq d n _ u hueq v]
          rw [if_neg (by
            rintro ⟨-, -, hvf, -⟩
            rw [ih.1] at hvf
            cases hvf)]
          exact ih.2
      · rw [primStep_of_neg d n _ h]
        exact ih

/-- The Prim key invariant after `k ≥ 1` iterations: the key of every
excluded vertex `v` equals the distance from its recorded parent to
`v`, and lower-bounds the distance from every included vertex to `v`. -/
theorem primAux_key_inv (d : ℕ → ℕ → α) (n : ℕ) (hn : 1 ≤ n) :
    ∀ k, 1 ≤ k → k ≤ n →
    ∀ v, v < n → (primAux d n k).inMST v = false →
      (primAux d n k).key v
          = ((d ((primAux d n k).parent v).toNat v : α) : WithTop α) ∧
      ∀ u, u < n → (primAux d n k).inMST u = true →
        (primAux d n k).key v ≤ ((d u v : α) : WithTop α)
  | 0, h, _, _, _, _ => absurd h (by omega)
  | 1, _, _, v, hv, hvout => by
    have hscan : minKeyScan n (primAux d n 0).key (primAux d n 0).inMST
        = ((0 : ℕ) : ℤ) := minKeyScan_init n hn
    have h0in : (primAux d n 1).inMST 0 = true :=
      primAux_inMST0 d n hn 1 (le_refl 1)
    have hv0 : v ≠ 0 := by
      intro hc
      rw [hc, h0in] at hvout
      cases hvout
    have hkey0 : (primAux d n 0).key v = ⊤ := by
      show (if v = 0 then (0 : WithTop α) else ⊤) = ⊤
      rw [if_neg hv0]
    have hcond : v < n ∧ v ≠ 0 ∧ (primAux d n 0).inMST v = false
        ∧ ((d 0 v : α) : WithTop α) < (primAux d n 0).key v := by
      refine ⟨hv, hv0, rfl, ?_⟩
      rw [hkey0]
      exact WithTop.coe_lt_top _
    have hkey1 : (primAux d n 1).key v = ((d 0 v : α) : WithTop α) := by
      show (primStep d n (primAux d n 0)).key v = _
      rw [primStep_key_eq d n _ 0 hscan v, if_pos hcond]
    have hpar1 : (primAux d n 1).parent v = ((0 : ℕ) : ℤ) := by
      show (primStep d n (primAux d n 0)).parent v = _
      rw [primStep_parent_eq d n _ 0 hscan v, if_pos hcond]
    have hone : ∀ u, (primAux d n 1).inMST u = true → u = 0 := by
      intro u huin
      by_contra hu0
      rw [show (primAux d n 1).inMST u
          = (if u = 0 then true else (primAux d n 0).inMST u) from
          primStep_inMST_eq d n _ 0 hscan u, if_neg hu0] at huin
      exact Bool.noConfusion huin
    constructor
    · rw [hkey1, hpar1, Int.toNat_natCast]
    · intro u hu huin
      rw [hone u huin, hkey1]
  | k + 2, _, hk2, v, hv, hvout => by
    have hk1n : k + 1 < n := by omega
    have hscan0 := primAux_scan_nonneg d n hn (k + 1) hk1n
    obtain ⟨u, hu, hueq, hunot⟩ := minKeyScan_mem n _ _ hscan0
    have h1 : (primAux d n (k + 2)).inMST v
        = (if v = u then true else (primAux d n (k + 1)).inMST v) :=
      primStep_inMST_eq d n _ u hueq v
    rw [h1] at hvout
    by_cases hvu : v = u
    · rw [if_pos hvu] at hvout
      cases hvout
    rw [if_neg hvu] at hvout
    obtain ⟨ih1, ih2⟩ := primAux_key_inv d n hn (k + 1) (by omega)
      (by omega) v hv hvout
    have hkey' : (primAux d n (k + 2)).key v
        = (if v < n ∧ v ≠ u ∧ (primAux d n (k + 1)).inMST v = false
            ∧ ((d u v : α) : WithTop α) < (primAux d n (k + 1)).key v
          then ((d u v : α) : WithTop α)
          else (primAux d n (k + 1)).key v) :=
      primStep_key_eq d n _ u hueq v
    have hpar' : (primAux d n (k + 2)).parent v
        = (if v < n ∧ v ≠ u ∧ (primAux d n (k + 1)).inMST v = false
            ∧ ((d u v : α) : WithTop α) < (primAux d n (k + 1)).key v
          then ((u : ℕ) : ℤ)
          else (primAux d n (k + 1)).parent v) :=
      primStep_parent_eq d n _ u hueq v
    have hin' : ∀ w, (primAux d n (k + 2)).inMST w
        = (if w = u then true else (primAux d n (k + 1)).inMST w) :=
      fun w => primStep_inMST_eq d n _ u hueq w
    by_cases hlt : ((d u v : α) : WithTop α) < (primAux d n (k + 1)).key v
    · have hcond : v < n ∧ v ≠ u ∧ (primAux d n (k + 1)).inMST v = false
          ∧ ((d u v : α) : WithTop α) < (primAux d n (k + 1)).key v :=
        ⟨hv, hvu, hvout, hlt⟩
      constructor
      · rw [hkey', if_pos hcond, hpar', if_pos hcond, Int.toNat_natCast]
      · intro w hw hwin
        rw [hin' w] at hwin
        rw [hkey', if_pos hcond]
        by_cases hwu : w = u
        · rw [hwu]
        · rw [if_neg hwu] at hwin
          exact le_trans (le_of_lt hlt) (ih2 w hw hwin)
    · have hcond : ¬ (v < n ∧ v ≠ u ∧ (primAux d n (k + 1)).inMST v = false
          ∧ ((d u v : α) : WithTop α) < (primAux d n (k + 1)).key v) :=
        fun hc => hlt hc.2.2.2
      constructor
      · rw [hkey', if_neg hcond, hpar', if_neg hcond]
        exact ih1
      · intro w hw hwin
        rw [hin' w] at hwin
        rw [hkey', if_neg hcond]
        by_cases hwu : w = u
        · rw [hwu] at hwin ⊢
          exact not_lt.1 hlt
        · rw [if_neg hwu] at hwin
          exact ih2 w hw hwin

/-- The cut-minimality property of the scan choice: when the scan at
iteration `k + 1` selects `u`, the edge from `u` to its recorded parent
is at most as heavy as every edge crossing the cut between included and
excluded vertices. -/
theorem prim_cut_min (d : ℕ → ℕ → α) (n : ℕ) (hn : 1 ≤ n)
    (k : ℕ) (hk1 : 1 ≤ k) (hkn : k < n) (u : ℕ) (hu : u < n)
    (hueq : minKeyScan n (primAux d n k).key (primAux d n k).inMST
      = ((u : ℕ) : ℤ))
    (hunot : (primAux d n k).inMST u = false) :
    ∀ a b, a < n → b < n → (primAux d n k).inMST a = true →
      (primAux d n k).inMST b = false →
      d ((primAux d n k).parent u).toNat u ≤ d a b := by
  intro a b ha hb hain hbout
  obtain ⟨hu1, _⟩ := primAux_key_inv d n hn k hk1 (by omega) u hu hunot
  obtain ⟨_, hb2⟩ := primAux_key_inv d n hn k hk1 (by omega) b hb hbout
  have hmin := minKeyScan_min n (primAux d n k).key (primAux d n k).inMST
    u hueq b hb hbout
  have hchain : ((d ((primAux d n k).parent u).toNat u : α) : WithTop α)
      ≤ ((d a b : α) : WithTop α) := by
    rw [← hu1]
    exact le_trans hmin (hb2 a ha hain)
  exact WithTop.coe_le_coe.1 hchain

/-- The weight of an undirected edge over the distance matrix `d`,
written symmetrically so that it does not depend on the orientation of
the underlying pair. -/
def edgeW (d : ℕ → ℕ → α) : Sym2 ℕ → α :=
  Sym2.lift ⟨fun a b => d (min a b) (max a b), by
    intro a b
    show d (min a b) (max a b) = d (min b a) (max b a)
    rw [min_comm, max_comm]⟩

theorem edgeW_mk (d : ℕ → ℕ → α) (a b : ℕ) :
    edgeW d (Sym2.mk (a, b)) = d (min a b) (max a b) := rfl

theorem edgeW_mk_sym (d : ℕ → ℕ → α) (hsym : ∀ i j, d i j = d j i)
    (a b : ℕ) : edgeW d (Sym2.mk (a, b)) = d a b := by
  rw [edgeW_mk]
  rcases le_total a b with h | h
  · rw [min_eq_left h, max_eq_right h]
  · rw [min_eq_right h, max_eq_left h, hsym]

/-- The edge set determined by a parent mapping: one undirected edge
`{v, p v}` for every vertex `v` other than `0`. -/
def parentEdges (n : ℕ) (p : Fin n → Fin n) : Finset (Sym2 (Fin n)) :=
  (Finset.univ.filter (fun v : Fin n => (v : ℕ) ≠ 0)).image
    (fun v => Sym2.mk (v, p v))

/-- A finite edge set is a spanning tree of the complete graph on
`Fin n` when the simple graph it generates is a tree (connected and
acyclic) and no edge is a self-loop. -/
def SpanningTreeEdges (n : ℕ) (E : Finset (Sym2 (Fin n))) : Prop :=
  (SimpleGraph.fromEdgeSet (↑E : Set (Sym2 (Fin n)))).IsTree ∧
  ∀ e ∈ E, ¬ e.IsDiag

/-- Membership of `v` on the parent chain of `w`: either `w = v` or the
chain continues at `p w`; the rank guard makes the recursion well
founded. -/
def hits {n : ℕ} (p : Fin n → Fin n) (r : Fin n → ℕ) (v w : Fin n) :
    Prop :=
  w = v ∨ if h : r (p w) < r w then hits p r v (p w) else False
termination_by r w
decreasing_by exact h

theorem hits_unfold {n : ℕ} (p : Fin n → Fin n) (r : Fin n → ℕ)
    (v w : Fin n) :
    hits p r v w
      = (w = v ∨ if _ : r (p w) < r w then hits p r v (p w) else False) := by
  rw [hits]

theorem hits_self {n : ℕ} (p : Fin n → Fin n) (r : Fin n → ℕ)
    (v : Fin n) : hits p r v v := by
  rw [hits_unfold]
  exact Or.inl rfl

theorem hits_rank {n : ℕ} (p : Fin n → Fin n) (r : Fin n → ℕ)
    (v : Fin n) : ∀ w, hits p r v w → r v ≤ r w
  | w, h => by
    rw [hits_unfold] at h
    rcases h with rfl | hr
    · exact le_refl _
    · by_cases hlt : r (p w) < r w
      · rw [dif_pos hlt] at hr
        exact le_trans (hits_rank p r v (p w) hr) (le_of_lt hlt)
      · rw [dif_neg hlt] at hr
        exact hr.elim
termination_by w _ => r w
decreasing_by exact hlt

theorem hits_iff_step {n : ℕ} (p : Fin n → Fin n) (r : Fin n → ℕ)
    (v w : Fin n) (hwv : w ≠ v) (hlt : r (p w) < r w) :
    hits p r v w ↔ hits p r v (p w) := by
  rw [hits_unfold p r v w]
  constructor
  · rintro (h | h)
    · exact absurd h hwv
    · rw [dif_pos hlt] at h
      exact h
  · intro h
    exact Or.inr (by
      rw [dif_pos hlt]
      exact h)

theorem parentEdges_adj {n : ℕ} (p : Fin n → Fin n) (v : Fin n)
    (hv : (v : ℕ) ≠ 0) (hne : p v ≠ v) :
    (SimpleGraph.fromEdgeSet (↑(parentEdges n p) : Set (Sym2 (Fin n)))).Adj
      v (p v) := by
  rw [SimpleGraph.fromEdgeSet_adj]
  constructor
  · rw [Finset.mem_coe]
    exact Finset.mem_image.2
      ⟨v, Finset.mem_filter.2 ⟨Finset.mem_univ v, hv⟩, rfl⟩
  · exact hne.symm

theorem parentEdges_reach {n : ℕ} (hn : 0 < n) (p : Fin n → Fin n)
    (r : Fin n → ℕ)
    (hne : ∀ v : Fin n, (v : ℕ) ≠ 0 → p v ≠ v)
    (hdesc : ∀ v : Fin n, (v : ℕ) ≠ 0 → r (p v) < r v) :
    ∀ v : Fin n,
      (SimpleGraph.fromEdgeSet
        (↑(parentEdges n p) : Set (Sym2 (Fin n)))).Reachable v ⟨0, hn⟩
  | v => by
    by_cases hv0 : (v : ℕ) = 0
    · have hveq : v = (⟨0, hn⟩ : Fin n) := Fin.ext hv0
      subst hveq
      exact SimpleGraph.Reachable.refl v
    · exact ((parentEdges_adj p v hv0 (hne v hv0)).reachable).trans
        (parentEdges_reach hn p r hne hdesc (p v))
termination_by v => r v
decreasing_by exact hdesc v hv0

/-- Deleting any parent edge `{w, p w}` disconnects `w` from `p w`:
the predicate `hits p r w` separates the two sides, because every other
parent edge joins a vertex and its own parent, which lie on the same
side. -/
theorem parentEdges_no_reach {n : ℕ} (p : Fin n → Fin n) (r : Fin n → ℕ)
    (hdesc : ∀ v : Fin n, (v : ℕ) ≠ 0 → r (p v) < r v)
    (w : Fin n) (hw : (w : ℕ) ≠ 0) :
    ¬ ((SimpleGraph.fromEdgeSet (↑(parentEdges n p) : Set (Sym2 (Fin n))))
        \ SimpleGraph.fromEdgeSet {Sym2.mk (w, p w)}).Reachable w (p w) := by
  intro hreach
  have hpw : ¬ hits p r w (p w) := by
    intro hc
    have h1 := hits_rank p r w (p w) hc
    have h2 := hdesc w hw
    omega
  obtain ⟨q⟩ := hreach
  suffices hsuf : ∀ (a b : Fin n),
      ((SimpleGraph.fromEdgeSet (↑(parentEdges n p) : Set (Sym2 (Fin n))))
        \ SimpleGraph.fromEdgeSet {Sym2.mk (w, p w)}).Walk a b →
      hits p r w a → hits p r w b by
    exact hpw (hsuf w (p w) q (hits_self p r w))
  intro a b q'
  induction q' with
  | nil => exact id
  | @cons x y z hadj q'' ih =>
    intro hx
    apply ih
    rw [SimpleGraph.sdiff_adj] at hadj
    obtain ⟨hG, hnotdel⟩ := hadj
    rw [SimpleGraph.fromEdgeSet_adj] at hG
    obtain ⟨hmem, hxy⟩ := hG
    obtain ⟨c, hcf, hceq⟩ := Finset.mem_image.1 (Finset.mem_coe.1 hmem)
    have hc0 : (c : ℕ) ≠ 0 := (Finset.mem_filter.1 hcf).2
    have hxyne : Sym2.mk (x, y) ≠ Sym2.mk (w, p w) := by
      intro hcon
      exact hnotdel ((SimpleGraph.fromEdgeSet_adj _).2
        ⟨by
          rw [hcon]
          exact Set.mem_singleton _, hxy⟩)
    have hcw : c ≠ w := by
      intro hcon
      apply hxyne
      rw [← hceq, hcon]
    have hstep := hits_iff_step p r w c hcw (hdesc c hc0)
    rcases Sym2.eq_iff.1 hceq with ⟨h1, h2⟩ | ⟨h1, h2⟩
    · -- c = x, p c = y
      rw [← h2]
      exact hstep.1 (by
        rw [h1]
        exact hx)
    · -- c = y, p c = x
      rw [← h1]
      exact hstep.2 (by
        rw [h2]
        exact hx)

theorem parentEdges_isAcyclic {n : ℕ} (p : Fin n → Fin n)
    (r : Fin n → ℕ)
    (hdesc : ∀ v : Fin n, (v : ℕ) ≠ 0 → r (p v) < r v) :
    (SimpleGraph.fromEdgeSet
      (↑(parentEdges n p) : Set (Sym2 (Fin n)))).IsAcyclic := by
  rw [SimpleGraph.isAcyclic_iff_forall_adj_isBridge]
  intro x y hadj
  obtain ⟨hmem1, hxy⟩ := (SimpleGraph.fromEdgeSet_adj _).1 hadj
  obtain ⟨c, hcf, hceq⟩ := Finset.mem_image.1 (Finset.mem_coe.1 hmem1)
  have hc0 : (c : ℕ) ≠ 0 := (Finset.mem_filter.1 hcf).2
  rw [SimpleGraph.isBridge_iff]
  refine ⟨hadj, ?_⟩
  rcases Sym2.eq_iff.1 hceq with ⟨h1, h2⟩ | ⟨h1, h2⟩
  · -- c = x, p c = y
    intro hr
    apply parentEdges_no_reach p r hdesc c hc0
    rw [h2, h1]
    exact hr
  · -- c = y, p c = x
    intro hr
    apply parentEdges_no_reach p r hdesc c hc0
    rw [h2, h1]
    rw [show Sym2.mk (x, y) = Sym2.mk (y, x) from Sym2.eq_swap] at hr
    exact hr.symm

theorem parentEdges_isTree (n : ℕ) (hn : 0 < n) (p : Fin n → Fin n)
    (r : Fin n → ℕ)
    (hne : ∀ v : Fin n, (v : ℕ) ≠ 0 → p v ≠ v)
    (hdesc : ∀ v : Fin n, (v : ℕ) ≠ 0 → r (p v) < r v) :
    (SimpleGraph.fromEdgeSet
      (↑(parentEdges n p) : Set (Sym2 (Fin n)))).IsTree := by
  constructor
  · haveI : Nonempty (Fin n) := ⟨⟨0, hn⟩⟩
    constructor
    intro a b
    exact (parentEdges_reach hn p r hne hdesc a).trans
      (parentEdges_reach hn p r hne hdesc b).symm
  · exact parentEdges_isAcyclic p r hdesc

theorem parentEdges_nondiag (n : ℕ) (p : Fin n → Fin n)
    (hne : ∀ v : Fin n, (v : ℕ) ≠ 0 → p v ≠ v) :
    ∀ e ∈ parentEdges n p, ¬ e.IsDiag := by
  intro e he
  obtain ⟨c, hcf, hceq⟩ := Finset.mem_image.1 he
  have hc0 : (c : ℕ) ≠ 0 := (Finset.mem_filter.1 hcf).2
  rw [← hceq, Sym2.mk_isDiag_iff]
  exact (hne c hc0).symm

theorem parentEdges_card (n : ℕ) (hn : 0 < n) (p : Fin n → Fin n)
    (r : Fin n → ℕ)
    (hdesc : ∀ v : Fin n, (v : ℕ) ≠ 0 → r (p v) < r v) :
    (parentEdges n p).card = n - 1 := by
  have hinj : Set.InjOn (fun v => Sym2.mk (v, p v))
      ↑(Finset.univ.filter (fun v : Fin n => (v : ℕ) ≠ 0)) := by
    intro a ha b hb heq
    have ha2 : (a : ℕ) ≠ 0 := (Finset.mem_filter.1 (Finset.mem_coe.1 ha)).2
    have hb2 : (b : ℕ) ≠ 0 := (Finset.mem_filter.1 (Finset.mem_coe.1 hb)).2
    have heq' : Sym2.mk (a, p a) = Sym2.mk (b, p b) := heq
    rcases Sym2.eq_iff.1 heq' with ⟨h1, h2⟩ | ⟨h1, h2⟩
    · exact h1
    · have hda := hdesc a ha2
      have hdb := hdesc b hb2
      rw [h2] at hda
      rw [← h1] at hdb
      omega
  unfold parentEdges
  rw [Finset.card_image_of_injOn hinj]
  have hferase : Finset.univ.filter (fun v : Fin n => (v : ℕ) ≠ 0)
      = Finset.univ.erase ⟨0, hn⟩ := by
    ext x
    rw [Finset.mem_filter, Finset.mem_erase]
    constructor
    · rintro ⟨hu, hx⟩
      exact ⟨fun hc => hx (by rw [hc]), hu⟩
    · rintro ⟨hx, hu⟩
      exact ⟨hu, fun hc => hx (Fin.ext hc)⟩
  rw [hferase, Finset.card_erase_of_mem (Finset.mem_univ _),
    Finset.card_univ, Fintype.card_fin]

/-- Every walk from outside a vertex set into it crosses the boundary:
its edge list splits around an edge whose tail is outside and whose
head is inside. -/
theorem walk_cross {V : Type} {G : SimpleGraph V} (P : V → Prop)
    {a b : V} (w : G.Walk a b) :
    ¬ P a → P b →
      ∃ (c c' : V) (w₁ : G.Walk a c) (w₂ : G.Walk c' b),
        ¬ P c ∧ P c' ∧ G.Adj c c' ∧
        w.edges = w₁.edges ++ Sym2.mk (c, c') :: w₂.edges := by
  induction w with
  | nil =>
    intro hna hb
    exact absurd hb hna
  | @cons x y z h q ih =>
    intro hna hb
    by_cases hm : P y
    · exact ⟨x, y, SimpleGraph.Walk.nil, q, hna, hm, h, by
        rw [SimpleGraph.Walk.edges_cons, SimpleGraph.Walk.edges_nil,
          List.nil_append]⟩
    · obtain ⟨c, c', w₁, w₂, hc, hc', hadj, hedges⟩ := ih hm hb
      exact ⟨c, c', SimpleGraph.Walk.cons h w₁, w₂, hc, hc', hadj, by
        rw [SimpleGraph.Walk.edges_cons, SimpleGraph.Walk.edges_cons,
          hedges, List.cons_append]⟩

/-- Replacing one edge of a connected edge set by a detour keeps the
graph connected: every kept edge is still available and the removed
edge's endpoints stay reachable. -/
theorem connected_swap {V : Type} (E E' : Set (Sym2 V)) (f : Sym2 V)
    (hconn : (SimpleGraph.fromEdgeSet E).Connected)
    (hkeep : ∀ g ∈ E, g ≠ f → g ∈ E')
    (hf : ∀ a b : V, Sym2.mk (a, b) = f →
      (SimpleGraph.fromEdgeSet E').Reachable a b) :
    (SimpleGraph.fromEdgeSet E').Connected := by
  have hreach : ∀ a b : V, (SimpleGraph.fromEdgeSet E).Reachable a b →
      (SimpleGraph.fromEdgeSet E').Reachable a b := by
    intro a b hab
    obtain ⟨w⟩ := hab
    induction w with
    | nil => exact SimpleGraph.Reachable.refl _
    | @cons x y z h q ih =>
      refine SimpleGraph.Reachable.trans ?_ ih
      obtain ⟨hmem, hxy⟩ := (SimpleGraph.fromEdgeSet_adj _).1 h
      by_cases hgf : Sym2.mk (x, y) = f
      · exact hf x y hgf
      · exact ((SimpleGraph.fromEdgeSet_adj _).2
          ⟨hkeep _ hmem hgf, hxy⟩).reachable
  haveI : Nonempty V := hconn.nonempty
  constructor
  intro a b
  exact hreach a b (hconn.preconnected a b)

/-- Cut-exchange: in a connected loop-free edge set `E` with `n - 1`
edges, a minimum-weight crossing edge `{x, y}` not in `E` can replace
some crossing edge `f` of `E` without increasing the total weight or
breaking connectivity. -/
theorem exchange_step (d : ℕ → ℕ → α) (n : ℕ)
    (S : Fin n → Prop)
    (E : Finset (Sym2 (Fin n)))
    (hconn : (SimpleGraph.fromEdgeSet (↑E : Set (Sym2 (Fin n)))).Connected)
    (hcard : E.card = n - 1) (hnd : ∀ e ∈ E, ¬ e.IsDiag)
    (x y : Fin n) (hx : ¬ S x) (hy : S y) (hxy : x ≠ y)
    (he : Sym2.mk (x, y) ∉ E)
    (hmin : ∀ a b : Fin n, S a → ¬ S b →
      edgeW d (Sym2.map Fin.val (Sym2.mk (x, y)))
        ≤ edgeW d (Sym2.map Fin.val (Sym2.mk (b, a)))) :
    ∃ f ∈ E, (∃ c c' : Fin n, ¬ S c ∧ S c' ∧ f = Sym2.mk (c, c')) ∧
      (SimpleGraph.fromEdgeSet
        (↑(insert (Sym2.mk (x, y)) (E.erase f)) : Set (Sym2 (Fin n)))).Connected ∧
      (insert (Sym2.mk (x, y)) (E.erase f)).card = n - 1 ∧
      (∀ g ∈ insert (Sym2.mk (x, y)) (E.erase f), ¬ g.IsDiag) ∧
      ∑ g ∈ insert (Sym2.mk (x, y)) (E.erase f), edgeW d (Sym2.map Fin.val g)
        ≤ ∑ g ∈ E, edgeW d (Sym2.map Fin.val g) := by
  obtain ⟨w0⟩ := hconn.preconnected x y
  obtain ⟨pw, hpw⟩ := w0.toPath
  obtain ⟨c, c', w₁, w₂, hc, hc', hadj, hedges⟩ := walk_cross S pw hx hy
  have hnodup : pw.edges.Nodup := hpw.isTrail.edges_nodup
  rw [hedges, List.nodup_append] at hnodup
  obtain ⟨hnd1, hnd2, hdisj⟩ := hnodup
  have hf1 : Sym2.mk (c, c') ∉ w₁.edges :=
    fun hcon => hdisj hcon (List.mem_cons_self _ _)
  have hf2 : Sym2.mk (c, c') ∉ w₂.edges := (List.nodup_cons.1 hnd2).1
  have hfE : Sym2.mk (c, c') ∈ E :=
    Finset.mem_coe.1 ((SimpleGraph.fromEdgeSet_adj _).1 hadj).1
  have hfne : Sym2.mk (c, c') ≠ Sym2.mk (x, y) := by
    intro hcon
    rw [hcon] at hfE
    exact he hfE
  have hkeepw : ∀ (aa bb : Fin n)
      (wq : (SimpleGraph.fromEdgeSet (↑E : Set (Sym2 (Fin n)))).Walk aa bb),
      Sym2.mk (c, c') ∉ wq.edges →
      ∀ g ∈ wq.edges,
        g ∈ (SimpleGraph.fromEdgeSet
          (↑(insert (Sym2.mk (x, y)) (E.erase (Sym2.mk (c, c'))))
            : Set (Sym2 (Fin n)))).edgeSet := by
    intro aa bb wq hnmem g hg
    have hgE := wq.edges_subset_edgeSet hg
    rw [SimpleGraph.edgeSet_fromEdgeSet] at hgE ⊢
    obtain ⟨hgE1, hgE2⟩ := hgE
    refine ⟨?_, hgE2⟩
    have hgnef : g ≠ Sym2.mk (c, c') := by
      intro hcon
      rw [hcon] at hg
      exact hnmem hg
    exact Finset.mem_coe.2 (Finset.mem_insert.2 (Or.inr
      (Finset.mem_erase.2 ⟨hgnef, Finset.mem_coe.1 hgE1⟩)))
  have hw1' : (SimpleGraph.fromEdgeSet
      (↑(insert (Sym2.mk (x, y)) (E.erase (Sym2.mk (c, c'))))
        : Set (Sym2 (Fin n)))).Reachable x c :=
    ⟨w₁.transfer _ (hkeepw x c w₁ hf1)⟩
  have hw2' : (SimpleGraph.fromEdgeSet
      (↑(insert (Sym2.mk (x, y)) (E.erase (Sym2.mk (c, c'))))
        : Set (Sym2 (Fin n)))).Reachable c' y :=
    ⟨w₂.transfer _ (hkeepw c' y w₂ hf2)⟩
  have hxy' : (SimpleGraph.fromEdgeSet
      (↑(insert (Sym2.mk (x, y)) (E.erase (Sym2.mk (c, c'))))
        : Set (Sym2 (Fin n)))).Adj x y :=
    (SimpleGraph.fromEdgeSet_adj _).2
      ⟨Finset.mem_coe.2 (Finset.mem_insert_self _ _), hxy⟩
  have hcc' : (SimpleGraph.fromEdgeSet
      (↑(insert (Sym2.mk (x, y)) (E.erase (Sym2.mk (c, c'))))
        : Set (Sym2 (Fin n)))).Reachable c c' :=
    hw1'.symm.trans (hxy'.reachable.trans hw2'.symm)
  have hconn' : (SimpleGraph.fromEdgeSet
      (↑(insert (Sym2.mk (x, y)) (E.erase (Sym2.mk (c, c'))))
        : Set (Sym2 (Fin n)))).Connected := by
    apply connected_swap (↑E) _ (Sym2.mk (c, c')) hconn
    · intro g hg hgne
      exact Finset.mem_coe.2 (Finset.mem_insert.2 (Or.inr
        (Finset.mem_erase.2 ⟨hgne, Finset.mem_coe.1 hg⟩)))
    · intro a b hab
      rcases Sym2.eq_iff.1 hab with ⟨h1, h2⟩ | ⟨h1, h2⟩
      · rw [h1, h2]
        exact hcc'
      · rw [h1, h2]
        exact hcc'.symm
  have hEpos : 1 ≤ n - 1 := by
    have h1 : 1 ≤ E.card := Finset.card_pos.2 ⟨_, hfE⟩
    omega
  have hcard' : (insert (Sym2.mk (x, y))
      (E.erase (Sym2.mk (c, c')))).card = n - 1 := by
    rw [Finset.card_insert_of_not_mem
        (fun hcon => he (Finset.mem_of_mem_erase hcon)),
      Finset.card_erase_of_mem hfE, hcard]
    omega
  have hnd' : ∀ g ∈ insert (Sym2.mk (x, y)) (E.erase (Sym2.mk (c, c'))),
      ¬ g.IsDiag := by
    intro g hg
    rcases Finset.mem_insert.1 hg with rfl | hg'
    · rw [Sym2.mk_isDiag_iff]
      exact hxy
    · exact hnd g (Finset.mem_of_mem_erase hg')
  have hwle : ∑ g ∈ insert (Sym2.mk (x, y)) (E.erase (Sym2.mk (c, c'))),
      edgeW d (Sym2.map Fin.val g)
      ≤ ∑ g ∈ E, edgeW d (Sym2.map Fin.val g) := by
    rw [Finset.sum_insert
      (fun hcon => he (Finset.mem_of_mem_erase hcon))]
    rw [← Finset.add_sum_erase E (fun g => edgeW d (Sym2.map Fin.val g))
      hfE]
    exact add_le_add_right (hmin c' c hc' hc) _
  exact ⟨Sym2.mk (c, c'), hfE, ⟨c, c', hc, hc', rfl⟩, hconn', hcard',
    hnd', hwle⟩

/-- The parent mapping of `primMST` as a function into `Fin n`; the
modulus is a no-op for the in-range values the invariant provides. -/
def primParentF (d : ℕ → ℕ → α) (n : ℕ) (hn : 0 < n) : Fin n → Fin n :=
  fun v => ⟨(primMST d n (v : ℕ)).toNat % n, Nat.mod_lt _ hn⟩

theorem primParentF_val (d : ℕ → ℕ → α) (n : ℕ) (hn : 0 < n) (v : Fin n)
    (hv : (primMST d n (v : ℕ)).toNat < n) :
    ((primParentF d n hn v : Fin n) : ℕ) = (primMST d n (v : ℕ)).toNat := by
  show (primMST d n (v : ℕ)).toNat % n = _
  exact Nat.mod_eq_of_lt hv

/-- The set of tree edges recorded after `k` iterations of Prim's
loop: one edge per included vertex other than `0`, pointing at its
(final, by stability) parent. -/
def primEdges (d : ℕ → ℕ → α) (n : ℕ) (hn : 0 < n) (k : ℕ) :
    Finset (Sym2 (Fin n)) :=
  (Finset.univ.filter (fun v : Fin n =>
      (v : ℕ) ≠ 0 ∧ (primAux d n k).inMST (v : ℕ) = true)).image
    (fun v => Sym2.mk (v, primParentF d n hn v))

theorem primEdges_one (d : ℕ → ℕ → α) (n : ℕ) (hn : 1 ≤ n) :
    primEdges d n hn 1 = ∅ := by
  have hscan : minKeyScan n (primAux d n 0).key (primAux d n 0).inMST
      = ((0 : ℕ) : ℤ) := minKeyScan_init n hn
  have hfilt : (Finset.univ.filter (fun v : Fin n =>
      (v : ℕ) ≠ 0 ∧ (primAux d n 1).inMST (v : ℕ) = true)) = ∅ := by
    rw [Finset.filter_eq_empty_iff]
    intro v _
    rintro ⟨hv0, hvin⟩
    rw [show (primAux d n 1).inMST (v : ℕ)
        = (if (v : ℕ) = 0 then true else (primAux d n 0).inMST (v : ℕ)) from
        primStep_inMST_eq d n _ 0 hscan (v : ℕ), if_neg hv0] at hvin
    exact Bool.noConfusion hvin
  unfold primEdges
  rw [hfilt, Finset.image_empty]

theorem primEdges_succ (d : ℕ → ℕ → α) (n : ℕ) (hn : 1 ≤ n)
    (k : ℕ) (hk1 : 1 ≤ k)
    (u : ℕ) (hu : u < n)
    (hueq : minKeyScan n (primAux d n k).key (primAux d n k).inMST
      = ((u : ℕ) : ℤ))
    (hunot : (primAux d n k).inMST u = false) :
    primEdges d n hn (k + 1)
      = insert (Sym2.mk (⟨u, hu⟩, primParentF d n hn ⟨u, hu⟩))
          (primEdges d n hn k) := by
  have hu0 : u ≠ 0 := by
    intro hcon
    rw [hcon, primAux_inMST0 d n hn k hk1] at hunot
    cases hunot
  have hfilt : (Finset.univ.filter (fun v : Fin n =>
      (v : ℕ) ≠ 0 ∧ (primAux d n (k + 1)).inMST (v : ℕ) = true))
      = insert (⟨u, hu⟩ : Fin n)
          (Finset.univ.filter (fun v : Fin n =>
            (v : ℕ) ≠ 0 ∧ (primAux d n k).inMST (v : ℕ) = true)) := by
    ext v
    rw [Finset.mem_insert, Finset.mem_filter, Finset.mem_filter]
    rw [show (primAux d n (k + 1)).inMST (v : ℕ)
        = (if (v : ℕ) = u then true else (primAux d n k).inMST (v : ℕ))
        from primStep_inMST_eq d n _ u hueq (v : ℕ)]
    constructor
    · rintro ⟨-, hv0, hvin⟩
      by_cases hvu : (v : ℕ) = u
      · exact Or.inl (Fin.ext hvu)
      · rw [if_neg hvu] at hvin
        exact Or.inr ⟨Finset.mem_univ v, hv0, hvin⟩
    · rintro (rfl | ⟨-, hv0, hvin⟩)
      · refine ⟨Finset.mem_univ _, hu0, ?_⟩
        rw [if_pos rfl]
      · refine ⟨Finset.mem_univ _, hv0, ?_⟩
        by_cases hvu : (v : ℕ) = u
        · rw [if_pos hvu]
        · rw [if_neg hvu]
          exact hvin
  unfold primEdges
  rw [hfilt, Finset.image_insert]

theorem primEdges_endpoints (d : ℕ → ℕ → α) (n : ℕ) (hn : 1 ≤ n)
    (k : ℕ) (hk1 : 1 ≤ k) (hkn : k ≤ n) :
    ∀ e ∈ primEdges d n hn k, ∃ v w : Fin n,
      e = Sym2.mk (v, w) ∧ (primAux d n k).inMST (v : ℕ) = true ∧
      (primAux d n k).inMST (w : ℕ) = true := by
  intro e he
  obtain ⟨v, hvf, hveq⟩ := Finset.mem_image.1 he
  obtain ⟨-, hv0, hvin⟩ := Finset.mem_filter.1 hvf
  refine ⟨v, primParentF d n hn v, hveq.symm, hvin, ?_⟩
  obtain ⟨r, hA, hB, hC⟩ := primAux_parent_inv d n hn k hk1 hkn
  obtain ⟨-, hor⟩ := hB (v : ℕ) v.isLt hvin
  rcases hor with h0 | ⟨q1, q2, q3, q4, q5⟩
  · exact absurd h0 hv0
  · have hstab := primAux_stable d n n k hkn (v : ℕ) hvin
    have hpp : primMST d n (v : ℕ) = (primAux d n k).parent (v : ℕ) :=
      hstab.2
    have hval : ((primParentF d n hn v : Fin n) : ℕ)
        = ((primAux d n k).parent (v : ℕ)).toNat := by
      rw [primParentF_val d n hn v (by
        rw [hpp]
        exact q2)]
      rw [hpp]
    rw [hval]
    exact q4

theorem primEdges_final (d : ℕ → ℕ → α) (n : ℕ) (hn : 1 ≤ n) :
    primEdges d n hn n = parentEdges n (primParentF d n hn) := by
  have hfilt : (Finset.univ.filter (fun v : Fin n =>
      (v : ℕ) ≠ 0 ∧ (primAux d n n).inMST (v : ℕ) = true))
      = Finset.univ.filter (fun v : Fin n => (v : ℕ) ≠ 0) := by
    ext v
    rw [Finset.mem_filter, Finset.mem_filter]
    exact ⟨fun h => ⟨h.1, h.2.1⟩,
      fun h => ⟨h.1, h.2, primAux_all_inMST d n hn (v : ℕ) v.isLt⟩⟩
  unfold primEdges parentEdges
  rw [hfilt]

/-- Every spanning tree in the `IsTree` sense is connected and has
exactly `n - 1` edges. -/
theorem spanningTree_pred (n : ℕ) (E : Finset (Sym2 (Fin n)))
    (hE : SpanningTreeEdges n E) :
    (SimpleGraph.fromEdgeSet (↑E : Set (Sym2 (Fin n)))).Connected ∧
    E.card = n - 1 := by
  obtain ⟨htree, hnd⟩ := hE
  refine ⟨htree.isConnected, ?_⟩
  haveI : Fintype (SimpleGraph.fromEdgeSet
      (↑E : Set (Sym2 (Fin n)))).edgeSet := (Set.toFinite _).fintype
  have hcard := htree.card_edgeFinset
  have hfin : (SimpleGraph.fromEdgeSet
      (↑E : Set (Sym2 (Fin n)))).edgeFinset = E := by
    ext e
    rw [SimpleGraph.mem_edgeFinset, SimpleGraph.edgeSet_fromEdgeSet]
    constructor
    · rintro ⟨h1, -⟩
      exact Finset.mem_coe.1 h1
    · intro he
      exact ⟨Finset.mem_coe.2 he, hnd e he⟩
  rw [hfin, Fintype.card_fin] at hcard
  omega

/-- The main exchange induction: the edge set recorded by Prim's loop
after `k` iterations extends to a connected loop-free edge set of
`n - 1` edges whose weight is at most that of any given such set. -/
theorem prim_extend (d : ℕ → ℕ → α) (n : ℕ) (hn : 1 ≤ n)
    (hsym : ∀ i j, d i j = d j i) :
    ∀ k, 1 ≤ k → k ≤ n →
    ∀ E : Finset (Sym2 (Fin n)),
      (SimpleGraph.fromEdgeSet (↑E : Set (Sym2 (Fin n)))).Connected →
      E.card = n - 1 → (∀ e ∈ E, ¬ e.IsDiag) →
      ∃ F : Finset (Sym2 (Fin n)),
        (SimpleGraph.fromEdgeSet (↑F : Set (Sym2 (Fin n)))).Connected ∧
        F.card = n - 1 ∧ (∀ e ∈ F, ¬ e.IsDiag) ∧
        primEdges d n hn k ⊆ F ∧
        ∑ e ∈ F, edgeW d (Sym2.map Fin.val e)
          ≤ ∑ e ∈ E, edgeW d (Sym2.map Fin.val e)
  | 0, h1, _, _, _, _, _ => absurd h1 (by omega)
  | 1, _, _, E, hconn, hcard, hnd =>
    ⟨E, hconn, hcard, hnd, by
      rw [primEdges_one d n hn]
      exact Finset.empty_subset _, le_refl _⟩
  | k + 2, _, hk2, E, hconn, hcard, hnd => by
    obtain ⟨F, hFconn, hFcard, hFnd, hFsub, hFle⟩ :=
      prim_extend d n hn hsym (k + 1) (by omega) (by omega) E hconn
        hcard hnd
    have hscan0 := primAux_scan_nonneg d n hn (k + 1) (by omega)
    obtain ⟨u, hu, hueq, hunot⟩ := minKeyScan_mem n _ _ hscan0
    have hsucc := primEdges_succ d n hn (k + 1) (by omega) u hu hueq hunot
    have hstab : primMST d n u = (primAux d n (k + 1)).parent u := by
      have h1 : (primAux d n (k + 2)).inMST u = true := by
        rw [show (primAux d n (k + 2)).inMST u
            = (if u = u then true else (primAux d n (k + 1)).inMST u) from
            primStep_inMST_eq d n _ u hueq u, if_pos rfl]
      have h2 := primAux_stable d n n (k + 2) (by omega) u h1
      have h3 : (primAux d n (k + 2)).parent u
          = (primAux d n (k + 1)).parent u := by
        show (primStep d n (primAux d n (k + 1))).parent u = _
        rw [primStep_parent_eq d n _ u hueq u]
        rw [if_neg (by
          rintro ⟨-, hne, -, -⟩
          exact hne rfl)]
      calc primMST d n u = (primAux d n (k + 2)).parent u := h2.2
        _ = (primAux d n (k + 1)).parent u := h3
    obtain ⟨r, hA, hB, hC⟩ := primAux_parent_inv d n hn (k + 1) (by omega)
      (by omega)
    obtain ⟨q1, q2, q3, q4⟩ := hC u hu hunot
    have hpval : ((primParentF d n hn ⟨u, hu⟩ : Fin n) : ℕ)
        = ((primAux d n (k + 1)).parent u).toNat := by
      rw [primParentF_val d n hn ⟨u, hu⟩ (by
        show (primMST d n u).toNat < n
        rw [hstab]
        exact q2)]
      show (primMST d n u).toNat = _
      rw [hstab]
    by_cases hmem : Sym2.mk (⟨u, hu⟩, primParentF d n hn ⟨u, hu⟩) ∈ F
    · refine ⟨F, hFconn, hFcard, hFnd, ?_, hFle⟩
      rw [hsucc]
      exact Finset.insert_subset_iff.2 ⟨hmem, hFsub⟩
    · obtain ⟨f, hfF, ⟨c, c', hcS, hc'S, hfeq⟩, hconn', hcard', hnd',
        hle'⟩ :=
        exchange_step d n
          (fun z : Fin n => (primAux d n (k + 1)).inMST (z : ℕ) = true)
          F hFconn hFcard hFnd
          ⟨u, hu⟩ (primParentF d n hn ⟨u, hu⟩)
          (by
            show ¬ (primAux d n (k + 1)).inMST u = true
            rw [hunot]
            decide)
          (by
            show (primAux d n (k + 1)).inMST
              ((primParentF d n hn ⟨u, hu⟩ : Fin n) : ℕ) = true
            rw [hpval]
            exact q4)
          (by
            intro hcon
            apply q3
            rw [← hpval, ← hcon])
          hmem
          (by
            intro a b haS hbS
            rw [Sym2.map_pair_eq, Sym2.map_pair_eq,
              edgeW_mk_sym d hsym, edgeW_mk_sym d hsym]
            show d u ((primParentF d n hn ⟨u, hu⟩ : Fin n) : ℕ)
              ≤ d (b : ℕ) (a : ℕ)
            rw [hpval, hsym u, hsym (b : ℕ)]
            exact prim_cut_min d n hn (k + 1) (by omega) (by omega) u hu
              hueq hunot (a : ℕ) (b : ℕ) a.isLt b.isLt haS
              (by
                cases hb : (primAux d n (k + 1)).inMST (b : ℕ)
                · rfl
                · exact absurd hb hbS))
      refine ⟨insert (Sym2.mk (⟨u, hu⟩, primParentF d n hn ⟨u, hu⟩))
          (F.erase f), hconn', hcard', hnd', ?_, le_trans hle' hFle⟩
      rw [hsucc]
      apply Finset.insert_subset_insert
      intro g hg
      rw [Finset.mem_erase]
      refine ⟨?_, hFsub hg⟩
      intro hcon
      obtain ⟨v, w, hgvw, hvin, hwin⟩ :=
        primEdges_endpoints d n hn (k + 1) (by omega) (by omega) g hg
      rw [hcon, hfeq] at hgvw
      rcases Sym2.eq_iff.1 hgvw with ⟨h1, h2⟩ | ⟨h1, h2⟩
      · rw [← h1] at hvin
        exact hcS hvin
      · rw [← h1] at hwin
        exact hcS hwin

/-- **Claim C2.**  For every symmetric distance matrix over `n ≥ 2`
vertices, `primMST` returns a parent mapping with `parent[0] = -1`
whose `n - 1` edges `{v, parent[v]}` for `v = 1, …, n-1` form a
connected acyclic graph (a spanning tree) on all `n` vertices, of
total weight at most that of every spanning tree of the complete
graph on the same vertices. -/
theorem primMST_minimum_spanning_tree (d : ℕ → ℕ → α) (n : ℕ)
    (hn : 2 ≤ n) (hsym : ∀ i j, d i j = d j i) :
    primMST d n 0 = -1 ∧
    ∃ p : Fin n → Fin n,
      (∀ v : Fin n, (v : ℕ) ≠ 0 →
        ((p v : ℕ) : ℤ) = primMST d n (v : ℕ)) ∧
      (parentEdges n p).card = n - 1 ∧
      SpanningTreeEdges n (parentEdges n p) ∧
      ∀ E : Finset (Sym2 (Fin n)), SpanningTreeEdges n E →
        ∑ e ∈ parentEdges n p, edgeW d (Sym2.map Fin.val e)
          ≤ ∑ e ∈ E, edgeW d (Sym2.map Fin.val e) := by
  have hn1 : 1 ≤ n := by omega
  obtain ⟨r, hstruct⟩ := primMST_struct d n hn1
  have hval : ∀ v : Fin n, (v : ℕ) ≠ 0 →
      ((primParentF d n hn1 v : Fin n) : ℕ)
        = (primMST d n (v : ℕ)).toNat := by
    intro v hv0
    exact primParentF_val d n hn1 v
      (hstruct (v : ℕ) v.isLt hv0).2.1
  have hdescF : ∀ v : Fin n, (v : ℕ) ≠ 0 →
      (fun z : Fin n => r (z : ℕ)) (primParentF d n hn1 v)
        < (fun z : Fin n => r (z : ℕ)) v := by
    intro v hv0
    show r ((primParentF d n hn1 v : Fin n) : ℕ) < r (v : ℕ)
    rw [hval v hv0]
    exact (hstruct (v : ℕ) v.isLt hv0).2.2.2
  have hneF : ∀ v : Fin n, (v : ℕ) ≠ 0 → primParentF d n hn1 v ≠ v := by
    intro v hv0 hcon
    apply (hstruct (v : ℕ) v.isLt hv0).2.2.1
    rw [← hval v hv0, hcon]
  refine ⟨primAux_parent0 d n hn1 n, primParentF d n hn1, ?_, ?_, ?_, ?_⟩
  · intro v hv0
    rw [hval v hv0]
    exact Int.toNat_of_nonneg (hstruct (v : ℕ) v.isLt hv0).1
  · exact parentEdges_card n hn1 (primParentF d n hn1)
      (fun z : Fin n => r (z : ℕ)) hdescF
  · exact ⟨parentEdges_isTree n hn1 (primParentF d n hn1)
      (fun z : Fin n => r (z : ℕ)) hneF hdescF,
      parentEdges_nondiag n (primParentF d n hn1) hneF⟩
  · intro E hE
    obtain ⟨hconnE, hcardE⟩ := spanningTree_pred n E hE
    obtain ⟨F, hFconn, hFcard, hFnd, hFsub, hFle⟩ :=
      prim_extend d n hn1 hsym n hn1 (le_refl n) E hconnE hcardE hE.2
    have hsub' : parentEdges n (primParentF d n hn1) ⊆ F := by
      rw [← primEdges_final d n hn1]
      exact hFsub
    have heq : parentEdges n (primParentF d n hn1) = F :=
      Finset.eq_of_subset_of_card_le hsub' (by
        rw [hFcard, parentEdges_card n hn1 (primParentF d n hn1)
          (fun z : Fin n => r (z : ℕ)) hdescF])
    rw [heq]
    exact hFle

/-- Witness for C2 at the 2-point rational matrix with all distances
equal to `1`. -/
theorem primMST_minimum_spanning_tree_witness :
    primMST (fun _ _ => (1 : ℚ)) 2 0 = -1 ∧
    ∃ p : Fin 2 → Fin 2,
      (∀ v : Fin 2, (v : ℕ) ≠ 0 →
        ((p v : ℕ) : ℤ) = primMST (fun _ _ => (1 : ℚ)) 2 (v : ℕ)) ∧
      (parentEdges 2 p).card = 2 - 1 ∧
      SpanningTreeEdges 2 (parentEdges 2 p) ∧
      ∀ E : Finset (Sym2 (Fin 2)), SpanningTreeEdges 2 E →
        ∑ e ∈ parentEdges 2 p,
            edgeW (fun _ _ => (1 : ℚ)) (Sym2.map Fin.val e)
          ≤ ∑ e ∈ E, edgeW (fun _ _ => (1 : ℚ)) (Sym2.map Fin.val e) :=
  primMST_minimum_spanning_tree (fun _ _ => (1 : ℚ)) 2 (le_refl 2)
    (fun _ _ => rfl)

end TSP
